import Mathlib

/-!
LegalizationPass: a shallow embedding of the rewrite rules of
`IGC/Compiler/LegalizationPass.cpp`.

Each rule is embedded with the part of the IR it reads and writes: the return
unifier on functions, blocks and terminators; the shuffle rule on vector values
and insert chains; the and/or rule on a def-use graph; the numeric rules on the
values their instruction sequences compute.

Machine integers of width `w` are natural numbers below `2 ^ w`; every
operation reduces its result modulo `2 ^ w` where the hardware would wrap.
Floating-point constants are carried as their bit patterns.  Where a rule is
evaluated "in exact arithmetic" the carrier is `ℚ`.
-/

set_option autoImplicit false

namespace Legalization

/-! ## `visitIntrinsicInst`, case `Intrinsic::uadd_with_overflow` -/

/-- Embeds `BinaryOperator::Create(Instruction::Add, src0, src1)` at integer width `w`. -/
def createAdd (w src0 src1 : Nat) : Nat := (src0 + src1) % 2 ^ w

/-- Embeds `CmpInst::Create(Instruction::ICmp, CmpInst::ICMP_ULT, lhs, rhs)`. -/
def createICmpULT (lhs rhs : Nat) : Bool := decide (lhs < rhs)

/-- What a value can be replaced with by the `uadd_with_overflow` case: the
new add instruction `res` or the new compare instruction `isOverflow`,
each carried with the value it computes. -/
inductive UAddRepl where
  | res (value : Nat)
  | isOverflow (flag : Bool)
  deriving DecidableEq, Repr

/-- A user of the intrinsic call: an `extractvalue` with its first index, or
any other instruction. -/
inductive UAddUser where
  | extractValue (index0 : Nat)
  | notExtract
  deriving DecidableEq, Repr

/-- The body of the loop over the users of the call: the value that replaces
all uses of the user (`none` where the source only asserts). -/
def uaddReplaceUser (res : Nat) (isOverflow : Bool) : UAddUser → Option UAddRepl
  | .extractValue 0 => some (.res res)
  | .extractValue 1 => some (.isOverflow isOverflow)
  | .extractValue _ => none
  | .notExtract => none

/-- The `uadd_with_overflow` case of `visitIntrinsicInst` on a call whose
arguments have the `w`-bit values `src0`, `src1`: for every user, in order, the
replacement of its uses. -/
def visitIntrinsicInst_uadd (w src0 src1 : Nat) (users : List UAddUser) :
    List (Option UAddRepl) :=
  let res := createAdd w src0 src1
  let isOverflow := createICmpULT res src0
  users.map (uaddReplaceUser res isOverflow)

end Legalization

namespace Legalization

/-! ## `unifyReturnInsts`: functions, blocks and terminators -/

/-- A value an instruction refers to: `ext id` is an argument, a constant or
the result of an instruction the model does not look into; `inst block pos` is
the result of the instruction at position `pos` of block number `block`. -/
inductive Value where
  | ext (id : Nat)
  | inst (block pos : Nat)
  deriving DecidableEq, Repr

/-- Instructions, as far as the return unifier tells them apart.  Blocks are
named by their position in the function.  `terminator` is any terminator that
is neither a return nor a branch (`unreachable`, `switch`, ...); `other` is any
non-terminator that is not a phi.  A phi entry carries the operand field of the
return it came from, which is `some _` in a function that returns a value. -/
inductive Inst where
  | ret (v : Option Value)
  | br (dest : Nat)
  | condBr (cond : Value) (ifTrue ifFalse : Nat)
  | terminator (operands : List Value) (succs : List Nat)
  | phi (incoming : List (Option Value × Nat))
  | other (operands : List Value)
  deriving DecidableEq, Repr

/-- Embeds `isa<ReturnInst>`. -/
def Inst.isReturnInst : Inst → Bool
  | .ret _ => true
  | _ => false

/-- Embeds `isa<TerminatorInst>`. -/
def Inst.isTerminator : Inst → Bool
  | .ret _ => true
  | .br _ => true
  | .condBr _ _ _ => true
  | .terminator _ _ => true
  | _ => false

/-- A basic block: its instruction list, in order. -/
structure BasicBlock where
  insts : List Inst
  deriving DecidableEq, Repr

/-- A function: whether its return type is `void`, and its blocks in order. -/
structure Function where
  returnsVoid : Bool
  blocks : List BasicBlock
  deriving DecidableEq, Repr

/-- Embeds `BasicBlock::getTerminator`: the last instruction if it is a terminator. -/
def BasicBlock.getTerminator (bb : BasicBlock) : Option Inst :=
  match bb.insts.getLast? with
  | some i => if i.isTerminator then some i else none
  | none => none

/-- Embeds `isa<ReturnInst>(I->getTerminator())`. -/
def BasicBlock.isReturning (bb : BasicBlock) : Bool :=
  match bb.getTerminator with
  | some i => i.isReturnInst
  | none => false

/-- The first loop of `unifyReturnInsts`: the blocks that end in a return, in
function order; `i` is the number of the first block of the list. -/
def returningBlocksFrom : Nat → List BasicBlock → List Nat
  | _, [] => []
  | i, bb :: rest =>
    if bb.isReturning then i :: returningBlocksFrom (i + 1) rest
    else returningBlocksFrom (i + 1) rest

/-- Embeds `BB->getTerminator()->getOperand(0)` of a returning block. -/
def BasicBlock.returnOperand (bb : BasicBlock) : Option Value :=
  match bb.getTerminator with
  | some (.ret v) => v
  | _ => none

/-- One round of the second loop of `unifyReturnInsts` on block `BB`: add an
incoming entry to the phi when there is one, pop the return, append a branch to
the new block.  The state is the block list and the entries of the phi. -/
def replaceReturn (NewRetBlock : Nat) (hasPN : Bool)
    (st : List BasicBlock × List (Option Value × Nat)) (BB : Nat) :
    List BasicBlock × List (Option Value × Nat) :=
  match st.1[BB]? with
  | none => st
  | some bb =>
    let incoming := if hasPN then st.2 ++ [(bb.returnOperand, BB)] else st.2
    (st.1.set BB ⟨bb.insts.dropLast ++ [.br NewRetBlock]⟩, incoming)

/-- Embeds `Legalization::unifyReturnInsts`.  The new block is appended to the
function, so its number is the old block count; its phi, when there is one, is
its first instruction. -/
def unifyReturnInsts (F : Function) : Function :=
  let ReturningBlocks := returningBlocksFrom 0 F.blocks
  if ReturningBlocks.length ≤ 1 then F
  else
    let NewRetBlock := F.blocks.length
    let hasPN := !F.returnsVoid
    let st := ReturningBlocks.foldl (replaceReturn NewRetBlock hasPN) (F.blocks, [])
    let newBlock : BasicBlock :=
      if F.returnsVoid then ⟨[.ret none]⟩
      else ⟨[.phi st.2, .ret (some (.inst NewRetBlock 0))]⟩
    { F with blocks := st.1 ++ [newBlock] }

/-- Number of return instructions in a block. -/
def BasicBlock.numReturns (bb : BasicBlock) : Nat := bb.insts.countP Inst.isReturnInst

/-- Number of return instructions in a list of blocks. -/
def numReturnsIn (blocks : List BasicBlock) : Nat := (blocks.map BasicBlock.numReturns).sum

/-- Number of return instructions in a function. -/
def Function.numReturns (F : Function) : Nat := numReturnsIn F.blocks

/-- The block invariant of the IR: a block is non-empty, ends in a terminator
and has no terminator before its end. -/
def BasicBlock.wellFormed (bb : BasicBlock) : Bool :=
  (match bb.insts.getLast? with
   | some i => i.isTerminator
   | none => false) && bb.insts.dropLast.all (fun i => !i.isTerminator)

/-- Every block of the function is well formed. -/
def Function.wellFormed (F : Function) : Bool := F.blocks.all BasicBlock.wellFormed


end Legalization

namespace Legalization

/-! ## `visitShuffleVectorInst` and `findInsert`: vector values -/

/-- Values as the vector rules see them.  A constant vector is its list of
lanes, `none` for an undefined lane (so `UndefValue` of a vector type is the
all-`none` list); `leaf` is an argument or an instruction the rules do not
look into, scalar or vector. -/
inductive VecValue where
  | constInt (v : Nat)
  | undef
  | constVec (lanes : List (Option Nat))
  | leaf (id : Nat)
  | insertElement (vec elt idx : VecValue)
  | extractElement (vec idx : VecValue)
  deriving DecidableEq, Repr

/-- Embeds `dyn_cast<Constant>`. -/
def VecValue.isConstant : VecValue → Bool
  | .constInt _ => true
  | .undef => true
  | .constVec _ => true
  | _ => false

/-- Embeds `Constant::getAggregateElement`: the lane of a constant vector as a scalar
constant, `none` (a null pointer) when there is no such lane. -/
def VecValue.getAggregateElement : VecValue → Nat → Option VecValue
  | .constVec lanes, i =>
    match lanes[i]? with
    | some (some c) => some (.constInt c)
    | some none => some .undef
    | none => none
  | _, _ => none

/-- Embeds `Legalization::findInsert`: walk up a chain of `insertelement`s.  The
constant index is read as a 32-bit unsigned (`static_cast<uint>`). -/
def findInsert : VecValue → Nat → Option VecValue
  | .insertElement vec elt (.constInt indexOp), index =>
    if indexOp % 2 ^ 32 = index then some elt else findInsert vec index
  | _, _ => none

/-- The body of the loop of `visitShuffleVectorInst` for the destination lane
`dstIndex` with mask entry `maskElt` (`none` for an undefined entry): the new
value of `newVec`, or `none` when the source hands a null value to the
insertion. -/
def shuffleLane (src0 src1 : VecValue) (inCount : Nat) (newVec : VecValue)
    (dstIndex : Nat) (maskElt : Option Nat) : Option VecValue :=
  match maskElt with
  | none => some newVec
  | some indexVal =>
    let srcVector := if indexVal < inCount then src0 else src1
    let srcIndex := if indexVal < inCount then indexVal else indexVal - inCount
    let srcVal : Option VecValue :=
      if srcVector.isConstant then srcVector.getAggregateElement dstIndex
      else
        match findInsert srcVector srcIndex with
        | some v => some v
        | none => some (.extractElement srcVector (.constInt srcIndex))
    srcVal.map (fun v => .insertElement newVec v (.constInt dstIndex))

/-- The loop of `visitShuffleVectorInst` from lane `dstIndex` on, over the mask
entries still to do. -/
def shuffleLoop (src0 src1 : VecValue) (inCount : Nat) :
    VecValue → Nat → List (Option Nat) → Option VecValue
  | newVec, _, [] => some newVec
  | newVec, dstIndex, maskElt :: rest =>
    match shuffleLane src0 src1 inCount newVec dstIndex maskElt with
    | some v => shuffleLoop src0 src1 inCount v (dstIndex + 1) rest
    | none => none

/-- Embeds `Legalization::visitShuffleVectorInst` on `shufflevector src0, src1, mask`,
where the inputs have `inCount` lanes: the value that replaces the shuffle.  The
result has as many lanes as the mask. -/
def visitShuffleVectorInst (src0 src1 : VecValue) (inCount : Nat)
    (mask : List (Option Nat)) : Option VecValue :=
  shuffleLoop src0 src1 inCount (.constVec (List.replicate mask.length none)) 0 mask

/-- What a value evaluates to: a scalar or a vector of lanes, `none` standing
for an undefined scalar or lane. -/
inductive RVal where
  | scalar (v : Option Nat)
  | vector (lanes : List (Option Nat))
  deriving DecidableEq, Repr

/-- Evaluation of a value, given what the leaf values evaluate to.  An
insertion or extraction whose operands have the wrong kind, or whose index is
undefined or out of range, gives an undefined result. -/
def VecValue.eval (env : Nat → RVal) : VecValue → RVal
  | .constInt v => .scalar (some v)
  | .undef => .scalar none
  | .constVec lanes => .vector lanes
  | .leaf id => env id
  | .insertElement vec elt idx =>
    match vec.eval env, elt.eval env, idx.eval env with
    | .vector lanes, .scalar x, .scalar (some k) =>
      if k < lanes.length then .vector (lanes.set k x)
      else .vector (List.replicate lanes.length none)
    | .vector lanes, _, _ => .vector (List.replicate lanes.length none)
    | _, _, _ => .scalar none
  | .extractElement vec idx =>
    match vec.eval env, idx.eval env with
    | .vector lanes, .scalar (some k) => .scalar (lanes[k]?.join)
    | _, _ => .scalar none

/-- Lane `m` of the concatenation of the two inputs of a shuffle. -/
def concatLane (env : Nat → RVal) (src0 src1 : VecValue) (m : Nat) : Option Nat :=
  match src0.eval env, src1.eval env with
  | .vector l0, .vector l1 => ((l0 ++ l1)[m]?).join
  | _, _ => none

end Legalization

namespace Legalization

/-! ## `visitBinaryOperator`, case `Instruction::FRem`, in exact arithmetic -/

/-- The instruction sequence that `visitBinaryOperator` builds for
`frem a, b`, every floating-point operation read as the exact operation on
rationals. -/
def visitBinaryOperator_FRem (a b : ℚ) : ℚ :=
  let mulab := a * b
  let sign : Bool := decide (-mulab ≤ mulab)
  let sel := if sign then b else -b
  let selInv := 1 / sel
  let div := a * selInv
  let floordiv : ℚ := ((⌊div⌋ : ℤ) : ℚ)
  let frc := div - floordiv
  frc * sel

/-- Rounding toward zero. -/
def truncToZero (x : ℚ) : ℤ := if 0 ≤ x then ⌊x⌋ else ⌈x⌉

/-- The remainder that carries the sign of the dividend, `a - b * trunc (a / b)`. -/
def fremExact (a b : ℚ) : ℚ := a - b * ((truncToZero (a / b) : ℤ) : ℚ)

end Legalization

/-! ## The FDIV expansion: `isCandidateFDiv`, `needsNoScaling`, `expandFDIVInstructions` -/

/-- Result types as the FDIV expansion tells them apart; `other` is every type
that is not a scalar floating-point type (integers, vectors, ...). -/
inductive Ty where
  | half
  | float
  | double
  | other
  deriving DecidableEq, Repr

/-- Operands of an instruction as the FDIV expansion sees them: a `ConstantFP`
with its type and bit pattern, or any other value. -/
inductive FValue where
  | constFP (ty : Ty) (bits : Nat)
  | nonConst (id : Nat)
  deriving DecidableEq, Repr

/-- Opcodes; `other` is every opcode but `FDiv`. -/
inductive Opcode where
  | FDiv
  | other
  deriving DecidableEq, Repr

/-- An instruction: number of uses of its result, result type, opcode, operands. -/
structure Instruction where
  numUses : Nat
  ty : Ty
  opcode : Opcode
  operands : List FValue
  deriving DecidableEq, Repr

/-- Bit pattern of `1.0` in each floating-point format. -/
def Ty.oneBits : Ty → Option Nat
  | .half => some 0x3C00
  | .float => some 0x3F800000
  | .double => some 0x3FF0000000000000
  | .other => none

/-- Embeds `dyn_cast<ConstantFP>(V)` followed by `isExactlyValue(1.0)`: the value is a
floating-point constant whose bits are those of `1.0` in its own format. -/
def FValue.isExactlyOne : FValue → Bool
  | .constFP ty bits => ty.oneBits == some bits
  | .nonConst _ => false

/-- Embeds `isCandidateFDiv`.  Past the type test every instruction is an
`FPMathOperator`, so the cast succeeds and only the opcode is left to test. -/
def isCandidateFDiv (Inst : Instruction) : Bool :=
  if Inst.numUses = 0 then false
  else if Inst.ty ≠ .float ∧ Inst.ty ≠ .half then false
  else if Inst.opcode = .FDiv then
    match (Inst.operands[0]? : Option FValue) with
    | some (.constFP ty bits) => !(FValue.constFP ty bits).isExactlyOne
    | _ => true
  else false

/-- Embeds `needsNoScaling`: the bit pattern of a single-precision constant is masked
with `0x7f800000` and compared with `0` and `200 << 23`. -/
def needsNoScaling : FValue → Bool
  | .constFP .float bits =>
    let UVal := bits &&& 0x7f800000
    decide (0 < UVal) && decide (UVal < 200 <<< 23)
  | _ => false

/-- Biased exponent field of a single-precision bit pattern. -/
def biasedExponent (u : Nat) : Nat := (u >>> 23) &&& 0xFF

namespace IGC

/-- The scale factor built in the general case of `expandFDIVInstructions`
from the bit pattern of the divisor `Y`: `C0 = 2^32`, `C1 = 1.0`, `C2 = 1 / 2^32`,
all three exactly representable. -/
def expandFDIV_Scale (ybits : Nat) : ℚ :=
  let S32 : ℚ := 2 ^ 32
  let C0 : ℚ := S32
  let C1 : ℚ := 1
  let C2 : ℚ := 1 / S32
  let Exp := ybits &&& 0x7f800000
  let P1 : Bool := decide (Exp = 0)
  let Scale := if P1 then C0 else C1
  let P2 : Bool := decide (200 <<< 23 ≤ Exp)
  if P2 then C2 else Scale

/-- The two selects of `expandFDIV_Scale` taken in the other order: first the
test for a large exponent, then the test for a zero exponent. -/
def expandFDIV_Scale_swapped (ybits : Nat) : ℚ :=
  let S32 : ℚ := 2 ^ 32
  let C0 : ℚ := S32
  let C1 : ℚ := 1
  let C2 : ℚ := 1 / S32
  let Exp := ybits &&& 0x7f800000
  let P2 : Bool := decide (200 <<< 23 ≤ Exp)
  let Scale := if P2 then C2 else C1
  let P1 : Bool := decide (Exp = 0)
  if P1 then C0 else Scale

end IGC

namespace Legalization

/-! ## `visitBinaryOperator`, case `And` / `Or`: the De Morgan rewrite on the def-use graph -/

/-- Operands of the instructions the rule looks at: the result of the
instruction with a given id, an argument (or any other value that is neither an
instruction nor a constant), the all-ones constant (`true` at one bit), or any
other constant. -/
inductive Operand where
  | inst (id : Nat)
  | arg (id : Nat)
  | allOnes
  | const (v : Nat)
  deriving DecidableEq, Repr

/-- Opcodes of binary operators; `other` is every opcode but these three. -/
inductive BinOp where
  | And
  | Or
  | Xor
  | other
  deriving DecidableEq, Repr

/-- Instructions.  A conditional branch carries its condition and its two
successors; an unconditional branch has no value operand.  `other` is any other
instruction, with its value operands. -/
inductive Instr where
  | binary (op : BinOp) (src0 src1 : Operand)
  | select (cond trueValue falseValue : Operand)
  | condBr (cond : Operand) (ifTrue ifFalse : Nat)
  | br (dest : Nat)
  | other (operands : List Operand)
  deriving DecidableEq, Repr

/-- A function body: the instructions in program order, each with its id. -/
abbrev Body := List (Nat × Instr)

/-- The value operands of an instruction. -/
def Instr.operands : Instr → List Operand
  | .binary _ a b => [a, b]
  | .select c t f => [c, t, f]
  | .condBr c _ _ => [c]
  | .br _ => []
  | .other ops => ops

/-- The instruction with a given id. -/
def Body.lookup (F : Body) (id : Nat) : Option Instr :=
  (F.find? (fun p => p.1 == id)).map (fun p => p.2)

/-- Number of uses of a value: the operand slots that hold it. -/
def Body.numUses (F : Body) (v : Operand) : Nat :=
  (F.map (fun p => p.2.operands.count v)).sum

/-- Embeds `Value::hasOneUse`. -/
def Body.hasOneUse (F : Body) (v : Operand) : Bool := F.numUses v == 1

/-- The users of instruction `id`: the instructions that hold it as an operand,
in program order. -/
def Body.users (F : Body) (id : Nat) : List (Nat × Instr) :=
  F.filter (fun p => p.2.operands.contains (.inst id))

/-- Embeds `BinaryOperator::isNot`: an `xor` one of whose operands is the all-ones
constant. -/
def Body.isNot (F : Body) : Operand → Bool
  | .inst j =>
    match F.lookup j with
    | some (.binary .Xor a b) => b == .allOnes || a == .allOnes
    | _ => false
  | _ => false

/-- Embeds `cast<llvm::Instruction>(src)->getOperand(0)`. -/
def Body.getOperand0 (F : Body) : Operand → Option Operand
  | .inst j =>
    match F.lookup j with
    | some i => i.operands[0]?
    | none => none
  | _ => none

/-- The test in the first loop over the users of `I`: the user is a select or a
branch, and a select has `I` as its condition. -/
def flippableUser (I : Nat) : Instr → Bool
  | .select c _ _ => c == .inst I
  | .condBr _ _ _ => true
  | .br _ => true
  | _ => false

/-- The body of the `while (!I.user_empty())` loop on one user: a select gets
its two data operands exchanged and `invert` as condition, a branch gets its
successors swapped and `invert` as condition. -/
def flipUser (invert : Operand) : Instr → Instr
  | .select _ trueValue falseValue => .select invert falseValue trueValue
  | .condBr _ ifTrue ifFalse => .condBr invert ifFalse ifTrue
  | i => i

/-- The `while (!I.user_empty())` loop: as long as `I` has a user, one user is
flipped.  The use list of the source is not ordered by the program; the loop
takes the first user in program order.  `none` when the fuel runs out before
`I` is without users. -/
def flipLoop (I : Nat) (invert : Operand) : Nat → Body → Option Body
  | 0, _ => none
  | fuel + 1, F =>
    match F.users I with
    | [] => some F
    | U :: _ =>
      flipLoop I invert fuel
        (F.map (fun p => if p.1 = U.1 then (p.1, flipUser invert p.2) else p))

/-- An id no instruction of the body has. -/
def Body.freshId (F : Body) : Nat := (F.map (fun p => p.1)).foldl max 0 + 1

/-- Insert an instruction right before the instruction with id `I`. -/
def Body.insertBefore (F : Body) (I : Nat) (new : Nat × Instr) : Body :=
  match F with
  | [] => []
  | p :: rest => if p.1 = I then new :: p :: rest else p :: Body.insertBefore rest I new

/-- Embeds `eraseFromParent` of the instruction with id `I`. -/
def Body.erase (F : Body) (I : Nat) : Body := F.filter (fun p => p.1 != I)

/-- The `And` / `Or` case of `Legalization::visitBinaryOperator` on the
instruction with id `I`: the body afterwards, `none` when the loop over the
users does not come to an end within the fuel.  The instruction counter
`numInsts` is not part of the body. -/
def visitBinaryOperator_AndOr (fuel : Nat) (F : Body) (I : Nat) : Option Body :=
  match F.lookup I with
  | some (.binary op src0 src1) =>
    if op = .And ∨ op = .Or then
      if F.isNot src0 && F.isNot src1 && F.hasOneUse src0 && F.hasOneUse src1 then
        let flippable := (F.users I).all (fun U => flippableUser I U.2)
        if flippable then
          match F.getOperand0 src0, F.getOperand0 src1, src0, src1 with
          | some a, some b, .inst n0, .inst n1 =>
            let invertId := F.freshId
            let invertOp := if op = .And then BinOp.Or else BinOp.And
            let F1 := F.insertBefore I (invertId, .binary invertOp a b)
            match flipLoop I (.inst invertId) fuel F1 with
            | some F2 => some (((F2.erase I).erase n0).erase n1)
            | none => none
          | _, _, _, _ => some F
        else some F
      else some F
    else some F
  | _ => some F

/-- What an instruction yields when it is executed: a value, or the label
control goes to. -/
inductive Outcome where
  | value (v : Nat)
  | goto (label : Nat)
  deriving DecidableEq, Repr

/-- Value of an operand of one-bit type, given the values of the arguments and
of the instructions executed so far. -/
def Operand.eval (args : Nat → Nat) (env : Nat → Nat) : Operand → Nat
  | .inst id => env id
  | .arg k => args k
  | .allOnes => 1
  | .const v => v

/-- Execution of one instruction on one-bit conditions: `and`, `or`, `xor` are
the bitwise operations, a select and a branch take their first alternative
when the condition is `1`. -/
def Instr.exec (args : Nat → Nat) (env : Nat → Nat) : Instr → Outcome
  | .binary .And a b => .value (a.eval args env &&& b.eval args env)
  | .binary .Or a b => .value (a.eval args env ||| b.eval args env)
  | .binary .Xor a b => .value (a.eval args env ^^^ b.eval args env)
  | .binary .other _ _ => .value 0
  | .select c t f => .value (if c.eval args env = 1 then t.eval args env else f.eval args env)
  | .condBr c t f => .goto (if c.eval args env = 1 then t else f)
  | .br dest => .goto dest
  | .other _ => .value 0

/-- Straight-line execution of a body: every instruction in order; the outcome
of each is recorded under its id, and a value is added to the environment. -/
def Body.run (args : Nat → Nat) : Body → (Nat → Nat) → List (Nat × Outcome)
  | [], _ => []
  | (id, i) :: rest, env =>
    let out := i.exec args env
    let env1 : Nat → Nat := match out with
      | .value v => fun k => if k = id then v else env k
      | .goto _ => env
    (id, out) :: Body.run args rest env1

/-- The outcome of the instruction with a given id in a run from the empty
environment. -/
def Body.outcome (F : Body) (args : Nat → Nat) (id : Nat) : Option Outcome :=
  ((F.run args (fun _ => 0)).find? (fun p => p.1 == id)).map (fun p => p.2)

/-- A consumer of the and/or instruction, with operands that are arguments:
`select %I, x, y` or `br %I, t, f`. -/
inductive Consumer where
  | select (x y : Nat)
  | condBr (t f : Nat)
  deriving DecidableEq, Repr

/-- The instruction of a consumer, on a given condition. -/
def Consumer.toInstr (cond : Operand) : Consumer → Instr
  | .select x y => .select cond (.arg x) (.arg y)
  | .condBr t f => .condBr cond t f

/-- A consumer with its two alternatives exchanged. -/
def Consumer.flipped : Consumer → Consumer
  | .select x y => .select y x
  | .condBr t f => .condBr f t

/-- What a consumer yields when its condition holds or not. -/
def Consumer.expected (args : Nat → Nat) (cond : Bool) : Consumer → Outcome
  | .select x y => .value (if cond then args x else args y)
  | .condBr t f => .goto (if cond then t else f)

/-- The instructions of a list of consumers, numbered from `k` on. -/
def consumersFrom (cond : Operand) : Nat → List Consumer → Body
  | _, [] => []
  | k, c :: cs => (k, c.toInstr cond) :: consumersFrom cond (k + 1) cs

/-- The shape the rule is written for: `%0 = xor a, -1`, `%1 = xor b, -1`,
`%2 = op %0, %1`, followed by the consumers of `%2`, numbered from 3 on. -/
def deMorganBody (op : BinOp) (a b : Nat) (cs : List Consumer) : Body :=
  (0, .binary .Xor (.arg a) .allOnes) :: (1, .binary .Xor (.arg b) .allOnes) ::
    (2, .binary op (.inst 0) (.inst 1)) :: consumersFrom (.inst 2) 3 cs

/-- The dual of `and` is `or`, and of anything else `and`, as in the rule. -/
def dualOp (op : BinOp) : BinOp := if op = .And then .Or else .And

/-- The body the rule leaves: the dual operation on `a`, `b` under a new id,
followed by the consumers, each flipped and conditioned on the new instruction. -/
def deMorganResult (op : BinOp) (a b : Nat) (cs : List Consumer) : Body :=
  (3 + cs.length, .binary (dualOp op) (.arg a) (.arg b)) ::
    consumersFrom (.inst (3 + cs.length)) 3 (cs.map Consumer.flipped)

/-- The value of `op (not a) (not b)` on one-bit `a`, `b`, as a truth value. -/
def deMorganCond (op : BinOp) (a b : Nat) : Bool :=
  if op = .And then decide (a = 0 ∧ b = 0) else decide (a = 0 ∨ b = 0)

/-- The body `%0 = xor i1 true, %a`, `%1 = xor i1 %b, true`, `%2 = and i1 %0, %1`,
`%3 = select i1 %2, i32 %x, i32 %y`, with the arguments `%a`, `%b`, `%x`, `%y`
numbered 0 to 3. -/
def deMorganSwappedNot : Body :=
  [(0, .binary .Xor .allOnes (.arg 0)), (1, .binary .Xor (.arg 1) .allOnes),
    (2, .binary .And (.inst 0) (.inst 1)), (3, .select (.inst 2) (.arg 2) (.arg 3))]

/-- What a list of consumers, numbered from `k` on, yields on a given condition. -/
def outcomesFrom (args : Nat → Nat) (cond : Bool) : Nat → List Consumer → List (Nat × Outcome)
  | _, [] => []
  | k, c :: cs => (k, c.expected args cond) :: outcomesFrom args cond (k + 1) cs

end Legalization

/-! ## `GetMaskedValue` and `visitICmpInst`: compares of a truncated value -/

/-- The integer compare predicates. -/
inductive Predicate where
  | ICMP_EQ
  | ICMP_NE
  | ICMP_UGT
  | ICMP_UGE
  | ICMP_ULT
  | ICMP_ULE
  | ICMP_SGT
  | ICMP_SGE
  | ICMP_SLT
  | ICMP_SLE
  deriving DecidableEq, Repr

/-- Embeds `CmpInst::isSigned`. -/
def Predicate.isSigned : Predicate → Bool
  | .ICMP_SGT => true
  | .ICMP_SGE => true
  | .ICMP_SLT => true
  | .ICMP_SLE => true
  | _ => false

/-- The signed reading of a `w`-bit pattern (two's complement). -/
def toSigned (w v : Nat) : Int := if v < 2 ^ (w - 1) then (v : Int) else (v : Int) - 2 ^ w

/-- The `w`-bit pattern of an integer. -/
def ofSigned (w : Nat) (z : Int) : Nat := (z % 2 ^ w).toNat

/-- Embeds `icmp p a, b` on `w`-bit patterns. -/
def icmp (p : Predicate) (w a b : Nat) : Bool :=
  match p with
  | .ICMP_EQ => decide (a = b)
  | .ICMP_NE => decide (a ≠ b)
  | .ICMP_UGT => decide (b < a)
  | .ICMP_UGE => decide (b ≤ a)
  | .ICMP_ULT => decide (a < b)
  | .ICMP_ULE => decide (a ≤ b)
  | .ICMP_SGT => decide (toSigned w b < toSigned w a)
  | .ICMP_SGE => decide (toSigned w b ≤ toSigned w a)
  | .ICMP_SLT => decide (toSigned w a < toSigned w b)
  | .ICMP_SLE => decide (toSigned w a ≤ toSigned w b)

/-- Embeds `trunc` to `n` bits. -/
def trunc (n x : Nat) : Nat := x % 2 ^ n

/-- Embeds `zext`: the pattern is kept. -/
def zext (c : Nat) : Nat := c

/-- Embeds `sext` from `n` to `w` bits. -/
def sext (n w c : Nat) : Nat := ofSigned w (toSigned n c)

/-- Embeds `shl` at width `w`. -/
def shl (w x s : Nat) : Nat := (x <<< s) % 2 ^ w

/-- Embeds `ashr` at width `w`: the signed reading is divided by `2 ^ s`, rounding down. -/
def ashr (w x s : Nat) : Nat := ofSigned w (toSigned w x / 2 ^ s)

/-- Embeds `IntegerType::getBitMask` of the `n`-bit integer type, in LLVM
`~uint64_t(0UL) >> (64 - getBitWidth())`: a `uint64_t`, for a width up to 64 the
mask with ones in the low `n` bits (`0xFF` for `i8`, `0xFFFF` for `i16`, ...).
For a wider type the shift count is out of range and C++ leaves the value
undefined: `undefMask` stands for it, reduced to the 64 bits of the return
type. -/
def getBitMask (undefMask n : Nat) : Nat :=
  if n ≤ 64 then 2 ^ n - 1 else undefMask % 2 ^ 64

/-- Embeds `GetMaskedValue`: `Src` has the `srcWidth`-bit type, `Ty` is the narrower
`tyWidth`-bit type.  `CreateAnd(Src, uint64_t)` extends the 64-bit mask with
zeros to the type of `Src`. -/
def GetMaskedValue (undefMask : Nat) (Signed : Bool) (srcWidth Src tyWidth : Nat) : Nat :=
  if !Signed then Src &&& getBitMask undefMask tyWidth
  else
    let ShAmt := srcWidth - tyWidth
    ashr srcWidth (shl srcWidth Src ShAmt) ShAmt

namespace Legalization

/-- The second rewrite of `visitICmpInst`, for `icmp p (trunc Src to iN), C`
with `Src` of width `srcWidth` and `N = tyWidth` an illegal width: the value
of the compare `NCmp` that replaces the original one.  `undefMask` is what
`getBitMask` yields for a width above 64. -/
def visitICmpInst_NCmp (undefMask : Nat) (p : Predicate) (srcWidth tyWidth Src Op1 : Nat) :
    Bool :=
  let NOp0 := GetMaskedValue undefMask p.isSigned srcWidth Src tyWidth
  let NOp1 := if p.isSigned then sext tyWidth srcWidth Op1 else zext Op1
  icmp p srcWidth NOp0 NOp1

/-- The compare before the rewrite: `icmp p (trunc Src to iN), C` at width `N`. -/
def icmpOfTrunc (p : Predicate) (tyWidth Src Op1 : Nat) : Bool :=
  icmp p tyWidth (trunc tyWidth Src) Op1

end Legalization

namespace Legalization

/-! ## One-bit compare, select and phi: `visitICmpInst`, `visitSelectInst`, `visitPHINode` -/

/-- Embeds `CastInst::CreateIntegerCast(V, Ty, isSigned)` from `srcWidth` up to
`dstWidth` bits: a sign extension when `isSigned`, a zero extension otherwise. -/
def CreateIntegerCast (srcWidth dstWidth : Nat) (isSigned : Bool) (V : Nat) : Nat :=
  if isSigned then sext srcWidth dstWidth V else zext V

/-- The first rewrite of `visitICmpInst`, for operands of type `i1`: the value of
the compare `new_IC` on the two operands cast to `i8`. -/
def visitICmpInst_i1 (p : Predicate) (Op0 Op1 : Nat) : Bool :=
  let operand0_i8 := CreateIntegerCast 1 8 p.isSigned Op0
  let operand1_i8 := CreateIntegerCast 1 8 p.isSigned Op1
  icmp p 8 operand0_i8 operand1_i8

/-- The first case of `visitSelectInst`, for a select of type `i1`: the value of
`pTruncInst`, the truncation of the select on the operands extended to `i32`. -/
def visitSelectInst_i1 (pCond : Bool) (pSrc0 pSrc1 : Nat) : Nat :=
  let pSrc0ZExt := zext pSrc0
  let pSrc1ZExt := zext pSrc1
  let pNewSel := if pCond then pSrc0ZExt else pSrc1ZExt
  trunc 1 pNewSel

/-- The incoming entries of `newPhi` in `visitPHINode`: every source is
sign-extended to `i32` in its incoming block; an entry is a value with the
number of its block. -/
def visitPHINode_newPhi (incoming : List (Nat × Nat)) : List (Nat × Nat) :=
  incoming.map (fun e => (sext 1 32 e.1, e.2))

/-- The value of a phi when control comes from block `pred`. -/
def phiValue (incoming : List (Nat × Nat)) (pred : Nat) : Option Nat :=
  (incoming.find? (fun e => e.2 == pred)).map (fun e => e.1)

/-- The value of `boolean` in `visitPHINode`, `icmp ne newPhi, 0`, when control
comes from block `pred`. -/
def visitPHINode_i1 (incoming : List (Nat × Nat)) (pred : Nat) : Option Bool :=
  (phiValue (visitPHINode_newPhi incoming) pred).map (fun v => icmp .ICMP_NE 32 v 0)

end Legalization

namespace Legalization

/-! ## `RecursivelyPromoteInsertElementUses`: one-bit lanes packed into a byte -/

/-- The `InsertElementInst` branch of `RecursivelyPromoteInsertElementUses`: the
new `packedVec` after the insertion of the one-bit value `bit` at index `idx`. -/
def promoteInsert (packedVec bit idx : Nat) : Nat :=
  let bitVal := zext bit
  let bitVal := shl 8 bitVal (trunc 8 idx)
  packedVec ||| bitVal

/-- The chain of insertions that `visitInsertElementInst` starts with
`packedVec = 0`: every insertion, a one-bit value with its index, hands its
`packedVec` on to its users. -/
def promoteInserts (packedVec : Nat) : List (Nat × Nat) → Nat
  | [] => packedVec
  | e :: rest => promoteInserts (promoteInsert packedVec e.1 e.2) rest

/-- The `ExtractElementInst` branch: the `i8` value `newVal` built before the
loop over the users, `(packedVec >>a idx) & 1`. -/
def promoteExtract_newVal (packedVec idx : Nat) : Nat :=
  (ashr 8 packedVec (trunc 8 idx)) &&& 1

/-- A user of the `extractelement`: a `sext` from `i1` to `i32`, or anything else. -/
inductive EEUser where
  | sextI1ToI32
  | other
  deriving DecidableEq, Repr

/-- What the loop over the users of the `extractelement` replaces: the uses of
the `sext` by the (32-bit) `newVal`, or the uses of the `extractelement` by the
one-bit truncation of `newVal`. -/
inductive EERepl where
  | castReplaced (newVal : Nat)
  | extractReplaced (pSrc1ZExt : Nat)
  deriving DecidableEq, Repr

/-- The loop over the users of the `extractelement`.  `newVal` is carried from
one user to the next with its width: a `sext` user widens it to 32 bits
(`CreateSExt` gives the value back when it already has 32 bits). -/
def promoteExtractUsers : Nat × Nat → List EEUser → List EERepl
  | _, [] => []
  | (width, newVal), .sextI1ToI32 :: rest =>
    let newVal32 := if width = 32 then newVal else sext width 32 newVal
    .castReplaced newVal32 :: promoteExtractUsers (32, newVal32) rest
  | (width, newVal), .other :: rest =>
    .extractReplaced (trunc 1 newVal) :: promoteExtractUsers (width, newVal) rest

/-- The `ExtractElementInst` branch on a `packedVec`, an index and the users of
the `extractelement`. -/
def promoteExtract (packedVec idx : Nat) (users : List EEUser) : List EERepl :=
  promoteExtractUsers (8, promoteExtract_newVal packedVec idx) users

/-- The one-bit value that replaces an `extractelement` at lane `idx` read by a
user that is not a `sext`. -/
def extractLane (packedVec idx : Nat) : Nat := trunc 1 (promoteExtract_newVal packedVec idx)

/-- The value most recently inserted at lane `i` by a chain of insertions. -/
def lastInserted : List (Nat × Nat) → Nat → Option Nat
  | [], _ => none
  | e :: rest, i =>
    match lastInserted rest i with
    | some v => some v
    | none => if e.2 = i then some e.1 else none

end Legalization

/-! ## `visitStoreInst`: store of a scalar integer of illegal width -/

/-- The part of the data layout the rules read: the legal integer widths (the
`n` entry of the layout string). -/
structure DataLayout where
  LegalIntWidths : List Nat
  deriving DecidableEq, Repr

/-- Embeds `DataLayout::isLegalInteger`. -/
def DataLayout.isLegalInteger (DL : DataLayout) (Width : Nat) : Bool :=
  DL.LegalIntWidths.contains Width

/-- Embeds `DataLayout::getLargestLegalIntTypeSizeInBits`: the largest legal width,
`0` when there is none. -/
def DataLayout.getLargestLegalIntTypeSizeInBits (DL : DataLayout) : Nat :=
  DL.LegalIntWidths.foldl max 0

namespace Legalization

/-- The loop `for (i = largest; i >= 8; i >>= 1)` of `visitStoreInst` from `i` on:
the first `i` that divides `srcWidth`, `0` when the loop ends without one.  The
first argument bounds the rounds; `i + 1` rounds are never used up, since `i`
at least halves in every round. -/
def findIntSize (srcWidth : Nat) : Nat → Nat → Nat
  | 0, _ => 0
  | fuel + 1, i =>
    if 8 ≤ i then
      if srcWidth % i = 0 then i else findIntSize srcWidth fuel (i >>> 1)
    else 0

/-- What `visitStoreInst` does to a store of a scalar integer: nothing, the
store of the value zero-extended to `i8` (for `i1`), or the store of the value
bitcast to a vector of `numElts` integers of `intSize` bits. -/
inductive StoreRewrite where
  | unchanged
  | zextToI8
  | asVector (intSize numElts : Nat)
  deriving DecidableEq, Repr

/-- The two scalar-integer cases of `visitStoreInst` for a stored value of
`srcWidth` bits. -/
def visitStoreInst_scalarInt (DL : DataLayout) (srcWidth : Nat) : StoreRewrite :=
  if srcWidth = 1 then .zextToI8
  else if DL.isLegalInteger srcWidth then .unchanged
  else
    let largest := DL.getLargestLegalIntTypeSizeInBits
    let intSize := findIntSize srcWidth (largest + 1) largest
    if intSize = 0 then .unchanged
    else .asVector intSize (srcWidth / intSize)

/-- The widths the loop of `visitStoreInst` tries, from `i` on: `i`, `i / 2`,
`i / 4`, ... as long as they are at least 8. -/
def halvings : Nat → Nat → List Nat
  | 0, _ => []
  | fuel + 1, i => if 8 ≤ i then i :: halvings fuel (i >>> 1) else []

/-- The legal integer widths of the data layout are exactly the halvings, down
to 8, of the largest one, as in `n8:16:32`. -/
def legalWidthsAreHalvings (DL : DataLayout) : Bool :=
  let hs := halvings (DL.getLargestLegalIntTypeSizeInBits + 1) DL.getLargestLegalIntTypeSizeInBits
  DL.LegalIntWidths.all (fun x => hs.contains x) && hs.all (fun x => DL.LegalIntWidths.contains x)

end Legalization

/-! ## `LegalizeGVNBitCastPattern`: chains that read a vector through a wide integer -/

/-- Scalar types of vector lanes and of the values in a chain: an integer or a
floating-point type of a given width. -/
inductive ScalarTy where
  | int (bits : Nat)
  | fp (bits : Nat)
  deriving DecidableEq, Repr

/-- Width of a scalar type. -/
def ScalarTy.bits : ScalarTy → Nat
  | .int b => b
  | .fp b => b

/-- Types of the values in a chain: a scalar, or a vector of `n` scalars. -/
inductive ValTy where
  | scalar (t : ScalarTy)
  | vector (t : ScalarTy) (n : Nat)
  deriving DecidableEq, Repr

/-- Embeds `Type::isVectorTy`. -/
def ValTy.isVectorTy : ValTy → Bool
  | .vector _ _ => true
  | .scalar _ => false

/-- A user of the bitcast `BI` that ends a chain: an `extractelement` with its
index operand, or anything else. -/
inductive BIUser where
  | extractElement (index : Nat)
  | other
  deriving DecidableEq, Repr

/-- The instruction `TI->user_back()` of a truncation: a bitcast with its type
and its users, or anything else. -/
inductive TruncUser where
  | bitcast (ty : ValTy) (users : List BIUser)
  | other
  deriving DecidableEq, Repr

/-- A truncation `TI` of the wide integer: the width of its integer type, the
number of its uses, and its last user. -/
structure TruncDesc where
  bits : Nat
  numUses : Nat
  userBack : TruncUser
  deriving DecidableEq, Repr

/-- The instruction `BO->user_back()` of a binary operator: a truncation, or
anything else. -/
inductive BinOpUser where
  | trunc (TI : TruncDesc)
  | other
  deriving DecidableEq, Repr

/-- A user `U` of the bitcast `I` from a vector to a wide integer: a binary
operator on `I` (whether it is an `lshr`, the number of its uses, its second
operand when that is a constant, its last user), a truncation of `I`, or
anything else. -/
inductive BitCastUser where
  | binaryOperator (isLShr : Bool) (numUses : Nat) (shAmt : Option Nat) (userBack : BinOpUser)
  | trunc (TI : TruncDesc)
  | other
  deriving DecidableEq, Repr

/-- What `match1` hands back when it matches: whether there is a leading `lshr`,
whether there is a closing bitcast, and the index of the lane. -/
structure Match1 where
  hasBO : Bool
  hasBI : Bool
  Index : Nat
  deriving DecidableEq, Repr

/-- The part of `match1` from the truncation on. -/
def match1Trunc (EltTy : ScalarTy) (TI : TruncDesc) (hasBO : Bool) (Index : Nat) :
    Option Match1 :=
  if TI.numUses ≠ 1 then none
  else
    match TI.userBack with
    | .bitcast ty _ =>
      if ty ≠ .scalar EltTy then none
      else if TI.bits ≠ EltTy.bits then none
      else some ⟨hasBO, true, Index⟩
    | .other =>
      if TI.bits ≠ EltTy.bits then none
      else some ⟨hasBO, false, Index⟩

/-- The lambda `match1` of `LegalizeGVNBitCastPattern`: an optional `lshr` by a
constant multiple of the lane width, a truncation with one use, an optional
bitcast to the lane type. -/
def match1 (EltTy : ScalarTy) : BitCastUser → Option Match1
  | .binaryOperator isLShr numUses shAmt userBack =>
    if !isLShr || numUses ≠ 1 then none
    else
      match shAmt with
      | none => none
      | some ShAmt =>
        if ShAmt % EltTy.bits ≠ 0 then none
        else
          match userBack with
          | .trunc TI => match1Trunc EltTy TI true (ShAmt / EltTy.bits)
          | .other => none
  | .trunc TI => match1Trunc EltTy TI false 0
  | .other => none

/-- The index operands of the users of `BI` when all of them are
`extractelement`s. -/
def allExtractElements : List BIUser → Option (List Nat)
  | [] => some []
  | .extractElement index :: rest => (allExtractElements rest).map (fun l => index :: l)
  | .other :: _ => none

/-- The lambda `match2`: a truncation with one use, a bitcast to a vector type,
and only `extractelement`s as users of the bitcast. -/
def match2 : BitCastUser → Option (List Nat)
  | .trunc TI =>
    if TI.numUses ≠ 1 then none
    else
      match TI.userBack with
      | .bitcast ty users => if !ty.isVectorTy then none else allExtractElements users
      | .other => none
  | _ => none

/-- What `match3` hands back when it matches: whether there is a leading `lshr`,
the width of the truncation, and the index of the lane. -/
structure Match3 where
  hasBO : Bool
  dstSize : Nat
  Index : Nat
  deriving DecidableEq, Repr

/-- The lambda `match3`, for a wide integer of `srcSize` bits: an optional `lshr`
with one use, a truncation to a width that divides `srcSize`, and a constant
shift amount that is a multiple of that width. -/
def match3 (srcSize : Nat) : BitCastUser → Option Match3
  | .binaryOperator isLShr numUses shAmt userBack =>
    if !isLShr || numUses ≠ 1 then none
    else
      match userBack with
      | .trunc TI =>
        if srcSize % TI.bits ≠ 0 then none
        else
          match shAmt with
          | none => none
          | some ShAmt =>
            if ShAmt % TI.bits ≠ 0 then none else some ⟨true, TI.bits, ShAmt / TI.bits⟩
      | .other => none
  | .trunc TI => if srcSize % TI.bits ≠ 0 then none else some ⟨false, TI.bits, 0⟩
  | .other => none

/-- What the loop of `LegalizeGVNBitCastPattern` does for one user.
`extractFromSource`: `extractelement src, Index` replaces the closing bitcast,
or the truncation when there is none; the truncation and the `lshr` go to the
removal set.  `extractPerUser`: every `extractelement` of the closing bitcast is
replaced by an `extractelement` of the source at the same index.
`bitcastAndExtract`: the source is bitcast to `vecSize` lanes of `castBits` bits
and lane `Index` replaces the truncation. -/
inductive GVNRewrite where
  | extractFromSource (Index : Nat) (replacesBitcast hasShift : Bool)
  | extractPerUser (indices : List Nat)
  | bitcastAndExtract (castBits vecSize Index : Nat) (hasShift : Bool)
  deriving DecidableEq, Repr

/-- The body of the loop over the users of `I`: the three shapes are tried in
order; `none` when none of them matches and nothing is touched. -/
def rewriteUser (EltTy : ScalarTy) (srcSize : Nat) (U : BitCastUser) : Option GVNRewrite :=
  match match1 EltTy U with
  | some m => some (.extractFromSource m.Index m.hasBI m.hasBO)
  | none =>
    match match2 U with
    | some EEIs => some (.extractPerUser EEIs)
    | none =>
      match match3 srcSize U with
      | some m => some (.bitcastAndExtract m.dstSize (srcSize / m.dstSize) m.Index m.hasBO)
      | none => none

/-- The result of `LegalizeGVNBitCastPattern`: the value it returns, and for every
user of `I`, in order, what was done for it. -/
structure GVNResult where
  ret : Bool
  rewrites : List (Option GVNRewrite)
  deriving DecidableEq, Repr

/-- Embeds `LegalizeGVNBitCastPattern` on a bitcast `I` of type `DstTy` from a value of
type `SrcTy`, with the users of `I`. -/
def LegalizeGVNBitCastPattern (DL : DataLayout) (DstTy SrcTy : ValTy)
    (users : List BitCastUser) : GVNResult :=
  match DstTy, SrcTy with
  | .scalar (.int dstBits), .vector EltTy _ =>
    if DL.isLegalInteger dstBits then ⟨false, users.map (fun _ => none)⟩
    else ⟨true, users.map (rewriteUser EltTy dstBits)⟩
  | _, _ => ⟨false, users.map (fun _ => none)⟩

namespace GenOptLegalizer

/-- Embeds `GenOptLegalizer::visitBitCastInst`: the new value of `m_Changed`. -/
def visitBitCastInst (m_Changed : Bool) (DL : DataLayout) (DstTy SrcTy : ValTy)
    (users : List BitCastUser) : Bool :=
  m_Changed || (LegalizeGVNBitCastPattern DL DstTy SrcTy users).ret

end GenOptLegalizer

/-- The integer a vector of `w`-bit lanes is bitcast to, lane 0 in the
least-significant bits. -/
def bitcastToInt (w : Nat) : List Nat → Nat
  | [] => 0
  | x :: xs => x + 2 ^ w * bitcastToInt w xs

/-- Embeds `lshr`: the pattern shifted right, zeros shifted in. -/
def lshr (x s : Nat) : Nat := x >>> s

namespace Legalization

/-! ## `LegalAllocaType`: the legal replacement of an allocated type -/

mutual
/-- Types as `LegalAllocaType` tells them apart.  A struct carries its name (`none`
for a literal struct), whether it is packed, and its fields; `unsupported` is
every type the `switch` has no case for. -/
inductive LType where
  | int (bits : Nat)
  | half
  | float
  | double
  | pointer (pointee : LType) (addrSpace : Nat)
  | array (elt : LType) (n : Nat)
  | vector (elt : LType) (n : Nat)
  | struct (name : Option Nat) (packed : Bool) (fields : LTypes)
  | unsupported
  deriving DecidableEq, Repr
/-- The fields of a struct, in order. -/
inductive LTypes where
  | nil
  | cons (head : LType) (tail : LTypes)
  deriving DecidableEq, Repr
end

/-- The end of `LegalStructAllocaType`, after its loop has produced `Elems` and
`IsIllegal` (`none` when a field is unsupported): a literal, unpacked struct of
the legalized fields when one of them changed, the struct itself otherwise. -/
def LegalStructAllocaType_result (name : Option Nat) (packed : Bool) (fields : LTypes) :
    Option (LTypes × Bool) → Option LType
  | none => none
  | some (Elems, IsIllegal) =>
    if IsIllegal then some (.struct none false Elems) else some (.struct name packed fields)

mutual
/-- Embeds `Legalization::LegalAllocaType`; `size` is
`m_DL->getTypeAllocSizeInBits` of `i1`.  The result is `none` where the source
ends in `assert(0 && "Alloca of unsupported type")`.  The struct case is the
body of `LegalStructAllocaType`. -/
def LegalAllocaType (size : Nat) : LType → Option LType
  | .int bits => if bits = 1 then some (.int size) else some (.int bits)
  | .array elt n => (LegalAllocaType size elt).map (fun legalElt => .array legalElt n)
  | .vector elt n => (LegalAllocaType size elt).map (fun legalElt => .vector legalElt n)
  | .struct name packed fields =>
    LegalStructAllocaType_result name packed fields (LegalStructElems size fields)
  | .half => some .half
  | .float => some .float
  | .double => some .double
  | .pointer pointee addrSpace => some (.pointer pointee addrSpace)
  | .unsupported => none
/-- The loop of `LegalStructAllocaType`: the legalized fields `Elems` and the flag
`IsIllegal`, set when a legalized field differs from the field. -/
def LegalStructElems (size : Nat) : LTypes → Option (LTypes × Bool)
  | .nil => some (.nil, false)
  | .cons I rest =>
    match LegalAllocaType size I, LegalStructElems size rest with
    | some LegalTy, some (Elems, IsIllegal) =>
      some (.cons LegalTy Elems, decide (LegalTy ≠ I) || IsIllegal)
    | _, _ => none
end

/-- Embeds `Legalization::LegalStructAllocaType` on a struct with the given name,
packing and fields. -/
def LegalStructAllocaType (size : Nat) (name : Option Nat) (packed : Bool)
    (fields : LTypes) : Option LType :=
  LegalStructAllocaType_result name packed fields (LegalStructElems size fields)

mutual
/-- The types of the claim: built from integers, half, float, double, pointers,
arrays, vectors and structs.  What a pointer points to does not matter. -/
def LType.supported : LType → Bool
  | .int _ => true
  | .half => true
  | .float => true
  | .double => true
  | .pointer _ _ => true
  | .array elt _ => elt.supported
  | .vector elt _ => elt.supported
  | .struct _ _ fields => fields.supported
  | .unsupported => false
/-- Every field is supported. -/
def LTypes.supported : LTypes → Bool
  | .nil => true
  | .cons t ts => t.supported && ts.supported
end

mutual
/-- The type holds a one-bit integer outside a pointer type. -/
def LType.containsI1 : LType → Bool
  | .int bits => bits == 1
  | .array elt _ => elt.containsI1
  | .vector elt _ => elt.containsI1
  | .struct _ _ fields => fields.containsI1
  | _ => false
/-- Some field holds a one-bit integer outside a pointer type. -/
def LTypes.containsI1 : LTypes → Bool
  | .nil => false
  | .cons t ts => t.containsI1 || ts.containsI1
end

mutual
/-- The second type has the shape of the first (same array lengths, vector lane
counts and struct field counts), with the integer of `size` bits in the place
of every one-bit integer outside a pointer type, and every other leaf as it
is. -/
def LType.legalizedTo (size : Nat) : LType → LType → Bool
  | .int bits, .int bits' => if bits = 1 then bits' == size else bits' == bits
  | .half, .half => true
  | .float, .float => true
  | .double, .double => true
  | .pointer p a, .pointer p' a' => decide (p' = p) && a' == a
  | .array elt n, .array elt' n' => n' == n && elt.legalizedTo size elt'
  | .vector elt n, .vector elt' n' => n' == n && elt.legalizedTo size elt'
  | .struct _ _ fields, .struct _ _ fields' => fields.legalizedTo size fields'
  | _, _ => false
/-- Field by field, the second list has the shape of the first. -/
def LTypes.legalizedTo (size : Nat) : LTypes → LTypes → Bool
  | .nil, .nil => true
  | .cons t ts, .cons t' ts' => t.legalizedTo size t' && ts.legalizedTo size ts'
  | _, _ => false
end

end Legalization

namespace Legalization

/-! ## `visitIntrinsicInst`: the dispatch on the intrinsic -/

/-- The intrinsics `visitIntrinsicInst` has a case for; `other` is every other
one. -/
inductive IntrinsicID where
  | uadd_with_overflow
  | assume
  | sadd_with_overflow
  | usub_with_overflow
  | ssub_with_overflow
  | umul_with_overflow
  | smul_with_overflow
  | floor
  | ceil
  | trunc
  | other
  deriving DecidableEq, Repr

/-- What `visitIntrinsicInst` reads of a call: the intrinsic, whether the call has
type `half`, and, for `uadd_with_overflow`, the width and values of the two
arguments and the users of the call. -/
structure IntrinsicInst where
  IID : IntrinsicID
  isHalfTy : Bool
  width : Nat
  src0 : Nat
  src1 : Nat
  users : List UAddUser
  deriving DecidableEq, Repr

/-- What `visitIntrinsicInst` has done to a call when it returns: the
replacements of the uses of its users (the `uadd_with_overflow` case), whether
the call was put into `m_instructionsToRemove`, and whether it was replaced by
the call on `float` between an extension and a truncation and erased. -/
structure IntrinsicEffect where
  replacedUsers : List UAddRepl
  recorded : Bool
  promoted : Bool
  deriving DecidableEq, Repr

/-- The run of `visitIntrinsicInst` on a call: it reaches an `assert(0)` in a build
with assertions and stops there, or returns with an effect. -/
inductive IntrinsicResult where
  | assertFailed
  | returned (effect : IntrinsicEffect)
  deriving DecidableEq, Repr

/-- The replacements of a list of users, `none` when one of them has none. -/
def allReplaced : List (Option UAddRepl) → Option (List UAddRepl)
  | [] => some []
  | none :: _ => none
  | some r :: rest => (allReplaced rest).map (fun rs => r :: rs)

/-- The body `TODO(...); assert(0 && "Unhandled llvm.x.with.overflow intrinsic");
break;` shared by the five unhandled cases: in a build with assertions the
assertion fails (`none`); with `NDEBUG` defined `assert` expands to nothing and
the `break` leaves the `switch` with nothing replaced or recorded. -/
def visitIntrinsicInst_unhandled (NDEBUG : Bool) : Option IntrinsicEffect :=
  if NDEBUG then some ⟨[], false, false⟩ else none

/-- The first `switch` of `visitIntrinsicInst`: `none` where a case reaches
`assert(0)` in a build with assertions.  `NDEBUG` says that the build defines
`NDEBUG`: then an `assert(0)` does nothing and the statement behind it runs, in
the `uadd_with_overflow` case the `continue` for a user that is no
`extractvalue` and the recording of an `extractvalue` with another index.  The
statistics counter `numInsts` is left out. -/
def visitIntrinsicInst_switch (NDEBUG : Bool) (I : IntrinsicInst) : Option IntrinsicEffect :=
  match I.IID with
  | .uadd_with_overflow =>
    if NDEBUG then
      some ⟨(visitIntrinsicInst_uadd I.width I.src0 I.src1 I.users).filterMap (fun r => r),
        true, false⟩
    else
      (allReplaced (visitIntrinsicInst_uadd I.width I.src0 I.src1 I.users)).map
        (fun rs => ⟨rs, true, false⟩)
  | .assume => some ⟨[], true, false⟩
  | .sadd_with_overflow => visitIntrinsicInst_unhandled NDEBUG
  | .usub_with_overflow => visitIntrinsicInst_unhandled NDEBUG
  | .ssub_with_overflow => visitIntrinsicInst_unhandled NDEBUG
  | .umul_with_overflow => visitIntrinsicInst_unhandled NDEBUG
  | .smul_with_overflow => visitIntrinsicInst_unhandled NDEBUG
  | _ => some ⟨[], false, false⟩

/-- The second part of `visitIntrinsicInst`: on a platform without FP16 rounding, a
`floor`, `ceil` or `trunc` of type `half` is computed on `float`. -/
def visitIntrinsicInst_fp16 (supportFP16Rounding : Bool) (I : IntrinsicInst)
    (effect : IntrinsicEffect) : IntrinsicEffect :=
  if !supportFP16Rounding && I.isHalfTy then
    match I.IID with
    | .floor => { effect with promoted := true }
    | .ceil => { effect with promoted := true }
    | .trunc => { effect with promoted := true }
    | _ => effect
  else effect

/-- Embeds `Legalization::visitIntrinsicInst`; `NDEBUG` says that the build defines
`NDEBUG` (assertions compiled out), `supportFP16Rounding` is
`m_ctx->platform.supportFP16Rounding()`. -/
def visitIntrinsicInst (NDEBUG supportFP16Rounding : Bool) (I : IntrinsicInst) :
    IntrinsicResult :=
  match visitIntrinsicInst_switch NDEBUG I with
  | none => .assertFailed
  | some effect => .returned (visitIntrinsicInst_fp16 supportFP16Rounding I effect)

end Legalization

namespace Legalization

/-! ## `visitAlloca` and `RecursivelyChangePointerType`: retyping the users of a pointer -/

/-- The instruction kinds `RecursivelyChangePointerType` tells apart.  An `alloca`
carries its allocated type.  On a load `scalar` says that the loaded type is an
integer or floating-point type, on a store that the pointee type of the new
pointer is; `other` is every other instruction (a compare, select, phi, call,
return, ...). -/
inductive PtrKind where
  | alloca (type : LType)
  | gep
  | load (scalar : Bool)
  | store (scalar : Bool)
  | cast
  | other
  deriving DecidableEq, Repr

/-- An instruction: its name, its kind and its operands.  An operand is the name
of the instruction that defines it, or a name no instruction has (an argument
or a constant).  The pointer is operand 0 of a `gep`, a load and a cast and
operand 1 of a store, whose operand 0 is the stored value. -/
structure PtrInst where
  id : Nat
  kind : PtrKind
  operands : List Nat
  deriving DecidableEq, Repr

/-- The function body in order, the next unused name, and
`m_instructionsToRemove`. -/
structure PtrState where
  insts : List PtrInst
  next : Nat
  dead : List Nat
  deriving DecidableEq, Repr

/-- The instruction with the given name. -/
def PtrState.find? (st : PtrState) (id : Nat) : Option PtrInst :=
  st.insts.find? (fun i => i.id == id)

/-- The users of a value, in program order. -/
def PtrState.users (st : PtrState) (v : Nat) : List Nat :=
  (st.insts.filter (fun i => i.operands.contains v)).map (fun i => i.id)

/-- Puts `new` in front of the instruction named `pos`. -/
def insertBeforeList (pos : Nat) (new : PtrInst) : List PtrInst → List PtrInst
  | [] => [new]
  | i :: rest => if i.id = pos then new :: i :: rest else i :: insertBeforeList pos new rest

/-- Puts `new` behind the instruction named `pos`, that is in front of its next
node. -/
def insertAfterList (pos : Nat) (new : PtrInst) : List PtrInst → List PtrInst
  | [] => [new]
  | i :: rest => if i.id = pos then i :: new :: rest else i :: insertAfterList pos new rest

/-- Creates an instruction in front of `pos` and returns its name. -/
def PtrState.createBefore (st : PtrState) (pos : Nat) (kind : PtrKind) (operands : List Nat) :
    PtrState × Nat :=
  ({ st with insts := insertBeforeList pos ⟨st.next, kind, operands⟩ st.insts,
             next := st.next + 1 }, st.next)

/-- Creates an instruction behind `pos` and returns its name. -/
def PtrState.createAfter (st : PtrState) (pos : Nat) (kind : PtrKind) (operands : List Nat) :
    PtrState × Nat :=
  ({ st with insts := insertAfterList pos ⟨st.next, kind, operands⟩ st.insts,
             next := st.next + 1 }, st.next)

/-- Embeds `Value::replaceAllUsesWith`. -/
def PtrState.replaceAllUsesWith (st : PtrState) (old repl : Nat) : PtrState :=
  ⟨st.insts.map (fun i => ⟨i.id, i.kind, i.operands.map (fun o => if o = old then repl else o)⟩),
    st.next, st.dead⟩

/-- Embeds `m_instructionsToRemove.insert`. -/
def PtrState.insertDead (st : PtrState) (id : Nat) : PtrState :=
  if st.dead.contains id then st else { st with dead := st.dead ++ [id] }

/-- Embeds `Cast(val, type, insertBefore)` with the new instruction placed by
`create`: a cast of `val` when `type` is an integer or floating-point type,
`none` at `assert(0 && "unexpected type")`. -/
def Cast (scalar : Bool) (val : Nat) (create : PtrKind → List Nat → PtrState × Nat) :
    Option (PtrState × Nat) :=
  if scalar then some (create .cast [val]) else none

/-- Modelled from the spec: `IGC::cloneLoad` of `helper.h`, which is not under
`src/`: the load is replaced "with a load of the new type", a new load through
the new pointer, here placed in front of the old one. -/
def cloneLoad (st : PtrState) (load : PtrInst) (newPtr : Nat) : PtrState × Nat :=
  st.createBefore load.id load.kind [newPtr]

/-- Modelled from the spec: `IGC::cloneStore` of `helper.h`, which is not under
`src/`: the value is stored "through the new pointer", by a new store here
placed in front of the old one. -/
def cloneStore (st : PtrState) (store : PtrInst) (newData newPtr : Nat) : PtrState :=
  (st.createBefore store.id store.kind [newData, newPtr]).1

/-- Embeds `Legalization::RecursivelyChangePointerType`.  The first argument bounds
the depth of the recursion through chains of `gep`; the result is `none` when
it is used up or a `Cast` asserts. -/
def RecursivelyChangePointerType : Nat → PtrState → Nat → Nat → Option PtrState
  | 0, _, _, _ => none
  | fuel + 1, st, oldPtr, newPtr =>
    (st.users oldPtr).foldlM (fun st II =>
      match st.find? II with
      | none => none
      | some user =>
        (match user.kind with
          | .gep =>
            let (st1, newGep) := st.createBefore II .gep (newPtr :: user.operands.tail)
            RecursivelyChangePointerType fuel st1 II newGep
          | .load scalar =>
            let (st1, newLoad) := cloneLoad st user newPtr
            (Cast scalar newLoad (st1.createAfter II)).map
              (fun (r : PtrState × Nat) => r.1.replaceAllUsesWith II r.2)
          | .store scalar =>
            (Cast scalar (user.operands.headD 0) (st.createBefore II)).map
              (fun (r : PtrState × Nat) => cloneStore r.1 user r.2 newPtr)
          | .cast =>
            let (st1, newCast) := st.createBefore II .cast [newPtr]
            some (st1.replaceAllUsesWith II newCast)
          | _ => some st).map (fun (st2 : PtrState) => st2.insertDead II)) st

/-- Embeds `Legalization::visitAlloca` on the instruction named `I`; `size` is the
allocation size of `i1` in bits.  The result is `none` where `LegalAllocaType`
or a `Cast` asserts. -/
def visitAlloca (size : Nat) (st : PtrState) (I : Nat) : Option PtrState :=
  match st.find? I with
  | some ⟨_, .alloca type, _⟩ =>
    match LegalAllocaType size type with
    | none => none
    | some legalAllocaType =>
      if type ≠ legalAllocaType then
        let (st1, newAlloca) := st.createBefore I (.alloca legalAllocaType) []
        (RecursivelyChangePointerType (st.insts.length + 1) st1 I newAlloca).map
          (fun (st2 : PtrState) => st2.insertDead I)
      else some st
  | _ => some st

/-- No instruction recorded in `m_instructionsToRemove` has a user that is not
recorded there. -/
def PtrState.deadSetClosed (st : PtrState) : Bool :=
  st.dead.all (fun d => (st.users d).all (fun u => st.dead.contains u))

/-- The body `%0 = alloca i1; %1 = icmp eq i1* %0, %q; ret i1 %1`, with the
argument `%q` named 100. -/
def icmpOfAlloca : PtrState :=
  ⟨[⟨0, .alloca (.int 1), []⟩, ⟨1, .other, [0, 100]⟩, ⟨2, .other, [1]⟩], 3, []⟩

/-- The body `%0 = alloca [4 x i1]; %1 = gep %0, 0, %i; %2 = load i1 %1;
store i1 %x, %1; %4 = bitcast %0 to i8*; call @use(%4); ret i1 %2`, with the
arguments `%i` and `%x` named 100 and 101 and the constant `0` named 200. -/
def handledUsers : PtrState :=
  ⟨[⟨0, .alloca (.array (.int 1) 4), []⟩, ⟨1, .gep, [0, 200, 100]⟩, ⟨2, .load true, [1]⟩,
    ⟨3, .store true, [101, 1]⟩, ⟨4, .cast, [0]⟩, ⟨5, .other, [4]⟩, ⟨6, .other, [2]⟩], 7, []⟩

end Legalization



namespace IGC

/-! ## `expandFDIVInstructions`: the value of the expansion in exact arithmetic -/

/-- The unscaled expansion of `expandFDIVInstructions`, `Y = 1.0 / Y; V = Y * X`,
in exact arithmetic. -/
def expandFDIV_unscaled (X Y : ℚ) : ℚ :=
  let Y1 := 1 / Y
  Y1 * X

/-- The scaled expansion of `expandFDIVInstructions` with the scale factor
`Scale`: `V = Y * Scale; V = 1.0 / V; V = V * X; V = V * Scale`, in exact
arithmetic. -/
def expandFDIV_scaled (Scale X Y : ℚ) : ℚ :=
  let V := Y * Scale
  let V := 1 / V
  let V := V * X
  V * Scale

/-- The value `V` that `expandFDIVInstructions` puts in the place of
`fdiv X, Y`, in exact arithmetic, where the extension to `float` and the
truncation to `half` change nothing.  `ybits` is the bit pattern of `Y` the
scale factor is selected from. -/
def expandFDIV_value (isHalfTy hasAllowReciprocal : Bool) (Yval : FValue) (ybits : Nat)
    (X Y : ℚ) : ℚ :=
  if isHalfTy then
    if hasAllowReciprocal then expandFDIV_unscaled X Y
    else expandFDIV_unscaled X Y
  else if hasAllowReciprocal || needsNoScaling Yval then expandFDIV_unscaled X Y
  else expandFDIV_scaled (expandFDIV_Scale ybits) X Y

end IGC

namespace Legalization

/-! ## `visitAddrSpaceCastInst`: casts out of the local address space -/

/-- The number of the local address space, as in the example of the source,
`addrspacecast i32 addrspace(3)* null to i32 addrspace(4)*`. -/
def ADDRESS_SPACE_LOCAL : Nat := 3

/-- The number of the generic address space, as in the same example. -/
def ADDRESS_SPACE_GENERIC : Nat := 4

/-- The pointer operand of the cast: the constant `null`, or any other value,
with the address it holds when the cast is executed. -/
inductive SrcPointer where
  | constantNull
  | value (address : Nat)
  deriving DecidableEq, Repr

/-- What `visitAddrSpaceCastInst` does to the cast: nothing, or all its uses are
replaced by the null pointer of the destination type, or by
`inttoptr (add Start, Offset)`, given here with the value of the sum. -/
inductive AddrSpaceCastResult where
  | unchanged
  | null (dstAS : Nat)
  | GASPtr (address : Nat)
  deriving DecidableEq, Repr

/-- Embeds `Legalization::visitAddrSpaceCastInst`.  `isOpenCL` is
`m_ctx->type == ShaderType::OPENCL_SHADER`, `srcAS` and `dstAS` are the address
spaces of the source and destination pointer types, `SLM` is the value of the
implicit argument `LOCAL_MEMORY_STATELESS_WINDOW_START_ADDRESS` when the
function has it, and `PtrSz` is the pointer size of the address space of that
argument. -/
def visitAddrSpaceCastInst (isOpenCL : Bool) (srcAS dstAS : Nat) (Src : SrcPointer)
    (SLM : Option Nat) (PtrSz : Nat) : AddrSpaceCastResult :=
  if !isOpenCL then .unchanged
  else if srcAS ≠ ADDRESS_SPACE_LOCAL then .unchanged
  else if dstAS ≠ ADDRESS_SPACE_GENERIC then
    if dstAS = 0 then .unchanged
    else .null dstAS
  else
    match Src with
    | .constantNull => .null dstAS
    | .value address =>
      match SLM with
      | none => .unchanged
      | some base =>
        let Offset := zext (trunc 16 address)
        let Start := base
        .GASPtr (createAdd PtrSz Start Offset)

end Legalization

namespace Legalization

/-! ## `visitFCmpInst`: which rewrite a floating-point compare gets -/

/-- The floating-point predicates of `CmpInst::Predicate`. -/
inductive FPredicate where
  | FCMP_FALSE
  | FCMP_OEQ
  | FCMP_OGT
  | FCMP_OGE
  | FCMP_OLT
  | FCMP_OLE
  | FCMP_ONE
  | FCMP_ORD
  | FCMP_UNO
  | FCMP_UEQ
  | FCMP_UGT
  | FCMP_UGE
  | FCMP_ULT
  | FCMP_ULE
  | FCMP_UNE
  | FCMP_TRUE
  deriving DecidableEq, Repr

/-- Embeds `CmpInst::isUnordered`. -/
def FPredicate.isUnordered : FPredicate → Bool
  | .FCMP_UEQ => true
  | .FCMP_UNE => true
  | .FCMP_UGT => true
  | .FCMP_ULT => true
  | .FCMP_UGE => true
  | .FCMP_ULE => true
  | .FCMP_UNO => true
  | _ => false

/-- An operand of a compare.  A `ConstantFP` is given by `key`, which tells the
uniqued constants apart (`+0.0` and `-0.0` have different keys), and by its
value: `none` for a NaN, `some x` for the number `x`.  Any other operand is
`value id`. -/
inductive FOperand where
  | constFP (key : Nat) (v : Option Int)
  | value (id : Nat)
  deriving DecidableEq, Repr

/-- Embeds `isa<ConstantFP>`. -/
def FOperand.isConstantFP : FOperand → Bool
  | .constFP _ _ => true
  | .value _ => false

/-- Embeds `dyn_cast<ConstantFP>` followed by `isZero`. -/
def FOperand.isZeroConstant : FOperand → Bool
  | .constFP _ v => v == some 0
  | .value _ => false

/-- What the rules read of an `fcmp`: predicate, operands, and whether it carries
all fast-math flags (`isFast`). -/
structure FCmpInst where
  pred : FPredicate
  Op0 : FOperand
  Op1 : FOperand
  isFast : Bool
  deriving DecidableEq, Repr

/-- The two members `m_preserveNan` and `m_preserveNanCheck` of the pass. -/
structure NanMode where
  m_preserveNan : Bool
  m_preserveNanCheck : Bool
  deriving DecidableEq, Repr

/-- The constructor `Legalization::Legalization(bool preserveNan)`. -/
def NanMode.init (preserveNan : Bool) : NanMode := ⟨preserveNan, preserveNan⟩

/-- The start of `runOnFunction`: with `MD->compOpt.FiniteMathOnly` NaN is not
preserved and NaN checks are honoured. -/
def runOnFunction_nanMode (FiniteMathOnly : Bool) (m : NanMode) : NanMode :=
  if FiniteMathOnly then ⟨false, true⟩ else m

/-- Embeds `isNanCheck`. -/
def isNanCheck (FC : FCmpInst) : Bool :=
  if FC.pred = .FCMP_UNO then FC.Op1.isZeroConstant
  else if FC.pred = .FCMP_UNE then FC.Op0 == FC.Op1
  else false

/-- The rewrite `visitFCmpInst` hands the compare to. -/
inductive FCmpRule where
  | UndorderedPredicate
  | UndorderedFlushNan
  deriving DecidableEq, Repr

/-- Embeds `Legalization::visitFCmpInst`: the rewrite called, `none` when the
predicate is none of the predicates handled.  `PreserveNan` is the command-line
option `preserve-nan`. -/
def visitFCmpInst (m : NanMode) (PreserveNan : Bool) (FC : FCmpInst) : Option FCmpRule :=
  if FC.pred.isUnordered || FC.pred == .FCMP_ORD || FC.pred == .FCMP_ONE then
    if (m.m_preserveNan || PreserveNan) && !FC.isFast then some .UndorderedPredicate
    else if m.m_preserveNanCheck && isNanCheck FC then some .UndorderedPredicate
    else some .UndorderedFlushNan
  else none

end Legalization

namespace Legalization

/-! ## `visitFCmpInstUndorderedPredicate`: the value of the replacement -/

/-- The outcome of comparing two floating-point values. -/
inductive FOutcome where
  | less
  | equal
  | greater
  | unordered
  deriving DecidableEq, Repr

/-- The outcome of a compare: unordered when an operand is a NaN (`none`), the
order of the two numbers otherwise. -/
def fcmpOutcome : Option Int → Option Int → FOutcome
  | some x, some y => if x < y then .less else if x = y then .equal else .greater
  | _, _ => .unordered

/-- The outcomes on which a predicate is true. -/
def FPredicate.holds : FPredicate → FOutcome → Bool
  | .FCMP_FALSE, _ => false
  | .FCMP_OEQ, o => o == .equal
  | .FCMP_OGT, o => o == .greater
  | .FCMP_OGE, o => o == .greater || o == .equal
  | .FCMP_OLT, o => o == .less
  | .FCMP_OLE, o => o == .less || o == .equal
  | .FCMP_ONE, o => o == .less || o == .greater
  | .FCMP_ORD, o => o != .unordered
  | .FCMP_UNO, o => o == .unordered
  | .FCMP_UEQ, o => o == .unordered || o == .equal
  | .FCMP_UGT, o => o == .unordered || o == .greater
  | .FCMP_UGE, o => o == .unordered || o == .greater || o == .equal
  | .FCMP_ULT, o => o == .unordered || o == .less
  | .FCMP_ULE, o => o == .unordered || o == .less || o == .equal
  | .FCMP_UNE, o => o != .equal
  | .FCMP_TRUE, _ => true

/-- The value of `fcmp p a b`. -/
def fcmp (p : FPredicate) (a b : Option Int) : Bool := p.holds (fcmpOutcome a b)

/-- Embeds `CmpInst::getInversePredicate` on the floating-point predicates. -/
def getInversePredicate : FPredicate → FPredicate
  | .FCMP_FALSE => .FCMP_TRUE
  | .FCMP_OEQ => .FCMP_UNE
  | .FCMP_OGT => .FCMP_ULE
  | .FCMP_OGE => .FCMP_ULT
  | .FCMP_OLT => .FCMP_UGE
  | .FCMP_OLE => .FCMP_UGT
  | .FCMP_ONE => .FCMP_UEQ
  | .FCMP_ORD => .FCMP_UNO
  | .FCMP_UNO => .FCMP_ORD
  | .FCMP_UEQ => .FCMP_ONE
  | .FCMP_UGT => .FCMP_OLE
  | .FCMP_UGE => .FCMP_OLT
  | .FCMP_ULT => .FCMP_OGE
  | .FCMP_ULE => .FCMP_OGT
  | .FCMP_UNE => .FCMP_OEQ
  | .FCMP_TRUE => .FCMP_FALSE

/-- The value of an operand, given the values of the operands that are no
constants. -/
def FOperand.eval (env : Nat → Option Int) : FOperand → Option Int
  | .constFP _ v => v
  | .value id => env id

/-- Embeds `dyn_cast<ConstantFP>` followed by `!CFP->isNaN()`: the operand is a
constant and no NaN. -/
def FOperand.isNonNaNConstant : FOperand → Bool
  | .constFP _ v => v.isSome
  | .value _ => false

/-- The value of the instruction `addFCmpWithORD` returns:
`and (fcmp oeq Op0, Op0), (fcmp oeq Op1, Op1)`. -/
def addFCmpWithORD (env : Nat → Option Int) (FC : FCmpInst) : Bool :=
  let Op0 := FC.Op0.eval env
  let Op1 := FC.Op1.eval env
  fcmp .FCMP_OEQ Op0 Op0 && fcmp .FCMP_OEQ Op1 Op1

/-- The value of the instruction `addFCmpWithUNO` returns: `fcmp une src0, src0`
alone when the other operand is a constant that is no NaN, its `or` with
`fcmp une src1, src1` otherwise; a constant first operand is swapped to the
second place before. -/
def addFCmpWithUNO (env : Nat → Option Int) (FC : FCmpInst) : Bool :=
  let src := if FC.Op0.isConstantFP then (FC.Op1, FC.Op0) else (FC.Op0, FC.Op1)
  let c0 := fcmp .FCMP_UNE (src.1.eval env) (src.1.eval env)
  if src.2.isNonNaNConstant then c0
  else
    let c1 := fcmp .FCMP_UNE (src.2.eval env) (src.2.eval env)
    c0 || c1

/-- The value of `invertedOrderedInst`, the compare with the inverse predicate. -/
def invertedOrderedInst (env : Nat → Option Int) (FC : FCmpInst) : Bool :=
  fcmp (getInversePredicate FC.pred) (FC.Op0.eval env) (FC.Op1.eval env)

/-- The value of `result` in `visitFCmpInstUndorderedPredicate`, for the
predicates that get one; for the last four it is the `not` of
`invertedOrderedInst`, created when the compare still has uses after the loop
over its users. -/
def visitFCmpInstUndorderedPredicate_result (env : Nat → Option Int) (FC : FCmpInst) :
    Option Bool :=
  match FC.pred with
  | .FCMP_ORD => some (addFCmpWithORD env FC)
  | .FCMP_UNO => some (addFCmpWithUNO env FC)
  | .FCMP_ONE =>
    let sourcesOrdered := addFCmpWithORD env FC
    let fcmpNotEqual := fcmp .FCMP_UNE (FC.Op0.eval env) (FC.Op1.eval env)
    some (sourcesOrdered && fcmpNotEqual)
  | .FCMP_UEQ =>
    let sourcesUnordered := addFCmpWithUNO env FC
    let fcmpEqual := fcmp .FCMP_OEQ (FC.Op0.eval env) (FC.Op1.eval env)
    some (sourcesUnordered || fcmpEqual)
  | .FCMP_UGE => some (!invertedOrderedInst env FC)
  | .FCMP_UGT => some (!invertedOrderedInst env FC)
  | .FCMP_ULE => some (!invertedOrderedInst env FC)
  | .FCMP_ULT => some (!invertedOrderedInst env FC)
  | _ => none

/-- An operand of a user of the compare: the compare `FC` itself, the new
instructions `result` and `invertedOrderedInst`, or any other value. -/
inductive FCOperand where
  | FC
  | result
  | invertedOrderedInst
  | arg (n : Nat)
  deriving DecidableEq, Repr

/-- A user of the compare: a select, a conditional branch, or any other
instruction. -/
inductive FCUser where
  | select (cond trueValue falseValue : FCOperand)
  | condBr (cond : FCOperand) (ifTrue ifFalse : Nat)
  | other (operands : List FCOperand)
  deriving DecidableEq, Repr

/-- The value operands of a user. -/
def FCUser.operands : FCUser → List FCOperand
  | .select c t f => [c, t, f]
  | .condBr c _ _ => [c]
  | .other ops => ops

/-- The instruction is in the use list of the compare. -/
def FCUser.usesFC (u : FCUser) : Bool := u.operands.contains .FC

/-- One round of the `while (!FC.user_empty())` loop on the instructions that
use or used the compare: `none` when the compare has no user left, otherwise
the instructions after the round and whether the loop goes on (`false` at a
`break`).  The round takes the first user: a select with the compare as
condition and a branch are flipped onto `invertedOrderedInst`. -/
def flipFirstUser : List FCUser → Option (List FCUser × Bool)
  | [] => none
  | u :: rest =>
    if u.usesFC then
      match u with
      | .select .FC trueValue falseValue =>
        some (.select .invertedOrderedInst falseValue trueValue :: rest, true)
      | .select _ _ _ => some (u :: rest, false)
      | .condBr _ ifTrue ifFalse => some (.condBr .invertedOrderedInst ifFalse ifTrue :: rest, true)
      | .other _ => some (u :: rest, false)
    else (flipFirstUser rest).map (fun r => (u :: r.1, r.2))

/-- The `while (!FC.user_empty())` loop of the last four predicates; `none` when
the fuel runs out before the loop ends. -/
def flipFCmpLoop : Nat → List FCUser → Option (List FCUser)
  | 0, _ => none
  | fuel + 1, users =>
    match flipFirstUser users with
    | none => some users
    | some (users1, true) => flipFCmpLoop fuel users1
    | some (users1, false) => some users1

/-- Embeds `FC.replaceAllUsesWith(result)` on one user. -/
def FCUser.replaceAllUsesWith : FCUser → FCUser
  | .select c t f =>
    .select (if c = .FC then .result else c) (if t = .FC then .result else t)
      (if f = .FC then .result else f)
  | .condBr c t f => .condBr (if c = .FC then .result else c) t f
  | .other ops => .other (ops.map (fun o => if o = .FC then .result else o))

/-- What `visitFCmpInstUndorderedPredicate` makes of the users of a compare with
predicate `pred`: for ORD, UNO, ONE and UEQ all uses are replaced by `result`;
for UGE, UGT, ULE and ULT the users are flipped as far as the loop goes and the
uses that remain are replaced by `result`; for any other predicate nothing
happens. -/
def visitFCmpInstUndorderedPredicate_users (fuel : Nat) (pred : FPredicate)
    (users : List FCUser) : Option (List FCUser) :=
  match pred with
  | .FCMP_ORD => some (users.map FCUser.replaceAllUsesWith)
  | .FCMP_UNO => some (users.map FCUser.replaceAllUsesWith)
  | .FCMP_ONE => some (users.map FCUser.replaceAllUsesWith)
  | .FCMP_UEQ => some (users.map FCUser.replaceAllUsesWith)
  | .FCMP_UGE => (flipFCmpLoop fuel users).map (fun us => us.map FCUser.replaceAllUsesWith)
  | .FCMP_UGT => (flipFCmpLoop fuel users).map (fun us => us.map FCUser.replaceAllUsesWith)
  | .FCMP_ULE => (flipFCmpLoop fuel users).map (fun us => us.map FCUser.replaceAllUsesWith)
  | .FCMP_ULT => (flipFCmpLoop fuel users).map (fun us => us.map FCUser.replaceAllUsesWith)
  | _ => some users

/-- The value of an operand of a user, as a one-bit number for the three
instructions, given their truth values. -/
def FCOperand.eval (fc result inverted : Bool) (args : Nat → Nat) : FCOperand → Nat
  | .FC => if fc then 1 else 0
  | .result => if result then 1 else 0
  | .invertedOrderedInst => if inverted then 1 else 0
  | .arg n => args n

/-- What a user yields: the value of a select, the label a branch goes to, or
the values of the operands of any other instruction. -/
inductive FCObservation where
  | value (v : Nat)
  | goto (label : Nat)
  | operands (vs : List Nat)
  deriving DecidableEq, Repr

/-- Execution of a user: a select and a branch take their first alternative
when the condition is `1`. -/
def FCUser.exec (fc result inverted : Bool) (args : Nat → Nat) : FCUser → FCObservation
  | .select c t f =>
    .value (if c.eval fc result inverted args = 1 then t.eval fc result inverted args
      else f.eval fc result inverted args)
  | .condBr c t f => .goto (if c.eval fc result inverted args = 1 then t else f)
  | .other ops => .operands (ops.map (fun o => o.eval fc result inverted args))

/-- The users the loop can flip: selects and branches with the compare as
condition. -/
def FCUser.flippable : FCUser → Bool
  | .select .FC _ _ => true
  | .condBr .FC _ _ => true
  | _ => false

end Legalization

namespace Legalization

/-! ## `visitSelectInst`: select of vector type -/

/-- The result type of a select, as `visitSelectInst` tells types apart. -/
inductive SelectTy where
  | i1
  | double
  | vector (numElements : Nat)
  | other
  deriving DecidableEq, Repr

/-- The case of `visitSelectInst` a select falls in. -/
inductive SelectCase where
  | oneBit
  | splitDouble
  | vector (vecSize : Nat)
  | unchanged
  deriving DecidableEq, Repr

/-- The chain of tests of `Legalization::visitSelectInst`; `ForceDPEmulation` is the
flag of that name and `supportFP64` is `m_ctx->platform.supportFP64()`. -/
def visitSelectInst_case (type : SelectTy) (ForceDPEmulation supportFP64 : Bool) : SelectCase :=
  if type = .i1 then .oneBit
  else if type = .double ∧ (ForceDPEmulation ∨ ¬ supportFP64) then .splitDouble
  else
    match type with
    | .vector vecSize => .vector vecSize
    | _ => .unchanged

/-- The condition of a select: one bit, or a vector of bits. -/
inductive SelectCond where
  | scalar (c : Bool)
  | vector (lanes : List Bool)
  deriving DecidableEq, Repr

/-- The value of `condVal` in round `i` of the loop: the condition itself, or its
lane `i` when it is a vector (`none` outside the vector). -/
def SelectCond.condVal (cond : SelectCond) (i : Nat) : Option Bool :=
  match cond with
  | .scalar c => some c
  | .vector lanes => lanes[i]?

/-- The value of `CreateSelect(condVal, trueVal, falseVal)`; an operand without
value (`none`, an undefined lane) gives a select without value. -/
def CreateSelect (condVal : Option Bool) (trueVal falseVal : Option Nat) : Option Nat :=
  match condVal, trueVal, falseVal with
  | some c, some t, some f => some (if c then t else f)
  | _, _, _ => none

/-- One round of the loop of the vector case of `visitSelectInst`: lane `i` of the
operands is extracted, selected, and inserted into `newVec` at `i`.  A lane of
`newVec` is `none` as long as it is undefined. -/
def visitSelectInst_vectorLane (cond : SelectCond) (trueValue falseValue : List Nat)
    (newVec : List (Option Nat)) (i : Nat) : List (Option Nat) :=
  let condVal := cond.condVal i
  let trueVal := trueValue[i]?
  let falseVal := falseValue[i]?
  let sel := CreateSelect condVal trueVal falseVal
  newVec.set i sel

/-- The vector case of `Legalization::visitSelectInst` on a select of `vecSize`
lanes: the value of `newVec` that replaces the select, built from
`UndefValue::get(I.getType())` lane by lane. -/
def visitSelectInst_vector (vecSize : Nat) (cond : SelectCond)
    (trueValue falseValue : List Nat) : List (Option Nat) :=
  (List.range vecSize).foldl (visitSelectInst_vectorLane cond trueValue falseValue)
    (List.replicate vecSize none)

end Legalization

namespace Legalization

/-- The body `%0 = xor %a, true; %1 = xor %b, true; %2 = and %0, %1;
%3 = select %2, %2, %x`: the select uses the `and` as its condition and as its
true value. -/
def selectOfItself : Body :=
  [(0, .binary .Xor (.arg 0) .allOnes), (1, .binary .Xor (.arg 1) .allOnes),
    (2, .binary .And (.inst 0) (.inst 1)), (3, .select (.inst 2) (.inst 2) (.arg 2))]

/-- The body of `selectOfItself` when the loop starts, with `invert` as `%4`. -/
def selectOfItself_loop0 : Body :=
  [(0, .binary .Xor (.arg 0) .allOnes), (1, .binary .Xor (.arg 1) .allOnes),
    (4, .binary .Or (.arg 0) (.arg 1)),
    (2, .binary .And (.inst 0) (.inst 1)), (3, .select (.inst 2) (.inst 2) (.arg 2))]

/-- The body after an odd number of rounds of the loop. -/
def selectOfItself_loop1 : Body :=
  [(0, .binary .Xor (.arg 0) .allOnes), (1, .binary .Xor (.arg 1) .allOnes),
    (4, .binary .Or (.arg 0) (.arg 1)),
    (2, .binary .And (.inst 0) (.inst 1)), (3, .select (.inst 4) (.arg 2) (.inst 2))]

/-- The body after an even number of rounds of the loop, two or more. -/
def selectOfItself_loop2 : Body :=
  [(0, .binary .Xor (.arg 0) .allOnes), (1, .binary .Xor (.arg 1) .allOnes),
    (4, .binary .Or (.arg 0) (.arg 1)),
    (2, .binary .And (.inst 0) (.inst 1)), (3, .select (.inst 4) (.inst 2) (.arg 2))]

end Legalization

/-- Embeds `DataLayout::isIllegalInteger`. -/
def DataLayout.isIllegalInteger (DL : DataLayout) (Width : Nat) : Bool :=
  !DL.isLegalInteger Width

namespace Legalization

/-! ## `visitICmpInst`: the two tests -/

/-- What the two tests of `visitICmpInst` read of a compare: the type `Ty` of
operand 0 (`some w` for the integer type of `w` bits, `none` for any other
type), whether operand 0 is a `TruncInst` and whether operand 1 is a
`ConstantInt`. -/
structure ICmpInst where
  Ty : Option Nat
  Op0IsTruncInst : Bool
  Op1IsConstantInt : Bool
  deriving DecidableEq, Repr

/-- The two rewrites of `visitICmpInst`. -/
inductive ICmpRewrite where
  | oneBit
  | truncConstant
  deriving DecidableEq, Repr

/-- A rewrite applied to the compare, with whether the compare had already been
erased (`IC.eraseFromParent()`) when the rewrite read and replaced it. -/
structure ICmpStep where
  rewrite : ICmpRewrite
  onErased : Bool
  deriving DecidableEq, Repr

/-- Embeds the control flow of `Legalization::visitICmpInst`: two `if` statements
one after the other, each ending in `IC.replaceAllUsesWith` and
`IC.eraseFromParent()`; `Op0`, `Op1` and `Ty` are read once, before the first
test.  The result lists the rewrites applied, in order. -/
def visitICmpInst_steps (DL : DataLayout) (IC : ICmpInst) : List ICmpStep :=
  let erased0 := false
  let first : List ICmpStep :=
    if IC.Ty = some 1 then [⟨.oneBit, erased0⟩] else []
  let erased1 := erased0 || !first.isEmpty
  let second : List ICmpStep :=
    match IC.Ty with
    | some w =>
      if DL.isIllegalInteger w && IC.Op0IsTruncInst && IC.Op1IsConstantInt then
        [⟨.truncConstant, erased1⟩]
      else []
    | none => []
  first ++ second

end Legalization

namespace Legalization

/-! ## The walk over loads, stores and insertelements -/

/-- Operands in the model of the walk: the result of an instruction, an argument
(or any other value that is no constant), `undef`, a constant integer, and the
three kinds of constant vector `visitInsertElementInst` tells apart;
an element of a `ConstantVector` is `none` when it is `undef`. -/
inductive WalkValue where
  | inst (id : Nat)
  | arg (id : Nat)
  | undef
  | constInt (v : Nat)
  | constantDataVector (elems : List Nat)
  | constantVector (elems : List (Option Nat))
  | constantAggregateZero (numElements : Nat)
  deriving DecidableEq, Repr

/-- Instruction kinds in the model of the walk.  A load says whether it loads
an `i1`; its operand is the pointer.  A store says whether it stores an `i1`;
its operands are the value and the pointer, and a store that is not of an `i1`
stores a value no case of `visitStoreInst` applies to (no constant vector and
no integer of illegal width).  An `insertelement` has elements other than `i1`
and the operands vector, element, index.  `cast` is a bitcast of a pointer, a
`zext` to `i8` or a `trunc` to `i1`, and `other` any other instruction the pass
has no rule for (a return, a call, ...).  Pointers are arguments or results of
instructions. -/
inductive WalkKind where
  | load (isI1 : Bool)
  | store (isI1 : Bool)
  | insertelement
  | cast
  | other
  deriving DecidableEq, Repr

/-- An instruction: its name, kind and operands. -/
structure WalkInst where
  id : Nat
  kind : WalkKind
  operands : List WalkValue
  deriving DecidableEq, Repr

/-- The function body in order, the next unused name, and
`m_instructionsToRemove`. -/
structure WalkState where
  insts : List WalkInst
  next : Nat
  dead : List Nat
  deriving DecidableEq, Repr

/-- The instruction with the given name. -/
def WalkState.find? (st : WalkState) (id : Nat) : Option WalkInst :=
  st.insts.find? (fun i => i.id == id)

/-- Puts `new` in front of the instruction named `pos`. -/
def WalkState.insertBefore (pos : Nat) (new : WalkInst) : List WalkInst → List WalkInst
  | [] => [new]
  | i :: rest =>
    if i.id = pos then new :: i :: rest else i :: WalkState.insertBefore pos new rest

/-- Creates an instruction in front of `pos` and returns it as a value. -/
def WalkState.createBefore (st : WalkState) (pos : Nat) (kind : WalkKind)
    (operands : List WalkValue) : WalkState × WalkValue :=
  (⟨WalkState.insertBefore pos ⟨st.next, kind, operands⟩ st.insts, st.next + 1, st.dead⟩,
    .inst st.next)

/-- Embeds `Value::replaceAllUsesWith` on the instruction named `old`. -/
def WalkState.replaceAllUsesWith (st : WalkState) (old : Nat) (repl : WalkValue) : WalkState :=
  ⟨st.insts.map (fun i =>
      ⟨i.id, i.kind, i.operands.map (fun o => if o = .inst old then repl else o)⟩),
    st.next, st.dead⟩

/-- Embeds `Instruction::eraseFromParent`. -/
def WalkState.eraseFromParent (st : WalkState) (id : Nat) : WalkState :=
  ⟨st.insts.filter (fun i => i.id != id), st.next, st.dead⟩

/-- Embeds `IRBuilder::CreateZExt` and `IRBuilder::CreateBitCast` in front of
`pos`: a constant is folded to a constant, for any other value a cast
instruction is created. -/
def WalkState.createCast (st : WalkState) (pos : Nat) (v : WalkValue) : WalkState × WalkValue :=
  match v with
  | .constInt c => (st, .constInt c)
  | _ => st.createBefore pos .cast [v]

/-- Modelled from the spec: `IGC::cloneLoad` of `helper.h`, which is not under
`src/`: "a load of the new type" through the new pointer, created in front of
the old load, which stays. -/
def WalkState.cloneLoad (st : WalkState) (Orig : Nat) (Ptr : WalkValue) :
    WalkState × WalkValue :=
  st.createBefore Orig (.load false) [Ptr]

/-- Modelled from the spec: `IGC::cloneStore` of `helper.h`, which is not under
`src/`: a store of the new value "through the new pointer", created in front of
the old store, which stays. -/
def WalkState.cloneStore (st : WalkState) (Orig : Nat) (Val Ptr : WalkValue) : WalkState :=
  (st.createBefore Orig (.store false) [Val, Ptr]).1

/-- Embeds `Legalization::visitLoadInst`: for a load of `i1` the pointer is cast
to `i8*`, an `i8` is loaded and truncated, and the uses of the load are
replaced; the load is neither erased nor put into `m_instructionsToRemove`. -/
def visitLoadInst (st : WalkState) (I : WalkInst) : WalkState :=
  match I.kind with
  | .load true =>
    let (st1, I8PtrOp) := st.createCast I.id (I.operands.headD .undef)
    let (st2, pNewLoadInst) := st1.cloneLoad I.id I8PtrOp
    let (st3, newVal) := st2.createBefore I.id .cast [pNewLoadInst]
    st3.replaceAllUsesWith I.id newVal
  | _ => st

/-- The cases of `Legalization::visitStoreInst` for the stores of the model: a
store in `m_instructionsToRemove` is skipped; for a store of an `i1` the value
is zero-extended to `i8`, the pointer is cast to `i8*`, the new store is
created and the old one is erased; any other store of the model is left. -/
def visitStoreInst (st : WalkState) (I : WalkInst) : WalkState :=
  if st.dead.contains I.id then st
  else
    match I.kind with
    | .store true =>
      let (st1, newVal) := st.createCast I.id (I.operands.headD .undef)
      let (st2, I8PtrOp) := st1.createCast I.id (I.operands.getD 1 .undef)
      let st3 := st2.cloneStore I.id newVal I8PtrOp
      st3.eraseFromParent I.id
    | _ => st

/-- The loops of `visitInsertElementInst` over the elements of a constant vector,
from index `i` on: every element that is not `undef` is inserted into
`newVec` by a new `insertelement` in front of `I`. -/
def insertConstantElements (I : Nat) :
    List (Option Nat) → Nat → WalkState × WalkValue → WalkState × WalkValue
  | [], _, acc => acc
  | none :: rest, i, acc => insertConstantElements I rest (i + 1) acc
  | some cst :: rest, i, acc =>
    insertConstantElements I rest (i + 1)
      (acc.1.createBefore I .insertelement [acc.2, .constInt cst, .constInt i])

/-- The end of the three constant cases of `visitInsertElementInst`: the
insertion of `I` is repeated on `newVec`, and the uses of `I` are replaced;
`I` is neither erased nor put into `m_instructionsToRemove`. -/
def insertIntoNewVec (I : WalkInst) (acc : WalkState × WalkValue) : WalkState :=
  let (st1, newVec) := acc.1.createBefore I.id .insertelement
    [acc.2, I.operands.getD 1 .undef, I.operands.getD 2 .undef]
  st1.replaceAllUsesWith I.id newVec

/-- Embeds `Legalization::visitInsertElementInst` for the insertelements of the
model: an instruction in `m_instructionsToRemove` is skipped; an insertion into
a `ConstantDataVector`, a `ConstantVector` or a `ConstantAggregateZero` becomes
a chain of insertions into `undef`; any other insertion is left (the elements
are no `i1`). -/
def visitInsertElementInst (st : WalkState) (I : WalkInst) : WalkState :=
  if st.dead.contains I.id then st
  else
    match I.kind, I.operands.headD .undef with
    | .insertelement, .constantDataVector elems =>
      insertIntoNewVec I (insertConstantElements I.id (elems.map some) 0 (st, .undef))
    | .insertelement, .constantVector elems =>
      insertIntoNewVec I (insertConstantElements I.id elems 0 (st, .undef))
    | .insertelement, .constantAggregateZero n =>
      insertIntoNewVec I (insertConstantElements I.id (List.replicate n (some 0)) 0 (st, .undef))
    | _, _ => st

/-- The dispatch of the instruction visitor on the instruction named `id`, if it
is still in the function. -/
def WalkState.visit (st : WalkState) (id : Nat) : WalkState :=
  match st.find? id with
  | none => st
  | some I =>
    match I.kind with
    | .load _ => visitLoadInst st I
    | .store _ => visitStoreInst st I
    | .insertelement => visitInsertElementInst st I
    | _ => st

/-- The part `visit(F)` and the deferred erasure of `runOnFunction`.  Every rule
of the model creates its instructions in front of the visited one, so the
visitor, which steps to the next instruction before it visits one, comes by
exactly the instructions the function had at the start, in order. -/
def legalizationWalk (st : WalkState) : WalkState :=
  let st1 := (st.insts.map (fun i => i.id)).foldl WalkState.visit st
  let st2 := st1.dead.foldl WalkState.eraseFromParent st1
  ⟨st2.insts, st2.next, []⟩

/-- The function has a load of an `i1`. -/
def WalkState.hasLoadOfI1 (st : WalkState) : Bool :=
  st.insts.any (fun i => i.kind == .load true)

/-- The function has a store of an `i1`. -/
def WalkState.hasStoreOfI1 (st : WalkState) : Bool :=
  st.insts.any (fun i => i.kind == .store true)

/-- The body `%0 = load i1, i1* %p; store i1 %0, i1* %q; ret void`, with the
arguments `%p`, `%q` named 0 and 1. -/
def loadStoreOfI1 : WalkState :=
  ⟨[⟨0, .load true, [.arg 0]⟩, ⟨1, .store true, [.inst 0, .arg 1]⟩, ⟨2, .other, []⟩], 3, []⟩

/-- The body `%0 = insertelement <2 x i32> <i32 7, i32 9>, i32 %x, i32 0;
ret <2 x i32> %0`, with the argument `%x` named 0. -/
def insertIntoConstant : WalkState :=
  ⟨[⟨0, .insertelement, [.constantDataVector [7, 9], .arg 0, .constInt 0]⟩,
    ⟨1, .other, [.inst 0]⟩], 2, []⟩

end Legalization



namespace Legalization

/-! ## `visitFCmpInstUndorderedFlushNan`: the value of the replacement -/

/-- Embeds `getOrderedPredicate`; `none` at `assert(0 && "wrong predicate")`. -/
def getOrderedPredicate : FPredicate → Option FPredicate
  | .FCMP_UEQ => some .FCMP_OEQ
  | .FCMP_UNE => some .FCMP_ONE
  | .FCMP_UGT => some .FCMP_OGT
  | .FCMP_ULT => some .FCMP_OLT
  | .FCMP_UGE => some .FCMP_OGE
  | .FCMP_ULE => some .FCMP_OLE
  | _ => none

/-- What `visitFCmpInstUndorderedFlushNan` puts in the place of the compare: a
constant, or a new compare of the same operands with another predicate. -/
inductive FlushNanResult where
  | constant (b : Bool)
  | fcmp (pred : FPredicate)
  deriving DecidableEq, Repr

/-- Embeds the `switch` of `Legalization::visitFCmpInstUndorderedFlushNan`: the
`result` for the predicate, `none` when there is none and the compare stays (or
`getOrderedPredicate` asserts). -/
def visitFCmpInstUndorderedFlushNan (pred : FPredicate) : Option FlushNanResult :=
  match pred with
  | .FCMP_ORD => some (.constant true)
  | .FCMP_UNO => some (.constant false)
  | .FCMP_ONE => some (.fcmp .FCMP_UNE)
  | .FCMP_UEQ => some (.fcmp .FCMP_OEQ)
  | .FCMP_UGE => (getOrderedPredicate pred).map .fcmp
  | .FCMP_UGT => (getOrderedPredicate pred).map .fcmp
  | .FCMP_ULE => (getOrderedPredicate pred).map .fcmp
  | .FCMP_ULT => (getOrderedPredicate pred).map .fcmp
  | _ => none

/-- The value of a replacement on the operands `a`, `b`. -/
def FlushNanResult.eval (a b : Option Int) : FlushNanResult → Bool
  | .constant c => c
  | .fcmp pred => Legalization.fcmp pred a b

end Legalization

namespace Legalization

/-! ## `visitTruncInst`: truncation of a bitcast `<3 x i16>` -/

/-- The type of the operand of a bitcast, as `visitTruncInst` tests it: a vector
type with its number of elements and element width, or any other type. -/
inductive BitCastSrcTy where
  | vector (numElements eltBits : Nat)
  | other
  deriving DecidableEq, Repr

/-- The operand of a `BitCastInst`: its type, and the values of its lanes when it
is a vector. -/
structure BitCastSrc where
  type : BitCastSrcTy
  lanes : List Nat
  deriving DecidableEq, Repr

/-- The operand of the truncation: a `BitCastInst` with its operand; a
`BinaryOperator`, with whether its opcode is `LShr`, the value of its second
operand when that is a `ConstantInt`, and the operand of its first operand when
that is a `BitCastInst`; or any other value. -/
inductive TruncSrc where
  | bitCast (Src : BitCastSrc)
  | binaryOperator (isLShr : Bool) (CI : Option Nat) (BC : Option BitCastSrc)
  | other
  deriving DecidableEq, Repr

/-- The first part of `visitTruncInst`: the index `Idx` of the first lane to read
and the operand of the bitcast, `none` where the function returns. -/
def visitTruncInst_match (Src : TruncSrc) : Option (Nat × BitCastSrc) :=
  match Src with
  | .bitCast s => some (0, s)
  | .binaryOperator isLShr CI BC =>
    if !isLShr then none
    else
      match CI with
      | none => none
      | some c =>
        if c = 16 then BC.map (fun s => (1, s))
        else if c = 32 then BC.map (fun s => (2, s))
        else none
  | .other => none

/-- Embeds `Legalization::visitTruncInst` on a truncation from `SrcBits` to
`DstBits` bits: the value of `NewVal` that replaces the truncation, `none`
when the truncation is left unchanged. -/
def visitTruncInst (DstBits SrcBits : Nat) (Src : TruncSrc) : Option Nat :=
  if DstBits ≠ 32 then none
  else if SrcBits ≠ 48 then none
  else
    match visitTruncInst_match Src with
    | none => none
    | some (Idx, BCSrc) =>
      if BCSrc.type ≠ .vector 3 16 then none
      else
        let NewVal := zext (BCSrc.lanes.getD Idx 0)
        if Idx + 1 < 3 then
          let Hi := zext (BCSrc.lanes.getD (Idx + 1) 0)
          some (shl 32 Hi 16 ||| NewVal)
        else some NewVal

end Legalization

namespace Legalization

/-! ## `findInsert`: the chain of insertions -/

/-- The insertions of a chain of `insertelement`s, from the outermost inwards,
each with its inserted operand and its index operand. -/
def insertChain : VecValue → List (VecValue × VecValue)
  | .insertElement vec elt idx => (elt, idx) :: insertChain vec
  | _ => []

/-- Follows the claim: the inserted operand of the outermost insertion whose
constant index equals `i`; nothing where an insertion with a non-constant index
comes first or the start of the chain is reached. -/
def outermostInsertion : List (VecValue × VecValue) → Nat → Option VecValue
  | [], _ => none
  | (elt, .constInt c) :: rest, i => if c = i then some elt else outermostInsertion rest i
  | _ :: _, _ => none

/-- The chain builds a vector of `n` lanes: its start evaluates to a vector of
`n` lanes, every inserted operand to a scalar, and every index to a defined
value below `n`. -/
def wellFormedChain (env : Nat → RVal) (n : Nat) : VecValue → Bool
  | .insertElement vec elt idx =>
    wellFormedChain env n vec
      && (match elt.eval env with
          | .scalar _ => true
          | _ => false)
      && (match idx.eval env with
          | .scalar (some k) => decide (k < n)
          | _ => false)
  | .constInt _ => false
  | .undef => false
  | .constVec lanes => lanes.length == n
  | .leaf id =>
    match env id with
    | .vector lanes => lanes.length == n
    | _ => false
  | .extractElement _ _ => false

end Legalization

namespace Legalization

/-! ## `Cast`: the casts around a retyped load and store -/

/-- The cast opcodes `CastInst::CreateIntegerCast` and `CastInst::CreateFPCast`
choose from. -/
inductive CastOps where
  | BitCast
  | Trunc
  | ZExt
  | SExt
  | FPTrunc
  | FPExt
  deriving DecidableEq, Repr

/-- The value of a cast from `srcBits` to `dstBits` bits on the bit pattern `v`.  The
two floating-point conversions are given no value: no retyped access creates
them, since `LegalAllocaType` keeps every floating-point type. -/
def CastOps.apply (srcBits dstBits v : Nat) : CastOps → Option Nat
  | .BitCast => some v
  | .Trunc => some (trunc dstBits v)
  | .ZExt => some (zext v)
  | .SExt => some (sext srcBits dstBits v)
  | .FPTrunc => none
  | .FPExt => none

end Legalization

namespace Legalization

/-! ## `markToRemove` and the other ways into `m_instructionsToRemove` -/

/-- The instruction kinds the `uadd_with_overflow` and `assume` cases of
`visitIntrinsicInst` tell apart or create: a call of an intrinsic, an
`extractvalue` with its first index, the new `add`, the new `icmp ult`, and
every other instruction. -/
inductive UseKind where
  | call (IID : IntrinsicID)
  | extractValue (index0 : Nat)
  | add
  | icmpULT
  | other
  deriving DecidableEq, Repr

/-- An instruction: its name, its kind and its operands, the references it holds.
An operand is the name of the instruction that defines it, or a name no
instruction has (an argument or a constant). -/
structure UseInst where
  id : Nat
  kind : UseKind
  operands : List Nat
  deriving DecidableEq, Repr

/-- The function body in order, the next unused name, and
`m_instructionsToRemove`. -/
structure UseState where
  insts : List UseInst
  next : Nat
  m_instructionsToRemove : List Nat
  deriving DecidableEq, Repr

/-- The instruction with the given name. -/
def UseState.find? (st : UseState) (id : Nat) : Option UseInst :=
  st.insts.find? (fun i => i.id == id)

/-- The users of a value, in program order. -/
def UseState.users (st : UseState) (v : Nat) : List Nat :=
  (st.insts.filter (fun i => i.operands.contains v)).map (fun i => i.id)

/-- Puts `new` in front of the instruction named `pos`. -/
def UseState.insertBeforeList (pos : Nat) (new : UseInst) : List UseInst → List UseInst
  | [] => [new]
  | i :: rest =>
    if i.id = pos then new :: i :: rest else i :: UseState.insertBeforeList pos new rest

/-- Creates an instruction in front of `pos` and returns its name. -/
def UseState.createBefore (st : UseState) (pos : Nat) (kind : UseKind) (operands : List Nat) :
    UseState × Nat :=
  (⟨UseState.insertBeforeList pos ⟨st.next, kind, operands⟩ st.insts, st.next + 1,
    st.m_instructionsToRemove⟩, st.next)

/-- Embeds `Value::replaceAllUsesWith`. -/
def UseState.replaceAllUsesWith (st : UseState) (old repl : Nat) : UseState :=
  ⟨st.insts.map (fun i => ⟨i.id, i.kind, i.operands.map (fun o => if o = old then repl else o)⟩),
    st.next, st.m_instructionsToRemove⟩

/-- Embeds `m_instructionsToRemove.insert(I)`. -/
def UseState.insert (st : UseState) (I : Nat) : UseState :=
  if st.m_instructionsToRemove.contains I then st
  else ⟨st.insts, st.next, st.m_instructionsToRemove ++ [I]⟩

/-- Embeds `I->dropAllReferences()`: the instruction lets go of all its operands. -/
def UseState.dropAllReferences (st : UseState) (I : Nat) : UseState :=
  ⟨st.insts.map (fun i => if i.id = I then ⟨i.id, i.kind, []⟩ else i), st.next,
    st.m_instructionsToRemove⟩

/-- Embeds `Legalization::markToRemove`. -/
def markToRemove (st : UseState) (I : Nat) : UseState :=
  (st.insert I).dropAllReferences I

/-- The body of the loop over the users of the call in the `uadd_with_overflow`
case: the uses of an `extractvalue` are replaced by `res` or `isOverflow` and
the `extractvalue` is inserted into `m_instructionsToRemove`; `none` at an
`assert(0)`. -/
def visitIntrinsicInst_uaddUser (res isOverflow : Nat) (st : UseState) (U : Nat) :
    Option UseState :=
  match st.find? U with
  | some ⟨_, .extractValue index0, _⟩ =>
    if index0 = 0 then some ((st.replaceAllUsesWith U res).insert U)
    else if index0 = 1 then some ((st.replaceAllUsesWith U isOverflow).insert U)
    else none
  | _ => none

/-- Embeds the first `switch` of `Legalization::visitIntrinsicInst` on the def-use
graph, for the call named `I`; `none` where a case reaches `assert(0)`.  The
statistics counter `numInsts` is left out. -/
def visitIntrinsicInst_onGraph (st : UseState) (I : Nat) : Option UseState :=
  match st.find? I with
  | some ⟨_, .call .uadd_with_overflow, ops⟩ =>
    let src0 := ops.getD 0 0
    let src1 := ops.getD 1 0
    let (st1, res) := st.createBefore I .add [src0, src1]
    let (st2, isOverflow) := st1.createBefore I .icmpULT [res, src0]
    ((st2.users I).foldlM (visitIntrinsicInst_uaddUser res isOverflow) st2).map
      (fun (st3 : UseState) => st3.insert I)
  | some ⟨_, .call .assume, _⟩ => some (st.insert I)
  | some ⟨_, .call .sadd_with_overflow, _⟩ => none
  | some ⟨_, .call .usub_with_overflow, _⟩ => none
  | some ⟨_, .call .ssub_with_overflow, _⟩ => none
  | some ⟨_, .call .umul_with_overflow, _⟩ => none
  | some ⟨_, .call .smul_with_overflow, _⟩ => none
  | _ => some st

/-- The operands an instruction holds, `[]` when there is no such instruction. -/
def UseState.operandsOf (st : UseState) (id : Nat) : List Nat :=
  match st.find? id with
  | some i => i.operands
  | none => []

/-- The body
`%10 = call {i32, i1} @llvm.uadd.with.overflow.i32(i32 %a, i32 %b)`,
`%11 = extractvalue {i32, i1} %10, 0`, `%12 = extractvalue {i32, i1} %10, 1`,
`%13 = select i1 %12, i32 -1, i32 %11`, with the arguments `%a`, `%b` named
100, 101 and the constant named 102. -/
def uaddExample : UseState :=
  ⟨[⟨10, .call .uadd_with_overflow, [100, 101]⟩, ⟨11, .extractValue 0, [10]⟩,
    ⟨12, .extractValue 1, [10]⟩, ⟨13, .other, [12, 102, 11]⟩], 14, []⟩

/-- The body `%10 = icmp ult i32 %a, %b`, `call void @llvm.assume(i1 %10)`, the
call named 11. -/
def assumeExample : UseState :=
  ⟨[⟨10, .icmpULT, [100, 101]⟩, ⟨11, .call .assume, [10]⟩], 12, []⟩

end Legalization

namespace GenOptLegalizer

/-! ## `GenOptLegalizer`: the removal list of a walk -/

/-- Types as `GenOptLegalizer` tests them: an integer type with its width, or any
other type (a pointer, a vector, ...). -/
inductive GTy where
  | int (bits : Nat)
  | notInt
  deriving DecidableEq, Repr

/-- Opcodes the visitors tell apart; `Other` is every other opcode
(`extractelement`, `shl`, `or`, `shufflevector`, ...). -/
inductive GOpcode where
  | Load
  | Store
  | Trunc
  | BitCast
  | ZExt
  | Other
  deriving DecidableEq, Repr

/-- An instruction: its name, opcode, type and operands.  An operand is the name
of the instruction that defines it, or a name no instruction has (an argument);
constant operands are left out.  The pointer is operand 0 of a load and operand
1 of a store, whose operand 0 is the stored value. -/
structure GInst where
  id : Nat
  opcode : GOpcode
  type : GTy
  operands : List Nat
  deriving DecidableEq, Repr

/-- The function body in order (definitions in front of their uses), the next
unused name, `m_InstructionsToRemove` and `m_Changed`. -/
structure GState where
  insts : List GInst
  next : Nat
  m_InstructionsToRemove : List Nat
  m_Changed : Bool
  deriving DecidableEq, Repr

/-- The instruction with the given name. -/
def GState.find? (st : GState) (id : Nat) : Option GInst :=
  st.insts.find? (fun i => i.id == id)

/-- The users of a value, in program order. -/
def GState.users (st : GState) (v : Nat) : List Nat :=
  (st.insts.filter (fun i => i.operands.contains v)).map (fun i => i.id)

/-- Number of uses of a value: the operand slots that hold it. -/
def GState.numUses (st : GState) (v : Nat) : Nat :=
  (st.insts.map (fun i => i.operands.count v)).sum

/-- Embeds `Value::hasOneUse`. -/
def GState.hasOneUse (st : GState) (v : Nat) : Bool := st.numUses v == 1

/-- Puts `new` in front of the instruction named `pos`. -/
def insertBeforeList (pos : Nat) (new : GInst) : List GInst → List GInst
  | [] => [new]
  | i :: rest => if i.id = pos then new :: i :: rest else i :: insertBeforeList pos new rest

/-- Creates an instruction in front of `pos` and returns its name. -/
def GState.createBefore (st : GState) (pos : Nat) (opcode : GOpcode) (type : GTy)
    (operands : List Nat) : GState × Nat :=
  (⟨insertBeforeList pos ⟨st.next, opcode, type, operands⟩ st.insts, st.next + 1,
    st.m_InstructionsToRemove, st.m_Changed⟩, st.next)

/-- Embeds `Value::replaceAllUsesWith`. -/
def GState.replaceAllUsesWith (st : GState) (old repl : Nat) : GState :=
  ⟨st.insts.map (fun i =>
      ⟨i.id, i.opcode, i.type, i.operands.map (fun o => if o = old then repl else o)⟩),
    st.next, st.m_InstructionsToRemove, st.m_Changed⟩

/-- Embeds `m_InstructionsToRemove.push_back(I)`. -/
def GState.push_back (st : GState) (I : Nat) : GState :=
  ⟨st.insts, st.next, st.m_InstructionsToRemove ++ [I], st.m_Changed⟩

/-- Sets `m_Changed = true`. -/
def GState.setChanged (st : GState) : GState :=
  ⟨st.insts, st.next, st.m_InstructionsToRemove, true⟩

/-- Modelled from the spec: `IGC::cloneLoad` of `helper.h`, which is not under
`src/`: a new load through the new pointer, here of the type `<3 x i8>` and
placed in front of the old one. -/
def GState.cloneLoad (st : GState) (Orig : Nat) (Ptr : Nat) : GState × Nat :=
  st.createBefore Orig .Load .notInt [Ptr]

/-- Modelled from the spec: `IGC::cloneStore` of `helper.h`, which is not under
`src/`: a new store of the value through the new pointer, placed in front of the
old one. -/
def GState.cloneStore (st : GState) (Orig : Nat) (Val Ptr : Nat) : GState :=
  (st.createBefore Orig .Store .notInt [Val, Ptr]).1

/-- One lane of the new value in `visitLoadInst`: `extractelement`, `zext`, `shl`
and `or` with the value so far (`none` for the null constant). -/
def visitLoadInst_lane (st : GState) (I NewLD : Nat) (NewVal : Option Nat) : GState × Nat :=
  let (st1, L) := st.createBefore I .Other .notInt [NewLD]
  let (st2, Z) := st1.createBefore I .ZExt (.int 32) [L]
  let (st3, S) := st2.createBefore I .Other (.int 32) [Z]
  st3.createBefore I .Other (.int 32) (NewVal.toList ++ [S])

/-- Embeds `GenOptLegalizer::visitLoadInst` on the load named `I`. -/
def visitLoadInst (st : GState) (I : GInst) : GState :=
  if I.type = .int 24 then
    if !st.hasOneUse I.id then st
    else
      match (st.users I.id).head?.bind st.find? with
      | none => st
      | some ZEI =>
        if ZEI.opcode ≠ .ZExt ∨ ZEI.type ≠ .int 32 then st
        else
          let (st1, NewPtr) := st.createBefore I.id .BitCast .notInt [I.operands.headD 0]
          let (st2, NewLD) := st1.cloneLoad I.id NewPtr
          let (st3, NewVal0) := visitLoadInst_lane st2 I.id NewLD none
          let (st4, NewVal1) := visitLoadInst_lane st3 I.id NewLD (some NewVal0)
          let (st5, NewVal) := visitLoadInst_lane st4 I.id NewLD (some NewVal1)
          (((st5.replaceAllUsesWith ZEI.id NewVal).push_back ZEI.id).push_back I.id).setChanged
  else st

/-- Embeds `GenOptLegalizer::visitStoreInst` on the store named `I`. -/
def visitStoreInst (st : GState) (I : GInst) : GState :=
  match st.find? (I.operands.headD 0) with
  | none => st
  | some V =>
    if V.type = .int 24 then
      if !st.hasOneUse V.id then st
      else if V.opcode = .Load then
        let LD := V
        let (st1, NewPtr) := st.createBefore LD.id .BitCast .notInt [LD.operands.headD 0]
        let (st2, NewLD) := st1.cloneLoad LD.id NewPtr
        let (st3, NewPtr2) := st2.createBefore I.id .BitCast .notInt [I.operands.getD 1 0]
        let st4 := st3.cloneStore I.id NewLD NewPtr2
        ((st4.push_back I.id).push_back LD.id).setChanged
      else
        match st.find? (I.operands.getD 1 0) with
        | none => st
        | some SP =>
          if V.opcode = .Trunc ∧ SP.opcode = .BitCast then
            let SV := V
            let (st1, NewVec) := st.createBefore I.id .BitCast .notInt [SV.operands.headD 0]
            let (st2, NewVal) := st1.createBefore I.id .Other .notInt [NewVec]
            let (st3, NewPtr) := st2.createBefore I.id .BitCast .notInt [SP.operands.headD 0]
            let st4 := st3.cloneStore I.id NewVal NewPtr
            (((st4.push_back I.id).push_back SV.id).push_back SP.id).setChanged
          else st
    else st

/-- Embeds `GenOptLegalizer::visitBitCastInst` on a bitcast whose type is no integer
type: `LegalizeGVNBitCastPattern` returns `false` at its first test.  A bitcast
to an integer type, whose users `LegalizeGVNBitCastPattern` rewrites (pushing
nothing on the list, its last argument being `nullptr`), is outside this model:
`none`. -/
def visitBitCastInst_onGraph (st : GState) (I : GInst) : Option GState :=
  if I.type = .notInt then some st else none

/-- The dispatch of `InstVisitor::visit` on one instruction. -/
def visitInst (st : GState) (id : Nat) : Option GState :=
  match st.find? id with
  | none => some st
  | some I =>
    match I.opcode with
    | .BitCast => visitBitCastInst_onGraph st I
    | .Load => some (visitLoadInst st I)
    | .Store => some (visitStoreInst st I)
    | _ => some st

/-- Embeds `visit(F)`: the instructions of the body are visited in order.  What a
visitor creates is put in front of the visited instruction or of a definition
in front of it, and is not visited. -/
def visit (st : GState) : Option GState :=
  (st.insts.map (fun i => i.id)).foldlM visitInst st

/-- What the erasure loop meets at one `I->eraseFromParent()`: the instruction,
whether it is still in the function, and the users it has at that moment. -/
structure EraseEvent where
  id : Nat
  present : Bool
  users : List Nat
  deriving DecidableEq, Repr

/-- Embeds `I->eraseFromParent()`. -/
def GState.eraseFromParent (st : GState) (I : Nat) : GState :=
  ⟨st.insts.filter (fun i => i.id != I), st.next, st.m_InstructionsToRemove, st.m_Changed⟩

/-- The loop `for (auto I : m_InstructionsToRemove) I->eraseFromParent()`, with what
each erasure meets. -/
def eraseLoop : List Nat → GState → List EraseEvent × GState
  | [], st => ([], st)
  | I :: rest, st =>
    let ev : EraseEvent := ⟨I, (st.find? I).isSome, st.users I⟩
    let r := eraseLoop rest (st.eraseFromParent I)
    (ev :: r.1, r.2)

/-- Embeds `GenOptLegalizer::runOnFunction` on a body: what the erasure loop met,
the body it leaves, and the returned `m_Changed`. -/
def runOnFunction (insts : List GInst) (next : Nat) : Option (List EraseEvent × List GInst × Bool) :=
  (visit ⟨insts, next, [], false⟩).map (fun st =>
    let r := eraseLoop st.m_InstructionsToRemove st
    (r.1, r.2.insts, st.m_Changed))

/-- The list the walk leaves in `m_InstructionsToRemove`. -/
def removalList (insts : List GInst) (next : Nat) : Option (List Nat) :=
  (visit ⟨insts, next, [], false⟩).map (fun st => st.m_InstructionsToRemove)

/-- The body `%10 = bitcast i8* %ptr to i24*`, `%11 = trunc i32 %a to i24`,
`store i24 %11, i24* %10`, `%13 = trunc i32 %b to i24`,
`store i24 %13, i24* %10`, with `%ptr`, `%a`, `%b` named 100, 101, 102. -/
def twoStores : List GInst :=
  [⟨10, .BitCast, .notInt, [100]⟩, ⟨11, .Trunc, .int 24, [101]⟩, ⟨12, .Store, .notInt, [11, 10]⟩,
    ⟨13, .Trunc, .int 24, [102]⟩, ⟨14, .Store, .notInt, [13, 10]⟩]

/-- The body `%10 = bitcast i8* %ptr to i24*`, `%11 = trunc i32 %a to i24`,
`store i24 %11, i24* %10`, `%13 = load i24, i24* %10`,
`%14 = sext i24 %13 to i32`. -/
def storeThenLoadBack : List GInst :=
  [⟨10, .BitCast, .notInt, [100]⟩, ⟨11, .Trunc, .int 24, [101]⟩, ⟨12, .Store, .notInt, [11, 10]⟩,
    ⟨13, .Load, .int 24, [10]⟩, ⟨14, .Other, .int 32, [13]⟩]

end GenOptLegalizer

namespace IGC

/-! ## `expandFDIVInstructions` on a function -/

/-- Constants: a `ConstantFP` with its type and bit pattern, or any other constant
(a `ConstantInt`, `undef`, a constant expression), told apart by a tag. -/
inductive Const where
  | fp (ty : Ty) (bits : Nat)
  | other (tag : Nat)
  deriving DecidableEq, Repr

/-- Operands of an instruction: a constant, or the value with a given name, the
result of the instruction of that name or an argument. -/
inductive Operand where
  | const (c : Const)
  | value (id : Nat)
  deriving DecidableEq, Repr

/-- Embeds `isa<Constant>`. -/
def Operand.isConstant : Operand → Bool
  | .const _ => true
  | .value _ => false

/-- The operand as `isCandidateFDiv` and `needsNoScaling` see it: a `ConstantFP`, or
any other value. -/
def Operand.toFValue : Operand → FValue
  | .const (.fp ty bits) => .constFP ty bits
  | .const (.other tag) => .nonConst tag
  | .value id => .nonConst id

/-- The opcodes the expansion creates; `Other` is every other opcode. -/
inductive ExpOpcode where
  | FDiv
  | FMul
  | FPExt
  | FPTrunc
  | BitCast
  | And
  | ICmpEQ
  | ICmpUGE
  | Select
  | Other
  deriving DecidableEq, Repr

/-- The opcode as `isCandidateFDiv` tests it. -/
def ExpOpcode.toOpcode : ExpOpcode → Opcode
  | .FDiv => .FDiv
  | _ => .other

/-- An instruction of the function: its name, type, opcode and operands, and
whether it has the fast-math flag `arcp` (`hasAllowReciprocal`). -/
structure FInst where
  id : Nat
  ty : Ty
  opcode : ExpOpcode
  operands : List Operand
  arcp : Bool
  deriving DecidableEq, Repr

/-- A function: its instructions in the order the loops of
`expandFDIVInstructions` meet them, and the next unused name. -/
structure Func where
  insts : List FInst
  next : Nat
  deriving DecidableEq, Repr

/-- Names are unique and below the next unused name. -/
def Func.wellFormed (F : Func) : Bool :=
  decide (F.insts.map (fun i => i.id)).Nodup && F.insts.all (fun i => decide (i.id < F.next))

/-- The instruction with the given name. -/
def Func.find? (F : Func) (id : Nat) : Option FInst :=
  F.insts.find? (fun i => i.id == id)

/-- Number of uses of the value with the given name: the operand slots that hold
it. -/
def Func.numUses (F : Func) (id : Nat) : Nat :=
  (F.insts.map (fun i => i.operands.count (.value id))).sum

/-- What `isCandidateFDiv` reads of an instruction of the function. -/
def Func.toInstruction (F : Func) (Inst : FInst) : Instruction :=
  ⟨F.numUses Inst.id, Inst.ty, Inst.opcode.toOpcode, Inst.operands.map Operand.toFValue⟩

/-- Puts `new` in front of the instruction named `pos`. -/
def insertBefore (pos : Nat) (new : FInst) : List FInst → List FInst
  | [] => [new]
  | i :: rest => if i.id = pos then new :: i :: rest else i :: insertBefore pos new rest

/-- Embeds the `Create...` functions of the `IRBuilder` that was built on `Inst`:
when every operand is a constant the builder folds and returns the constant
`fold opcode ty operands` without creating an instruction; otherwise it creates
the instruction in front of `Inst`, with the fast-math flags of `Inst`. -/
def Func.create (fold : ExpOpcode → Ty → List Operand → Const) (F : Func) (Inst : FInst)
    (opcode : ExpOpcode) (ty : Ty) (operands : List Operand) : Func × Operand :=
  if operands.all Operand.isConstant then (F, .const (fold opcode ty operands))
  else
    (⟨insertBefore Inst.id ⟨F.next, ty, opcode, operands, Inst.arcp⟩ F.insts, F.next + 1⟩,
      .value F.next)

/-- The expansion of a `half` division with `arcp`: `Y = fdiv(C1, Y)` with `C1` the
`half` constant `1.0`, `V = fmul(Y, X)`. -/
def expandHalfArcp (fold : ExpOpcode → Ty → List Operand → Const) (F : Func) (Inst : FInst)
    (X Y : Operand) : Func × Operand :=
  let C1 := Operand.const (.fp .half 0x3C00)
  let r1 := F.create fold Inst .FDiv .half [C1, Y]
  r1.1.create fold Inst .FMul .half [r1.2, X]

/-- The expansion of a `half` division without `arcp`: up cast to `float`, `rcp` and
`mul` in `float`, down cast to `half`. -/
def expandHalf (fold : ExpOpcode → Ty → List Operand → Const) (F : Func) (Inst : FInst)
    (X Y : Operand) : Func × Operand :=
  let r1 := F.create fold Inst .FPExt .float [Y]
  let r2 := r1.1.create fold Inst .FDiv .float [.const (.fp .float 0x3F800000), r1.2]
  let r3 := r2.1.create fold Inst .FPExt .float [X]
  let r4 := r3.1.create fold Inst .FMul .float [r2.2, r3.2]
  r4.1.create fold Inst .FPTrunc Inst.ty [r4.2]

/-- The expansion of a `float` division with `arcp` or with a constant divisor that
needs no scaling: `Y = fdiv(1.0f, Y)`, `V = fmul(Y, X)`. -/
def expandUnscaled (fold : ExpOpcode → Ty → List Operand → Const) (F : Func) (Inst : FInst)
    (X Y : Operand) : Func × Operand :=
  let r1 := F.create fold Inst .FDiv .float [.const (.fp .float 0x3F800000), Y]
  r1.1.create fold Inst .FMul .float [r1.2, X]

/-- The scaled expansion of a `float` division, `rcp(y * S) * x * S`. -/
def expandScaled (fold : ExpOpcode → Ty → List Operand → Const) (F : Func) (Inst : FInst)
    (X Y : Operand) : Func × Operand :=
  let C0 := Operand.const (.fp .float 0x4F800000)
  let C1 := Operand.const (.fp .float 0x3F800000)
  let C2 := Operand.const (.fp .float 0x2F800000)
  let r1 := F.create fold Inst .BitCast .other [Y]
  let Exp := r1.1.create fold Inst .And .other [r1.2, .const (.other 0x7f800000)]
  let P1 := Exp.1.create fold Inst .ICmpEQ .other [Exp.2, .const (.other 0)]
  let Scale1 := P1.1.create fold Inst .Select .float [P1.2, C0, C1]
  let P2 := Scale1.1.create fold Inst .ICmpUGE .other [Exp.2, .const (.other (200 <<< 23))]
  let Scale := P2.1.create fold Inst .Select .float [P2.2, C2, Scale1.2]
  let V1 := Scale.1.create fold Inst .FMul .float [Y, Scale.2]
  let V2 := V1.1.create fold Inst .FDiv .float [C1, V1.2]
  let V3 := V2.1.create fold Inst .FMul .float [V2.2, X]
  V3.1.create fold Inst .FMul .float [V3.2, Scale.2]

/-- Embeds `Inst->replaceAllUsesWith(V)`. -/
def Func.replaceAllUsesWith (F : Func) (old : Nat) (V : Operand) : Func :=
  ⟨F.insts.map (fun i =>
      ⟨i.id, i.ty, i.opcode, i.operands.map (fun o => if o = .value old then V else o), i.arcp⟩),
    F.next⟩

/-- Embeds `Inst->eraseFromParent()`. -/
def Func.eraseFromParent (F : Func) (id : Nat) : Func :=
  ⟨F.insts.filter (fun i => i.id != id), F.next⟩

/-- The part of the body of the loop of `expandFDIVInstructions` that builds the
value `V` for a candidate `Inst` with the operands `X`, `Y`. -/
def buildExpansion (fold : ExpOpcode → Ty → List Operand → Const) (F : Func) (Inst : FInst)
    (X Y : Operand) : Func × Operand :=
  if Inst.ty = .half then
    if Inst.arcp then expandHalfArcp fold F Inst X Y
    else expandHalf fold F Inst X Y
  else if Inst.arcp || needsNoScaling Y.toFValue then expandUnscaled fold F Inst X Y
  else expandScaled fold F Inst X Y

/-- The body of the loop of `expandFDIVInstructions` for a candidate `Inst`: the
expansion is built in front of `Inst`, the uses of `Inst` are replaced by `V`,
and `Inst` is erased.  A missing operand is read as `undef`. -/
def expand (fold : ExpOpcode → Ty → List Operand → Const) (F : Func) (Inst : FInst) : Func :=
  let X := Inst.operands.getD 0 (.const (.other 0))
  let Y := Inst.operands.getD 1 (.const (.other 0))
  let r := buildExpansion fold F Inst X Y
  (r.1.replaceAllUsesWith Inst.id r.2).eraseFromParent Inst.id

/-- One turn of the loop of `expandFDIVInstructions`, on the instruction with the
given name; the state is the function and `Changed`. -/
def expandStep (fold : ExpOpcode → Ty → List Operand → Const) (s : Func × Bool) (id : Nat) :
    Func × Bool :=
  match s.1.find? id with
  | none => s
  | some Inst =>
    if !isCandidateFDiv (s.1.toInstruction Inst) then s
    else (expand fold s.1 Inst, true)

/-- Embeds `IGC::expandFDIVInstructions`: the instructions of the function are
visited in order; the iterator is advanced before the instruction is looked at
(`Inst = &*Iter++`), so what the expansion creates in front of `Inst` is not
visited.  The result is the function and the returned `Changed`.  `fold` is the
constant folder of the `IRBuilder`. -/
def expandFDIVInstructions (fold : ExpOpcode → Ty → List Operand → Const) (F : Func) :
    Func × Bool :=
  (F.insts.map (fun i => i.id)).foldl (expandStep fold) (F, false)

/-- The dividend of the instruction is a floating-point constant that is exactly
`1.0`. -/
def FInst.dividendIsOne (i : FInst) : Prop :=
  ∃ ty bits rest, i.operands = .const (.fp ty bits) :: rest
    ∧ (FValue.constFP ty bits).isExactlyOne = true

/-- An operand of an instruction created by an expansion that started at the next
unused name `N`: a constant, the operand `X` or `Y` of the division, or a value
created by the expansion. -/
def allowedOperand (N : Nat) (X Y : Operand) (o : Operand) : Prop :=
  o.isConstant = true ∨ o = X ∨ o = Y ∨ ∃ k, N ≤ k ∧ o = .value k

/-- A value returned by the builder of an expansion that started at the next unused
name `N`: a constant or a value created by the expansion. -/
def freshOperand (N : Nat) (o : Operand) : Prop :=
  o.isConstant = true ∨ ∃ k, N ≤ k ∧ o = .value k

/-- The state `G` of an expansion that started from `B`: names are unique and below
the next unused name, every instruction of `B` is there, and every other
instruction has a new name, only allowed operands, and, if it is a division,
the dividend `1.0`. -/
def builtFrom (B : Func) (X Y : Operand) (G : Func) : Prop :=
  B.next ≤ G.next
    ∧ (∀ i ∈ G.insts, i.id < G.next)
    ∧ (G.insts.map (fun i => i.id)).Nodup
    ∧ (∀ i ∈ G.insts, i ∈ B.insts
        ∨ (B.next ≤ i.id ∧ (i.opcode = .FDiv → i.dividendIsOne)
            ∧ ∀ o ∈ i.operands, allowedOperand B.next X Y o))
    ∧ ∀ i ∈ B.insts, i ∈ G.insts

/-- The function with `%1 = fdiv float %x, %y`, `%2 = fdiv arcp half %h, %k`,
`%3 = fdiv float %1, 3.0`, `%4 = fpext half %2 to float`, `%5 = fadd float %3, %4`,
`ret float %5`; the arguments `%x`, `%y`, `%h`, `%k` are named 100 to 103. -/
def divExample : Func :=
  ⟨[⟨1, .float, .FDiv, [.value 100, .value 101], false⟩,
    ⟨2, .half, .FDiv, [.value 102, .value 103], true⟩,
    ⟨3, .float, .FDiv, [.value 1, .const (.fp .float 0x40400000)], false⟩,
    ⟨4, .float, .FPExt, [.value 2], false⟩,
    ⟨5, .float, .Other, [.value 3, .value 4], false⟩,
    ⟨6, .other, .Other, [.value 5], false⟩], 7⟩

end IGC

/-! ## Theorems -/

namespace Legalization

/-- C1: for all unsigned 32-bit `a`, `b` and every list of users of the call, the
`uadd_with_overflow` rewrite replaces each consumer of result 0 by
`(a + b) mod 2^32` and each consumer of result 1 by the truth value of
`a + b ≥ 2^32`. -/
theorem visitIntrinsicInst_uadd_spec (a b : Nat) (users : List UAddUser)
    (ha : a < 2 ^ 32) (hb : b < 2 ^ 32) :
    visitIntrinsicInst_uadd 32 a b users
      = users.map (fun U => match U with
          | .extractValue 0 => some (.res ((a + b) % 2 ^ 32))
          | .extractValue 1 => some (.isOverflow (decide (2 ^ 32 ≤ a + b)))
          | _ => none) := by
  have hiff : ((a + b) % 2 ^ 32 < a) ↔ (2 ^ 32 ≤ a + b) := by
    constructor
    · intro h
      by_contra hlt
      rw [Nat.mod_eq_of_lt (by omega)] at h
      omega
    · intro h
      omega
  simp only [visitIntrinsicInst_uadd, createAdd, createICmpULT, hiff]
  apply List.map_congr_left
  intro U _
  cases U with
  | notExtract => rfl
  | extractValue k =>
    match k with
    | 0 => rfl
    | 1 => rfl
    | _ + 2 => rfl

/-- C1 at `a = 0xFFFFFFFF`, `b = 1`: value `0`, overflow `true`. -/
theorem visitIntrinsicInst_uadd_spec_witness :
    visitIntrinsicInst_uadd 32 0xFFFFFFFF 1 [.extractValue 0, .extractValue 1]
      = [some (.res 0), some (.isOverflow true)] :=
  (visitIntrinsicInst_uadd_spec 0xFFFFFFFF 1 [.extractValue 0, .extractValue 1]
    (by decide) (by decide)).trans (by decide)

end Legalization

namespace Legalization

/-! ### `unifyReturnInsts` -/

theorem countP_isReturnInst_of_all_not_terminator (l : List Inst)
    (h : l.all (fun i => !i.isTerminator) = true) : l.countP Inst.isReturnInst = 0 := by
  rw [List.countP_eq_zero]
  intro i hi hret
  have := List.all_eq_true.mp h i hi
  cases i <;> simp_all [Inst.isReturnInst, Inst.isTerminator]

/-- A well-formed block holds one return if it ends in one, and none otherwise. -/
theorem BasicBlock.numReturns_of_wellFormed (bb : BasicBlock) (h : bb.wellFormed = true) :
    bb.numReturns = if bb.isReturning then 1 else 0 := by
  obtain ⟨insts⟩ := bb
  simp only [BasicBlock.wellFormed, Bool.and_eq_true] at h
  obtain ⟨hlast, hinit⟩ := h
  rcases List.eq_nil_or_concat insts with hnil | ⟨init, last, rfl⟩
  · subst hnil; simp at hlast
  · have hl : (init ++ [last]).getLast? = some last := by simp
    simp only [List.concat_eq_append, hl, List.dropLast_concat] at hlast hinit
    simp only [BasicBlock.numReturns, BasicBlock.isReturning, BasicBlock.getTerminator,
      List.concat_eq_append, hl, hlast, if_true,
      List.countP_append, countP_isReturnInst_of_all_not_terminator init hinit, zero_add]
    cases hr : last.isReturnInst <;> simp [List.countP_cons, hr]

/-- A well-formed block whose terminator is replaced by a branch holds no return. -/
theorem numReturns_replaced (bb : BasicBlock) (h : bb.wellFormed = true) (n : Nat) :
    BasicBlock.numReturns ⟨bb.insts.dropLast ++ [.br n]⟩ = 0 := by
  simp only [BasicBlock.wellFormed, Bool.and_eq_true] at h
  simp [BasicBlock.numReturns, List.countP_append,
    countP_isReturnInst_of_all_not_terminator _ h.2, Inst.isReturnInst]

/-- Replacing one block changes the number of returns by the difference of the two blocks. -/
theorem numReturnsIn_set (blocks : List BasicBlock) (i : Nat) (bb b' : BasicBlock)
    (h : blocks[i]? = some bb) :
    numReturnsIn (blocks.set i b') + bb.numReturns = numReturnsIn blocks + b'.numReturns := by
  induction blocks generalizing i with
  | nil => simp at h
  | cons x xs ih =>
    cases i with
    | zero =>
      simp only [List.getElem?_cons_zero, Option.some.injEq] at h
      subst h
      simp only [numReturnsIn, List.set_cons_zero, List.map_cons, List.sum_cons]
      omega
    | succ j =>
      simp only [List.getElem?_cons_succ] at h
      have := ih j h
      simp only [numReturnsIn, List.set_cons_succ, List.map_cons, List.sum_cons] at this ⊢
      omega

/-- The second loop of `unifyReturnInsts` removes one return per returning block it visits. -/
theorem foldl_replaceReturn_numReturns (n : Nat) (hasPN : Bool) (is : List Nat) :
    ∀ (blocks : List BasicBlock) (inc : List (Option Value × Nat)),
      (∀ i ∈ is, ∃ bb, blocks[i]? = some bb ∧ bb.wellFormed = true ∧ bb.isReturning = true) →
      is.Nodup →
      numReturnsIn (is.foldl (replaceReturn n hasPN) (blocks, inc)).1 + is.length
        = numReturnsIn blocks := by
  induction is with
  | nil => intro blocks inc _ _; simp
  | cons i rest ih =>
    intro blocks inc hall hnd
    obtain ⟨bb, hget, hwf, hret⟩ := hall i (List.mem_cons_self _ _)
    rw [List.nodup_cons] at hnd
    have hstep : replaceReturn n hasPN (blocks, inc) i
        = (blocks.set i ⟨bb.insts.dropLast ++ [.br n]⟩,
            if hasPN then inc ++ [(bb.returnOperand, i)] else inc) := by
      simp [replaceReturn, hget]
    rw [List.foldl_cons, hstep]
    have hrest : ∀ j ∈ rest, ∃ b, (blocks.set i ⟨bb.insts.dropLast ++ [.br n]⟩)[j]? = some b
        ∧ b.wellFormed = true ∧ b.isReturning = true := by
      intro j hj
      obtain ⟨b, hb, hb1, hb2⟩ := hall j (List.mem_cons_of_mem _ hj)
      have hne : i ≠ j := fun h => hnd.1 (h ▸ hj)
      refine ⟨b, ?_, hb1, hb2⟩
      simpa [List.getElem?_set_ne hne] using hb
    have h1 := ih _ (if hasPN then inc ++ [(bb.returnOperand, i)] else inc) hrest hnd.2
    have h2 := numReturnsIn_set blocks i bb ⟨bb.insts.dropLast ++ [.br n]⟩ hget
    rw [numReturns_replaced bb hwf n, BasicBlock.numReturns_of_wellFormed bb hwf, hret] at h2
    simp only [if_true] at h2
    simp only [List.length_cons]
    omega

/-- The collected block numbers name returning blocks, each once. -/
theorem returningBlocksFrom_spec (blocks : List BasicBlock) :
    ∀ k, (∀ i ∈ returningBlocksFrom k blocks,
        k ≤ i ∧ ∃ bb, blocks[i - k]? = some bb ∧ bb.isReturning = true)
      ∧ (returningBlocksFrom k blocks).Nodup := by
  induction blocks with
  | nil => intro k; simp [returningBlocksFrom]
  | cons b bs ih =>
    intro k
    obtain ⟨h1, h2⟩ := ih (k + 1)
    have hshift : ∀ i ∈ returningBlocksFrom (k + 1) bs,
        k ≤ i ∧ ∃ bb, (b :: bs)[i - k]? = some bb ∧ bb.isReturning = true := by
      intro i hi
      obtain ⟨hle, bb, hb, hr⟩ := h1 i hi
      refine ⟨by omega, bb, ?_, hr⟩
      have : i - k = (i - (k + 1)) + 1 := by omega
      rw [this, List.getElem?_cons_succ]
      exact hb
    unfold returningBlocksFrom
    by_cases hb : b.isReturning = true
    · simp only [hb, if_true, List.mem_cons, List.nodup_cons]
      refine ⟨?_, ?_, h2⟩
      · rintro i (rfl | hi)
        · exact ⟨le_refl _, b, by simp, hb⟩
        · exact hshift i hi
      · intro hk
        have := (h1 k hk).1
        omega
    · simp only [hb, Bool.false_eq_true, if_false]
      exact ⟨hshift, h2⟩

/-- In a well-formed function there are as many returning blocks as returns. -/
theorem length_returningBlocksFrom (blocks : List BasicBlock)
    (hwf : blocks.all BasicBlock.wellFormed = true) :
    ∀ k, (returningBlocksFrom k blocks).length = numReturnsIn blocks := by
  induction blocks with
  | nil => intro k; simp [returningBlocksFrom, numReturnsIn]
  | cons b bs ih =>
    intro k
    simp only [List.all_cons, Bool.and_eq_true] at hwf
    have hb := BasicBlock.numReturns_of_wellFormed b hwf.1
    have := ih hwf.2 (k + 1)
    unfold returningBlocksFrom
    simp only [numReturnsIn, List.map_cons, List.sum_cons] at this ⊢
    by_cases hr : b.isReturning = true
    · simp only [hr, if_true] at hb ⊢
      simp only [List.length_cons]; omega
    · simp only [hr, Bool.false_eq_true, if_false] at hb ⊢
      omega

/-- Returns of two block lists add up. -/
theorem numReturnsIn_append (xs ys : List BasicBlock) :
    numReturnsIn (xs ++ ys) = numReturnsIn xs + numReturnsIn ys := by
  simp [numReturnsIn]

/-- C2 (amended): after `unifyReturnInsts` a well-formed function has exactly one
return instruction if it had at least one before, and none if it had none. -/
theorem unifyReturnInsts_numReturns (F : Function) (hwf : F.wellFormed = true) :
    (unifyReturnInsts F).numReturns = if F.numReturns = 0 then 0 else 1 := by
  have hlen := length_returningBlocksFrom F.blocks hwf 0
  obtain ⟨hspec, hnd⟩ := returningBlocksFrom_spec F.blocks 0
  unfold unifyReturnInsts
  simp only
  by_cases hle : (returningBlocksFrom 0 F.blocks).length ≤ 1
  · rw [if_pos hle]
    simp only [Function.numReturns]
    rw [hlen] at hle
    split <;> omega
  · rw [if_neg hle]
    have hall : ∀ i ∈ returningBlocksFrom 0 F.blocks,
        ∃ bb, F.blocks[i]? = some bb ∧ bb.wellFormed = true ∧ bb.isReturning = true := by
      intro i hi
      obtain ⟨_, bb, hb, hr⟩ := hspec i hi
      simp only [Nat.sub_zero] at hb
      refine ⟨bb, hb, ?_, hr⟩
      exact List.all_eq_true.mp hwf bb (List.getElem?_mem hb)
    have hfold := foldl_replaceReturn_numReturns F.blocks.length (!F.returnsVoid)
      (returningBlocksFrom 0 F.blocks) F.blocks [] hall hnd
    simp only [Function.numReturns, numReturnsIn_append]
    have hnew : ∀ inc : List (Option Value × Nat),
        numReturnsIn [if F.returnsVoid = true then (⟨[.ret none]⟩ : BasicBlock)
          else ⟨[.phi inc, .ret (some (.inst F.blocks.length 0))]⟩] = 1 := by
      intro inc
      cases F.returnsVoid <;>
        simp [numReturnsIn, BasicBlock.numReturns, Inst.isReturnInst, List.countP_cons]
    rw [hnew]
    rw [hlen] at hle hfold
    have : F.numReturns ≠ 0 := by simp only [Function.numReturns]; omega
    simp only [Function.numReturns] at this
    rw [if_neg this]
    omega

/-- C2 (amended) on a function with two returning blocks. -/
theorem unifyReturnInsts_numReturns_witness :
    (unifyReturnInsts ⟨false, [⟨[.other [], .condBr (.ext 0) 1 2]⟩, ⟨[.ret (some (.ext 1))]⟩,
        ⟨[.other [], .ret (some (.inst 2 0))]⟩]⟩).numReturns
      = if (Function.numReturns ⟨false, [⟨[.other [], .condBr (.ext 0) 1 2]⟩,
          ⟨[.ret (some (.ext 1))]⟩, ⟨[.other [], .ret (some (.inst 2 0))]⟩]⟩) = 0 then 0 else 1 :=
  unifyReturnInsts_numReturns _ (by decide)

/-- C2 as stated fails on a function whose only block ends in `unreachable`: it
is well formed, `unifyReturnInsts` leaves it unchanged, and it has no return
instruction afterwards. -/
theorem unifyReturnInsts_no_return_counterexample :
    Function.wellFormed ⟨true, [⟨[.terminator [] []]⟩]⟩ = true
      ∧ unifyReturnInsts ⟨true, [⟨[.terminator [] []]⟩]⟩ = ⟨true, [⟨[.terminator [] []]⟩]⟩
      ∧ (unifyReturnInsts ⟨true, [⟨[.terminator [] []]⟩]⟩).numReturns ≠ 1 := by
  decide

end Legalization

namespace Legalization

/-! ### `visitShuffleVectorInst` -/

/-- C3 fails on a constant first input: for `shufflevector <10, 20, 30, 40>, %v,
<2, 0, undef, 5>` the rule reads the constant at the destination lane, not at
the selected source lane.  With `%v = <50, 60, 70, 80>` the result is
`<10, 20, undef, 60>`: lane 0 is `10` where lane 2 of the concatenation is `30`,
and lane 1 is `20` where lane 0 of the concatenation is `10`; lanes 2 and 3 are
as claimed. -/
theorem visitShuffleVectorInst_constant_source :
    visitShuffleVectorInst (.constVec [some 10, some 20, some 30, some 40]) (.leaf 1) 4
        [some 2, some 0, none, some 5]
      = some (.insertElement (.insertElement (.insertElement
          (.constVec [none, none, none, none]) (.constInt 10) (.constInt 0))
          (.constInt 20) (.constInt 1))
          (.extractElement (.leaf 1) (.constInt 1)) (.constInt 3))
    ∧ (visitShuffleVectorInst (.constVec [some 10, some 20, some 30, some 40]) (.leaf 1) 4
        [some 2, some 0, none, some 5]).map
          (VecValue.eval (fun _ => .vector [some 50, some 60, some 70, some 80]))
      = some (.vector [some 10, some 20, none, some 60])
    ∧ concatLane (fun _ => .vector [some 50, some 60, some 70, some 80])
        (.constVec [some 10, some 20, some 30, some 40]) (.leaf 1) 2 = some 30
    ∧ concatLane (fun _ => .vector [some 50, some 60, some 70, some 80])
        (.constVec [some 10, some 20, some 30, some 40]) (.leaf 1) 0 = some 10
    ∧ concatLane (fun _ => .vector [some 50, some 60, some 70, some 80])
        (.constVec [some 10, some 20, some 30, some 40]) (.leaf 1) 5 = some 60 := by
  decide

end Legalization

namespace Legalization

/-! ### `visitBinaryOperator`: `frem` -/

/-- C4: in exact arithmetic, for every `a` and every `b ≠ 0` the `frem` rewrite
equals the remainder of `a` by `b` that carries the sign of the dividend,
`a - b * trunc (a / b)`. -/
theorem visitBinaryOperator_FRem_eq_fremExact (a b : ℚ) (hb : b ≠ 0) :
    visitBinaryOperator_FRem a b = fremExact a b := by
  have hbb : 0 < b * b := mul_self_pos.mpr hb
  have hquot : a * b = (a / b) * (b * b) := by field_simp; ring
  unfold visitBinaryOperator_FRem fremExact truncToZero
  simp only
  by_cases hab : -(a * b) ≤ a * b
  · have hab0 : 0 ≤ a * b := by linarith
    have hdiv : 0 ≤ a / b := by
      by_contra hneg
      have hlt : a / b < 0 := not_le.mp hneg
      have : (a / b) * (b * b) < 0 := mul_neg_of_neg_of_pos hlt hbb
      linarith
    simp only [hab, decide_True, if_true, hdiv]
    have h1 : a * (1 / b) = a / b := by ring
    rw [h1, sub_mul, div_mul_cancel₀ a hb]
    ring
  · have hab0 : a * b < 0 := by
      rcases lt_or_le (a * b) 0 with h | h
      · exact h
      · exact absurd (by linarith) hab
    have hdiv : ¬ (0 ≤ a / b) := by
      intro h
      have := mul_nonneg h hbb.le
      linarith
    simp only [hab, decide_False, Bool.false_eq_true, if_false, hdiv]
    have h1 : a * (1 / -b) = -(a / b) := by
      rw [one_div, inv_neg, mul_neg, div_eq_mul_inv]
    rw [h1, Int.floor_neg]
    push_cast
    have h2 : (-(a / b) - -((⌈a / b⌉ : ℤ) : ℚ)) * -b = (a / b) * b - b * ((⌈a / b⌉ : ℤ) : ℚ) := by
      ring
    rw [h2, div_mul_cancel₀ a hb]

/-- C4 at `(5.5, 2.0)`. -/
theorem visitBinaryOperator_FRem_eq_fremExact_witness :
    visitBinaryOperator_FRem (11 / 2) 2 = fremExact (11 / 2) 2 :=
  visitBinaryOperator_FRem_eq_fremExact (11 / 2) 2 (by norm_num)

/-- The two sample points of the remainder property: `(5.5, 2.0)` gives `1.5` and
`(-5.5, 2.0)` gives `-1.5`. -/
theorem visitBinaryOperator_FRem_examples :
    visitBinaryOperator_FRem (11 / 2) 2 = 3 / 2
      ∧ visitBinaryOperator_FRem (-11 / 2) 2 = -3 / 2 := by
  have hfloor : ⌊((11 : ℚ) / 4)⌋ = 2 := by
    rw [Int.floor_eq_iff]; norm_num
  have e1 : (11 / 2 : ℚ) * (1 / 2) = 11 / 4 := by norm_num
  have e2 : (-11 / 2 : ℚ) * (1 / -2) = 11 / 4 := by norm_num
  constructor
  · unfold visitBinaryOperator_FRem
    have hs : decide (-((11 / 2 : ℚ) * 2) ≤ 11 / 2 * 2) = true := by
      rw [decide_eq_true_iff]; norm_num
    simp only [hs, if_true, e1, hfloor]
    norm_num
  · unfold visitBinaryOperator_FRem
    have hs : decide (-((-11 / 2 : ℚ) * 2) ≤ -11 / 2 * 2) = false := by
      rw [decide_eq_false_iff_not]; norm_num
    simp only [hs, Bool.false_eq_true, if_false, e2, hfloor]
    norm_num

end Legalization

/-! ### The FDIV expansion -/

theorem and_exponentMask (u : Nat) : u &&& 0x7f800000 = biasedExponent u * 2 ^ 23 := by
  have hmask : (0x7f800000 : Nat) = 0xFF <<< 23 := by decide
  rw [biasedExponent, ← Nat.shiftLeft_eq, hmask]
  apply Nat.eq_of_testBit_eq
  intro i
  simp only [Nat.testBit_and, Nat.testBit_shiftLeft, Nat.testBit_shiftRight]
  by_cases hi : 23 ≤ i
  · have : 23 + (i - 23) = i := by omega
    simp [hi, this]
  · simp [hi]

/-- C5: `needsNoScaling` is true exactly for a single-precision constant whose
biased exponent `e = (u >> 23) & 0xFF` satisfies `0 < e < 200`; it is false for
every value that is not a single-precision constant. -/
theorem needsNoScaling_iff (v : FValue) :
    needsNoScaling v = true ↔
      ∃ u, v = .constFP .float u ∧ 0 < biasedExponent u ∧ biasedExponent u < 200 := by
  cases v with
  | nonConst id => simp [needsNoScaling]
  | constFP ty bits =>
    cases ty <;> simp only [needsNoScaling, Bool.false_eq_true, false_iff, not_exists, not_and,
      FValue.constFP.injEq, reduceCtorEq, false_and, not_false_eq_true, implies_true,
      IsEmpty.forall_iff]
    rw [and_exponentMask]
    simp only [Bool.and_eq_true, decide_eq_true_eq, true_and, exists_eq_left']
    have h200 : 200 <<< 23 = 200 * 2 ^ 23 := by decide
    rw [h200]
    constructor
    · rintro ⟨h1, h2⟩
      exact ⟨by omega, by omega⟩
    · rintro ⟨h1, h2⟩
      exact ⟨by omega, by omega⟩

/-- The boundaries of C5: exponent `0` (`+0.0` and a denormal), exponent `200`, and
the exponents `1` and `199` next to them; a half-precision constant and a
non-constant value. -/
theorem needsNoScaling_boundaries :
    needsNoScaling (.constFP .float 0) = false
      ∧ needsNoScaling (.constFP .float 0x007FFFFF) = false
      ∧ needsNoScaling (.constFP .float (200 <<< 23)) = false
      ∧ needsNoScaling (.constFP .float (1 <<< 23)) = true
      ∧ needsNoScaling (.constFP .float (199 <<< 23 + 0x007FFFFF)) = true
      ∧ needsNoScaling (.constFP .half 0x3C00) = false
      ∧ needsNoScaling (.nonConst 0) = false := by
  decide

namespace IGC

/-- C6: in the scaled case of `expandFDIVInstructions` the scale factor is `2^32`
when the biased exponent of the divisor is `0`, `2^-32` when it is at least
`200`, and `1` otherwise; the two tests never hold together, and taking the two
selects in the other order gives the same factor. -/
theorem expandFDIV_Scale_spec (u : Nat) :
    expandFDIV_Scale u
        = (if biasedExponent u = 0 then (2 : ℚ) ^ 32
           else if 200 ≤ biasedExponent u then 1 / (2 : ℚ) ^ 32 else 1)
      ∧ ¬ ((u &&& 0x7f800000) = 0 ∧ 200 <<< 23 ≤ (u &&& 0x7f800000))
      ∧ expandFDIV_Scale_swapped u = expandFDIV_Scale u := by
  have h200 : 200 <<< 23 = 200 * 2 ^ 23 := by decide
  have hz : (biasedExponent u * 2 ^ 23 = 0) ↔ biasedExponent u = 0 := by omega
  have hge : (200 * 2 ^ 23 ≤ biasedExponent u * 2 ^ 23) ↔ 200 ≤ biasedExponent u := by omega
  simp only [expandFDIV_Scale, expandFDIV_Scale_swapped, and_exponentMask, h200, hz, hge]
  refine ⟨?_, by omega, ?_⟩
  · by_cases h0 : biasedExponent u = 0
    · have : ¬ (200 ≤ biasedExponent u) := by omega
      simp [h0]
    · by_cases h2 : 200 ≤ biasedExponent u <;> simp [h0, h2]
  · by_cases h0 : biasedExponent u = 0
    · simp [h0]
    · by_cases h2 : 200 ≤ biasedExponent u <;> simp [h0, h2]

end IGC

/-- C7 as stated fails both ways: `fdiv float %x, 1.0` has the exact constant `1.0`
as divisor and is selected, and `fdiv float 1.0, %y` has a divisor that is not
`1.0` and is not selected. -/
theorem isCandidateFDiv_divisor_counterexample :
    isCandidateFDiv ⟨1, .float, .FDiv, [.nonConst 0, .constFP .float 0x3F800000]⟩ = true
      ∧ FValue.isExactlyOne (.constFP .float 0x3F800000) = true
      ∧ isCandidateFDiv ⟨1, .float, .FDiv, [.constFP .float 0x3F800000, .nonConst 0]⟩ = false
      ∧ FValue.isExactlyOne (.nonConst 0) = false := by
  decide

/-- C7 (amended): a half- or single-precision division with at least one use is
selected by `isCandidateFDiv` if and only if its dividend (first operand) is not
the exact constant `1.0`; the divisor plays no part. -/
theorem isCandidateFDiv_iff_dividend (n : Nat) (ty : Ty) (x y : FValue)
    (huse : 0 < n) (hty : ty = .half ∨ ty = .float) :
    isCandidateFDiv ⟨n, ty, .FDiv, [x, y]⟩ = true ↔ x.isExactlyOne = false := by
  have hn : n ≠ 0 := by omega
  rcases hty with rfl | rfl <;> cases x <;>
    simp [isCandidateFDiv, hn, FValue.isExactlyOne]

/-- C7 (amended) at `fdiv float %x, 1.0` with one use. -/
theorem isCandidateFDiv_iff_dividend_witness :
    isCandidateFDiv ⟨1, .float, .FDiv, [.nonConst 0, .constFP .float 0x3F800000]⟩ = true
      ↔ FValue.isExactlyOne (.nonConst 0) = false :=
  isCandidateFDiv_iff_dividend 1 .float (.nonConst 0) (.constFP .float 0x3F800000)
    (by decide) (Or.inr rfl)

namespace Legalization

/-! ### `visitBinaryOperator`: the De Morgan rewrite -/

theorem consumersFrom_append (cond : Operand) (xs ys : List Consumer) :
    ∀ k, consumersFrom cond k (xs ++ ys)
      = consumersFrom cond k xs ++ consumersFrom cond (k + xs.length) ys := by
  induction xs with
  | nil => intro k; simp [consumersFrom]
  | cons x xs ih =>
    intro k
    have hk : k + 1 + xs.length = k + (xs.length + 1) := by omega
    show consumersFrom cond k (x :: (xs ++ ys)) = _
    rw [consumersFrom, ih (k + 1), hk]
    simp only [consumersFrom, List.cons_append, List.length_cons]

/-- The consumers numbered from `k` on have the ids `k`, ..., `k + length - 1`. -/
theorem consumersFrom_id_range (cond : Operand) (cs : List Consumer) :
    ∀ k, ∀ p ∈ consumersFrom cond k cs, k ≤ p.1 ∧ p.1 < k + cs.length := by
  induction cs with
  | nil => intro k p hp; simp [consumersFrom] at hp
  | cons c cs ih =>
    intro k p hp
    simp only [consumersFrom, List.mem_cons] at hp
    rcases hp with rfl | hp
    · simp
    · have := ih (k + 1) p hp
      simp only [List.length_cons]
      omega

/-- A consumer uses no instruction but its condition. -/
theorem toInstr_not_mem_operands (cond : Operand) (j : Nat) (c : Consumer)
    (hv : Operand.inst j ≠ cond) : Operand.inst j ∉ (c.toInstr cond).operands := by
  cases c with
  | select x y =>
    simp only [Consumer.toInstr, Instr.operands, List.mem_cons, List.mem_singleton,
      List.not_mem_nil, or_false, reduceCtorEq, not_or, not_false_eq_true, and_true]
    exact hv
  | condBr t f =>
    simp only [Consumer.toInstr, Instr.operands, List.mem_singleton]
    exact hv

/-- Consumers conditioned on one value use no other instruction. -/
theorem consumersFrom_not_user (cond : Operand) (j : Nat) (hv : Operand.inst j ≠ cond)
    (cs : List Consumer) :
    ∀ k, ∀ p ∈ consumersFrom cond k cs, Operand.inst j ∉ p.2.operands := by
  induction cs with
  | nil => intro k p hp; simp [consumersFrom] at hp
  | cons c cs ih =>
    intro k p hp
    simp only [consumersFrom, List.mem_cons] at hp
    rcases hp with rfl | hp
    · exact toInstr_not_mem_operands cond j c hv
    · exact ih (k + 1) p hp

/-- Every consumer of `I` passes the test of the first loop. -/
theorem consumersFrom_flippable (I : Nat) (cs : List Consumer) :
    ∀ k, ∀ p ∈ consumersFrom (.inst I) k cs, flippableUser I p.2 = true := by
  induction cs with
  | nil => intro k p hp; simp [consumersFrom] at hp
  | cons c cs ih =>
    intro k p hp
    simp only [consumersFrom, List.mem_cons] at hp
    rcases hp with rfl | hp
    · cases c <;> simp [Consumer.toInstr, flippableUser]
    · exact ih (k + 1) p hp

/-- Consumers conditioned on one value hold no use of another instruction. -/
theorem numUses_consumersFrom (cond : Operand) (j : Nat) (hv : Operand.inst j ≠ cond)
    (cs : List Consumer) (k : Nat) :
    Body.numUses (consumersFrom cond k cs) (.inst j) = 0 := by
  unfold Body.numUses
  rw [List.sum_eq_zero]
  intro x hx
  simp only [List.mem_map] at hx
  obtain ⟨p, hp, rfl⟩ := hx
  exact List.count_eq_zero.mpr (consumersFrom_not_user cond j hv cs k p hp)

/-- The largest id of a run of consumers that continues the ids before it. -/
theorem freshId_consumersFrom (cond : Operand) (cs : List Consumer) :
    ∀ k m, m + 1 = k →
      ((consumersFrom cond k cs).map (fun p => p.1)).foldl max m = m + cs.length := by
  induction cs with
  | nil => intro k m _; simp [consumersFrom]
  | cons c cs ih =>
    intro k m hk
    simp only [consumersFrom, List.map_cons, List.foldl_cons, List.length_cons]
    have : max m k = k := by omega
    rw [this, ih (k + 1) k rfl]
    omega

/-- Consumers conditioned on one value are not users of another instruction. -/
theorem users_consumersFrom_other (cond : Operand) (j : Nat) (hv : Operand.inst j ≠ cond)
    (cs : List Consumer) (k : Nat) :
    Body.users (consumersFrom cond k cs) j = [] := by
  unfold Body.users
  rw [List.filter_eq_nil_iff]
  intro p hp
  have := consumersFrom_not_user cond j hv cs k p hp
  simpa [List.contains_iff_exists_mem_beq] using this


/-- A one-bit value is `0` or `1`. -/
theorem oneBit_cases (n : Nat) (h : n < 2) : n = 0 ∨ n = 1 := by omega

/-- Flipping the instruction with id `k` changes nothing in a list that does not hold it. -/
theorem map_flip_of_ne (inv : Operand) (k : Nat) (l : Body) (h : ∀ p ∈ l, p.1 ≠ k) :
    l.map (fun p => if p.1 = k then (p.1, flipUser inv p.2) else p) = l := by
  induction l with
  | nil => rfl
  | cons x xs ih =>
    have hx : x.1 ≠ k := h x (List.mem_cons_self _ _)
    simp only [List.map_cons, if_neg hx]
    rw [ih (fun p hp => h p (List.mem_cons_of_mem _ hp))]

/-- A list none of whose instructions holds `I` has no user of `I`. -/
theorem users_of_no_use (I : Nat) (l : Body) (h : ∀ p ∈ l, Operand.inst I ∉ p.2.operands) :
    Body.users l I = [] := by
  unfold Body.users
  rw [List.filter_eq_nil_iff]
  intro p hp
  simpa [List.contains_iff_exists_mem_beq] using h p hp

/-- Users of `I` in two lists, one after the other. -/
theorem users_append (I : Nat) (l₁ l₂ : Body) :
    Body.users (l₁ ++ l₂) I = Body.users l₁ I ++ Body.users l₂ I := by
  simp [Body.users, List.filter_append]

/-- Flipping a consumer instruction gives the flipped consumer on the new condition. -/
theorem flipUser_toInstr (inv cond : Operand) (c : Consumer) :
    flipUser inv (c.toInstr cond) = c.flipped.toInstr inv := by
  cases c <;> rfl

/-- The first consumer of `I` is its first user. -/
theorem users_consumersFrom_cons (I k : Nat) (c : Consumer) (cs : List Consumer) :
    Body.users (consumersFrom (.inst I) k (c :: cs)) I
      = (k, c.toInstr (.inst I)) :: Body.users (consumersFrom (.inst I) (k + 1) cs) I := by
  have hmem : (c.toInstr (.inst I)).operands.contains (.inst I) = true := by
    cases c <;> simp [Consumer.toInstr, Instr.operands]
  simp only [Body.users, consumersFrom, List.filter_cons, hmem, if_true]

/-- The `while` loop ends after one round per consumer still conditioned on `I`, with all of them flipped. -/
theorem flipLoop_consumers (I n : Nat) (hn : n ≠ I) (pre : Body)
    (hpre : ∀ p ∈ pre, Operand.inst I ∉ p.2.operands) (s : Nat) (todo : List Consumer) :
    ∀ done : List Consumer,
      (∀ p ∈ pre, p.1 < s ∨ s + done.length + todo.length ≤ p.1) →
      flipLoop I (.inst n) (todo.length + 1)
          (pre ++ (consumersFrom (.inst n) s done
            ++ consumersFrom (.inst I) (s + done.length) todo))
        = some (pre ++ consumersFrom (.inst n) s (done ++ todo.map Consumer.flipped)) := by
  have hne : Operand.inst I ≠ Operand.inst n := fun h => hn (Operand.inst.inj h).symm
  induction todo with
  | nil =>
    intro done _
    have hu : Body.users (pre ++ (consumersFrom (.inst n) s done
        ++ consumersFrom (.inst I) (s + done.length) [])) I = [] := by
      rw [users_append, users_append, users_of_no_use I pre hpre,
        users_consumersFrom_other (.inst n) I hne done s]
      simp [consumersFrom, Body.users]
    simp only [List.length_nil, Nat.zero_add, flipLoop, hu]
    simp [consumersFrom]
  | cons c cs ih =>
    intro done hids
    have hu : Body.users (pre ++ (consumersFrom (.inst n) s done
        ++ consumersFrom (.inst I) (s + done.length) (c :: cs))) I
        = (s + done.length, c.toInstr (.inst I))
            :: Body.users (consumersFrom (.inst I) (s + done.length + 1) cs) I := by
      rw [users_append, users_append, users_of_no_use I pre hpre,
        users_consumersFrom_other (.inst n) I hne done s, users_consumersFrom_cons]
      rfl
    have hmap : (pre ++ (consumersFrom (.inst n) s done
        ++ consumersFrom (.inst I) (s + done.length) (c :: cs))).map
          (fun p => if p.1 = s + done.length then (p.1, flipUser (.inst n) p.2) else p)
        = pre ++ (consumersFrom (.inst n) s (done ++ [c.flipped])
            ++ consumersFrom (.inst I) (s + (done ++ [c.flipped]).length) cs) := by
      rw [List.map_append, List.map_append]
      rw [map_flip_of_ne _ _ pre (fun p hp => by
        have := hids p hp
        simp only [List.length_cons] at this
        omega)]
      rw [map_flip_of_ne _ _ (consumersFrom (.inst n) s done) (fun p hp => by
        have := consumersFrom_id_range (.inst n) done s p hp
        omega)]
      rw [consumersFrom_append]
      simp only [consumersFrom, List.map_cons, if_true, flipUser_toInstr, List.length_append,
        List.length_singleton, List.append_assoc, List.singleton_append, List.nil_append]
      rw [map_flip_of_ne _ _ (consumersFrom (.inst I) (s + done.length + 1) cs) (fun p hp => by
        have := consumersFrom_id_range (.inst I) cs (s + done.length + 1) p hp
        omega)]
      rfl
    have hfuel : (c :: cs).length + 1 = (cs.length + 1) + 1 := rfl
    rw [hfuel, flipLoop, hu]
    simp only
    rw [hmap, ih (done ++ [c.flipped]) (fun p hp => by
      have := hids p hp
      simp only [List.length_cons, List.length_append, List.length_singleton, List.length_nil] at this ⊢
      omega)]
    simp [List.append_assoc]

/-- Erasing an id below the consumers leaves them as they are. -/
theorem erase_consumersFrom (cond : Operand) (j k : Nat) (cs : List Consumer) (hjk : j < k) :
    Body.erase (consumersFrom cond k cs) j = consumersFrom cond k cs := by
  unfold Body.erase
  rw [List.filter_eq_self]
  intro p hp
  have := consumersFrom_id_range cond cs k p hp
  simp only [bne_iff_ne, ne_eq]
  omega

/-- Erasing an id keeps a first instruction with another id. -/
theorem erase_cons_ne (j : Nat) (p : Nat × Instr) (l : Body) (h : p.1 ≠ j) :
    Body.erase (p :: l) j = p :: Body.erase l j := by
  simp [Body.erase, List.filter_cons, h]

/-- Erasing an id drops a first instruction with that id. -/
theorem erase_cons_eq (j : Nat) (i : Instr) (l : Body) :
    Body.erase ((j, i) :: l) j = Body.erase l j := by
  simp [Body.erase, List.filter_cons]

/-- On the shape of the rule the `And` / `Or` case comes to an end and leaves `deMorganResult`. -/
theorem visitBinaryOperator_AndOr_deMorganBody (op : BinOp) (hop : op = .And ∨ op = .Or)
    (a b : Nat) (cs : List Consumer) :
    visitBinaryOperator_AndOr (cs.length + 1) (deMorganBody op a b cs) 2
      = some (deMorganResult op a b cs) := by
  have hlook : (deMorganBody op a b cs).lookup 2 = some (.binary op (.inst 0) (.inst 1)) := by
    simp [Body.lookup, deMorganBody, List.find?]
  have hnot0 : (deMorganBody op a b cs).isNot (.inst 0) = true := by
    simp [Body.isNot, Body.lookup, deMorganBody, List.find?]
  have hnot1 : (deMorganBody op a b cs).isNot (.inst 1) = true := by
    simp [Body.isNot, Body.lookup, deMorganBody, List.find?]
  have huse0 : (deMorganBody op a b cs).hasOneUse (.inst 0) = true := by
    have h := numUses_consumersFrom (.inst 2) 0 (by simp) cs 3
    unfold Body.numUses at h
    simp only [Body.hasOneUse, Body.numUses, deMorganBody, List.map_cons, List.sum_cons, h]
    simp [Instr.operands]
  have huse1 : (deMorganBody op a b cs).hasOneUse (.inst 1) = true := by
    have h := numUses_consumersFrom (.inst 2) 1 (by simp) cs 3
    unfold Body.numUses at h
    simp only [Body.hasOneUse, Body.numUses, deMorganBody, List.map_cons, List.sum_cons, h]
    simp [Instr.operands]
  have hflip : ((deMorganBody op a b cs).users 2).all (fun U => flippableUser 2 U.2) = true := by
    rw [List.all_eq_true]
    intro p hp
    simp only [Body.users, List.mem_filter, deMorganBody, List.mem_cons] at hp
    obtain ⟨hmem, huse⟩ := hp
    rcases hmem with rfl | rfl | rfl | hmem
    · simp [Instr.operands] at huse
    · simp [Instr.operands] at huse
    · simp [Instr.operands] at huse
    · exact consumersFrom_flippable 2 cs 3 p hmem
  have hop0 : (deMorganBody op a b cs).getOperand0 (.inst 0) = some (.arg a) := by
    simp [Body.getOperand0, Body.lookup, deMorganBody, List.find?, Instr.operands]
  have hop1 : (deMorganBody op a b cs).getOperand0 (.inst 1) = some (.arg b) := by
    simp [Body.getOperand0, Body.lookup, deMorganBody, List.find?, Instr.operands]
  have hfresh : (deMorganBody op a b cs).freshId = 3 + cs.length := by
    have h := freshId_consumersFrom (.inst 2) cs 3 2 rfl
    simp only [Body.freshId, deMorganBody, List.map_cons, List.foldl_cons]
    have h2 : max (max (max 0 0) 1) 2 = 2 := by decide
    rw [h2, h]
    omega
  have hins : (deMorganBody op a b cs).insertBefore 2
        (3 + cs.length, .binary (dualOp op) (.arg a) (.arg b))
      = [(0, .binary .Xor (.arg a) .allOnes), (1, .binary .Xor (.arg b) .allOnes),
          (3 + cs.length, .binary (dualOp op) (.arg a) (.arg b)),
          (2, .binary op (.inst 0) (.inst 1))]
        ++ (consumersFrom (.inst (3 + cs.length)) 3 []
            ++ consumersFrom (.inst 2) (3 + ([] : List Consumer).length) cs) := by
    simp [Body.insertBefore, deMorganBody, consumersFrom]
  have hloop := flipLoop_consumers 2 (3 + cs.length) (by omega)
    [(0, .binary .Xor (.arg a) .allOnes), (1, .binary .Xor (.arg b) .allOnes),
      (3 + cs.length, .binary (dualOp op) (.arg a) (.arg b)),
      (2, .binary op (.inst 0) (.inst 1))]
    (by
      intro p hp
      simp only [List.mem_cons, List.mem_singleton, List.not_mem_nil, or_false] at hp
      rcases hp with rfl | rfl | rfl | rfl <;> simp [Instr.operands])
    3 cs []
    (by
      intro p hp
      simp only [List.mem_cons, List.mem_singleton, List.not_mem_nil, or_false] at hp
      rcases hp with rfl | rfl | rfl | rfl <;> simp)
  unfold visitBinaryOperator_AndOr
  simp only [hlook, if_pos hop, hnot0, hnot1, huse0, huse1, Bool.and_self, if_true, hflip,
    hop0, hop1, hfresh]
  have hdual : (if op = BinOp.And then BinOp.Or else BinOp.And) = dualOp op := rfl
  rw [hdual, hins, hloop]
  simp only [List.nil_append, deMorganResult]
  have hn0 : (3 + cs.length) ≠ 0 := by omega
  have hn1 : (3 + cs.length) ≠ 1 := by omega
  have hn2 : (3 + cs.length) ≠ 2 := by omega
  congr 1
  have hrest : ∀ j, j < 3 →
      (consumersFrom (.inst (3 + cs.length)) 3 (cs.map Consumer.flipped)).filter
          (fun p => p.1 != j)
        = consumersFrom (.inst (3 + cs.length)) 3 (cs.map Consumer.flipped) :=
    fun j hj => erase_consumersFrom _ j 3 _ hj
  simp [Body.erase, List.filter_cons, hn0, hn1, hn2, hrest]

/-- A consumer instruction yields what the consumer is expected to yield on the value of its condition. -/
theorem exec_toInstr (args env : Nat → Nat) (j : Nat) (c : Consumer) :
    (c.toInstr (.inst j)).exec args env = c.expected args (decide (env j = 1)) := by
  cases c <;> simp [Consumer.toInstr, Instr.exec, Consumer.expected, Operand.eval]

/-- A run of consumers conditioned on an instruction none of them redefines. -/
theorem run_consumersFrom (args : Nat → Nat) (j : Nat) (cs : List Consumer) :
    ∀ (s : Nat) (env : Nat → Nat), (∀ i, s ≤ i → i < s + cs.length → i ≠ j) →
      Body.run args (consumersFrom (.inst j) s cs) env
        = outcomesFrom args (decide (env j = 1)) s cs := by
  induction cs with
  | nil => intro s env _; rfl
  | cons c cs ih =>
    intro s env hj
    have hs : j ≠ s := fun h => hj s (le_refl _) (by simp) h.symm
    have hrest : ∀ i, s + 1 ≤ i → i < s + 1 + cs.length → i ≠ j := fun i h1 h2 =>
      hj i (by omega) (by simp only [List.length_cons]; omega)
    simp only [consumersFrom, Body.run, outcomesFrom, exec_toInstr]
    congr 1
    cases c with
    | select x y =>
      simp only [Consumer.expected]
      rw [ih (s + 1) _ hrest]
      simp [hs]
    | condBr t f =>
      simp only [Consumer.expected]
      rw [ih (s + 1) _ hrest]

/-- The outcome of consumer number `k`. -/
theorem find_outcomesFrom (args : Nat → Nat) (cond : Bool) (cs : List Consumer) :
    ∀ s k, ((outcomesFrom args cond s cs).find? (fun p => p.1 == s + k)).map (fun p => p.2)
      = (cs[k]?).map (Consumer.expected args cond) := by
  induction cs with
  | nil => intro s k; simp [outcomesFrom]
  | cons c cs ih =>
    intro s k
    cases k with
    | zero => simp [outcomesFrom, List.find?]
    | succ k =>
      have hne : (s == s + (k + 1)) = false := by simp
      have hk : s + (k + 1) = s + 1 + k := by omega
      simp only [outcomesFrom, List.find?, hne, List.getElem?_cons_succ]
      rw [hk]
      exact ih (s + 1) k

/-- A flipped consumer on the negated condition yields what the consumer yields. -/
theorem expected_flipped (args : Nat → Nat) (cond : Bool) (c : Consumer) :
    c.flipped.expected args (!cond) = c.expected args cond := by
  cases c <;> cases cond <;> simp [Consumer.flipped, Consumer.expected]

/-- The value of `op (not x) (not y)` on one-bit `x`, `y`. -/
theorem deMorganCond_original (op : BinOp) (hop : op = .And ∨ op = .Or) (x y : Nat)
    (hx : x < 2) (hy : y < 2) :
    (match op with
      | .And => (x ^^^ 1) &&& (y ^^^ 1)
      | .Or => (x ^^^ 1) ||| (y ^^^ 1)
      | .Xor => (x ^^^ 1) ^^^ (y ^^^ 1)
      | .other => 0) = (if deMorganCond op x y then 1 else 0) := by
  rcases hop with rfl | rfl <;> rcases oneBit_cases x hx with rfl | rfl <;>
    rcases oneBit_cases y hy with rfl | rfl <;> decide

/-- The value of the dual operation on one-bit `x`, `y`: the negation of `deMorganCond`. -/
theorem deMorganCond_dual (op : BinOp) (hop : op = .And ∨ op = .Or) (x y : Nat)
    (hx : x < 2) (hy : y < 2) :
    (match dualOp op with
      | .And => x &&& y
      | .Or => x ||| y
      | .Xor => x ^^^ y
      | .other => 0) = (if deMorganCond op x y then 0 else 1) := by
  rcases hop with rfl | rfl <;> rcases oneBit_cases x hx with rfl | rfl <;>
    rcases oneBit_cases y hy with rfl | rfl <;> decide

/-- Before the rewrite consumer `k` yields its alternative for `op (not a) (not b)`. -/
theorem outcome_deMorganBody (op : BinOp) (hop : op = .And ∨ op = .Or) (a b : Nat)
    (cs : List Consumer) (args : Nat → Nat) (ha : args a < 2) (hb : args b < 2) (k : Nat) :
    (deMorganBody op a b cs).outcome args (3 + k)
      = (cs[k]?).map (Consumer.expected args (deMorganCond op (args a) (args b))) := by
  have hrun := fun env => run_consumersFrom args 2 cs 3 env (fun i h1 _ => by omega)
  have hfind := find_outcomesFrom args (deMorganCond op (args a) (args b)) cs 3 k
  have hc := deMorganCond_original op hop (args a) (args b) ha hb
  have h0 : (0 == 3 + k) = false := by simp; omega
  have e01 : ((0 : Nat) = 1) ↔ False := by decide
  have h1 : (1 == 3 + k) = false := by simp; omega
  have h2 : (2 == 3 + k) = false := by simp; omega
  rcases hop with rfl | rfl
  · simp only [Body.outcome, deMorganBody, Body.run, Instr.exec, Operand.eval, hrun,
      List.find?, h0, h1, h2]
    simp only [if_true, if_false, one_ne_zero, OfNat.ofNat_ne_one, OfNat.zero_ne_ofNat,
      OfNat.ofNat_ne_zero, reduceIte] at hc ⊢
    rw [← hfind]
    congr 3
    simp only [e01, if_false]
    rw [hc]
    cases deMorganCond BinOp.And (args a) (args b) <;> simp
  · simp only [Body.outcome, deMorganBody, Body.run, Instr.exec, Operand.eval, hrun,
      List.find?, h0, h1, h2]
    simp only [if_true, if_false, one_ne_zero, OfNat.ofNat_ne_one, OfNat.zero_ne_ofNat,
      OfNat.ofNat_ne_zero, reduceIte] at hc ⊢
    rw [← hfind]
    congr 3
    simp only [e01, if_false]
    rw [hc]
    cases deMorganCond BinOp.Or (args a) (args b) <;> simp

/-- After the rewrite consumer `k` yields the same alternative. -/
theorem outcome_deMorganResult (op : BinOp) (hop : op = .And ∨ op = .Or) (a b : Nat)
    (cs : List Consumer) (args : Nat → Nat) (ha : args a < 2) (hb : args b < 2) (k : Nat)
    (hk : k < cs.length) :
    (deMorganResult op a b cs).outcome args (3 + k)
      = (cs[k]?).map (Consumer.expected args (deMorganCond op (args a) (args b))) := by
  have hrun := fun env => run_consumersFrom args (3 + cs.length) (cs.map Consumer.flipped) 3 env
    (fun i _ h2 => by simp only [List.length_map] at h2; omega)
  have hfind := find_outcomesFrom args (!deMorganCond op (args a) (args b))
    (cs.map Consumer.flipped) 3 k
  have hc := deMorganCond_dual op hop (args a) (args b) ha hb
  have hn : (3 + cs.length == 3 + k) = false := by simp; omega
  have hflipped : ((cs.map Consumer.flipped)[k]?).map
        (Consumer.expected args (!deMorganCond op (args a) (args b)))
      = (cs[k]?).map (Consumer.expected args (deMorganCond op (args a) (args b))) := by
    rw [List.getElem?_map, Option.map_map]
    congr 1
    funext c
    exact expected_flipped args _ c
  rw [← hflipped, ← hfind]
  rcases hop with rfl | rfl
  · have hd : dualOp .And = .Or := rfl
    simp only [hd] at hc
    simp only [Body.outcome, deMorganResult, Body.run, Instr.exec, Operand.eval, hrun, hd,
      List.find?, hn, if_true]
    congr 3
    rw [hc]
    cases deMorganCond BinOp.And (args a) (args b) <;> simp
  · have hd : dualOp .Or = .And := rfl
    simp only [hd] at hc
    simp only [Body.outcome, deMorganResult, Body.run, Instr.exec, Operand.eval, hrun, hd,
      List.find?, hn, if_true]
    congr 3
    rw [hc]
    cases deMorganCond BinOp.Or (args a) (args b) <;> simp

/-- For all one-bit `a`, `b`, all values `x`, `y` and all targets, on
`op (not a) (not b)` with both negations written `xor a, -1`, the constant
second, `op` an `and` or an `or` and any list of consuming
selects and conditional branches, the De Morgan rewrite leaves the dual
operation on `a`, `b` and every consumer flipped, and every consumer yields
after the rewrite what it yielded before: the select
`select (not a AND not b, x, y) = select (a OR b, y, x)`, respectively
`select (not a OR not b, x, y) = select (a AND b, y, x)`, and the branch the
same target. -/
theorem visitBinaryOperator_AndOr_deMorgan (op : BinOp) (a b : Nat) (cs : List Consumer)
    (args : Nat → Nat) (hop : op = .And ∨ op = .Or) (ha : args a < 2) (hb : args b < 2) :
    visitBinaryOperator_AndOr (cs.length + 1) (deMorganBody op a b cs) 2
        = some (deMorganResult op a b cs)
      ∧ ∀ k c, cs[k]? = some c →
          (deMorganBody op a b cs).outcome args (3 + k)
              = some (c.expected args (deMorganCond op (args a) (args b)))
            ∧ (deMorganResult op a b cs).outcome args (3 + k)
              = (deMorganBody op a b cs).outcome args (3 + k) := by
  refine ⟨visitBinaryOperator_AndOr_deMorganBody op hop a b cs, ?_⟩
  intro k c hkc
  have hk : k < cs.length := by
    by_contra h
    rw [List.getElem?_eq_none (by omega)] at hkc
    cases hkc
  rw [outcome_deMorganResult op hop a b cs args ha hb k hk,
    outcome_deMorganBody op hop a b cs args ha hb k, hkc]
  exact ⟨rfl, rfl⟩

/-- The rewrite at `a = 1`, `b = 0`, `x = 10`, `y = 20`, on `and (not a) (not b)`
feeding a select and a branch. -/
theorem visitBinaryOperator_AndOr_deMorgan_witness :
    visitBinaryOperator_AndOr 3 (deMorganBody .And 0 1 [.select 2 3, .condBr 7 8]) 2
        = some [(5, .binary .Or (.arg 0) (.arg 1)), (3, .select (.inst 5) (.arg 3) (.arg 2)),
                (4, .condBr (.inst 5) 8 7)] :=
  (visitBinaryOperator_AndOr_deMorgan .And 0 1 [.select 2 3, .condBr 7 8]
    (fun k => [1, 0, 10, 20].getD k 0) (Or.inl rfl) (by decide) (by decide)).1

/-- C8 fails on `deMorganSwappedNot`, where the first negation is written
`xor true, %a`: `BinaryOperator::isNot` accepts it, and the rule reads
`getOperand(0)` of the `xor`, the constant, as the negated value, so it builds
`or true, %b` in the place of `or %a, %b`.  At `a = b = 0` the select yields 10
before the rewrite and 20 after it. -/
theorem visitBinaryOperator_AndOr_swapped_not :
    visitBinaryOperator_AndOr 2 deMorganSwappedNot 2
        = some [(4, .binary .Or .allOnes (.arg 1)), (3, .select (.inst 4) (.arg 3) (.arg 2))]
      ∧ deMorganSwappedNot.outcome (fun k => [0, 0, 10, 20].getD k 0) 3 = some (.value 10)
      ∧ Body.outcome [(4, .binary .Or .allOnes (.arg 1)),
          (3, .select (.inst 4) (.arg 3) (.arg 2))] (fun k => [0, 0, 10, 20].getD k 0) 3
        = some (.value 20) := by
  refine ⟨?_, ?_, ?_⟩ <;> decide

/-- C9: if the two operands of an and/or are not both single-use `not` values, or
if one of its users is neither a conditional branch nor a select with the
instruction as its condition, `visitBinaryOperator` leaves the body as it is:
nothing is created, flipped or erased. -/
theorem visitBinaryOperator_AndOr_no_mutation (fuel : Nat) (F : Body) (I : Nat)
    (op : BinOp) (src0 src1 : Operand)
    (hI : F.lookup I = some (.binary op src0 src1))
    (h : ¬ (F.isNot src0 = true ∧ F.hasOneUse src0 = true
            ∧ F.isNot src1 = true ∧ F.hasOneUse src1 = true)
         ∨ ∃ U ∈ F, Operand.inst I ∈ U.2.operands
             ∧ (∀ c ifTrue ifFalse, U.2 ≠ .condBr c ifTrue ifFalse)
             ∧ (∀ trueValue falseValue, U.2 ≠ .select (.inst I) trueValue falseValue)) :
    visitBinaryOperator_AndOr fuel F I = some F := by
  unfold visitBinaryOperator_AndOr
  simp only [hI]
  by_cases hop : op = .And ∨ op = .Or
  · rw [if_pos hop]
    by_cases hnot : (F.isNot src0 && F.isNot src1 && F.hasOneUse src0 && F.hasOneUse src1) = true
    · rw [if_pos hnot]
      by_cases hflip : ((F.users I).all (fun U => flippableUser I U.2)) = true
      · exfalso
        rcases h with h | ⟨U, hU, huse, hbr, hsel⟩
        · apply h
          simp only [Bool.and_eq_true] at hnot
          tauto
        · have hmem : U ∈ F.users I := by
            simp only [Body.users, List.mem_filter, List.contains_iff_exists_mem_beq, beq_iff_eq]
            exact ⟨hU, _, huse, rfl⟩
          have := List.all_eq_true.mp hflip U hmem
          obtain ⟨id, ins⟩ := U
          cases ins with
          | binary o a b => simp [flippableUser] at this
          | select c tv fv =>
            simp only [flippableUser, beq_iff_eq] at this
            exact hsel tv fv (by simp [this])
          | condBr c tt ff => exact hbr c tt ff rfl
          | br d => simp [Instr.operands] at huse
          | other ops => simp [flippableUser] at this
      · simp only [hflip, Bool.false_eq_true, if_false]
    · rw [if_neg hnot]
  · rw [if_neg hop]

/-- C9 on a body where the `and` of two single-use `not`s feeds a select as a data
operand. -/
theorem visitBinaryOperator_AndOr_no_mutation_witness :
    visitBinaryOperator_AndOr 5
        [(0, .binary .Xor (.arg 0) .allOnes), (1, .binary .Xor (.arg 1) .allOnes),
         (2, .binary .And (.inst 0) (.inst 1)), (3, .condBr (.inst 2) 7 8),
         (4, .select (.arg 2) (.inst 2) (.arg 3))] 2
      = some [(0, .binary .Xor (.arg 0) .allOnes), (1, .binary .Xor (.arg 1) .allOnes),
         (2, .binary .And (.inst 0) (.inst 1)), (3, .condBr (.inst 2) 7 8),
         (4, .select (.arg 2) (.inst 2) (.arg 3))] :=
  visitBinaryOperator_AndOr_no_mutation 5 _ 2 .And (.inst 0) (.inst 1) rfl
    (Or.inr ⟨(4, .select (.arg 2) (.inst 2) (.arg 3)), by decide, by decide,
      (fun _ _ _ h => Instr.noConfusion h),
      (fun _ _ h => Operand.noConfusion (Instr.select.inj h).1)⟩)

end Legalization

/-! ### `visitICmpInst`: compare of a truncated value with a constant -/

theorem toSigned_bounds (n v : Nat) (hn : 0 < n) (hv : v < 2 ^ n) :
    -(2 : Int) ^ (n - 1) ≤ toSigned n v ∧ toSigned n v < (2 : Int) ^ (n - 1) := by
  have hpow : (2 : Int) ^ n = 2 * 2 ^ (n - 1) := by
    obtain ⟨k, rfl⟩ : ∃ k, n = k + 1 := ⟨n - 1, by omega⟩
    simp [pow_succ, mul_comm]
  have hv' : (v : Int) < 2 ^ n := by exact_mod_cast hv
  unfold toSigned
  split_ifs with h
  · have h' : (v : Int) < 2 ^ (n - 1) := by exact_mod_cast h
    have : (0 : Int) ≤ 2 ^ (n - 1) := by positivity
    constructor <;> omega
  · have h' : (2 : Int) ^ (n - 1) ≤ v := by
      have : 2 ^ (n - 1) ≤ v := by omega
      exact_mod_cast this
    constructor <;> omega

/-- An integer in the signed range of `w` bits is the signed reading of its pattern. -/
theorem toSigned_ofSigned (w : Nat) (z : Int) (hw : 0 < w)
    (hlo : -(2 : Int) ^ (w - 1) ≤ z) (hhi : z < (2 : Int) ^ (w - 1)) :
    toSigned w (ofSigned w z) = z := by
  have hpow : (2 : Int) ^ w = 2 * 2 ^ (w - 1) := by
    obtain ⟨k, rfl⟩ : ∃ k, w = k + 1 := ⟨w - 1, by omega⟩
    simp [pow_succ, mul_comm]
  have hpos : (0 : Int) < 2 ^ (w - 1) := by positivity
  have hnn : 0 ≤ z % 2 ^ w := Int.emod_nonneg _ (by positivity)
  unfold toSigned ofSigned
  have hcast : (((z % 2 ^ w).toNat : Nat) : Int) = z % 2 ^ w := Int.toNat_of_nonneg hnn
  have hlt : ((z % 2 ^ w).toNat < 2 ^ (w - 1)) ↔ (z % 2 ^ w < 2 ^ (w - 1)) := by
    rw [← hcast]
    simp only [Int.toNat_of_nonneg hnn]
    constructor
    · intro h; rw [← hcast]; exact_mod_cast h
    · intro h; rw [← hcast] at h; exact_mod_cast h
  by_cases hz : 0 ≤ z
  · have hmod : z % 2 ^ w = z := Int.emod_eq_of_lt hz (by omega)
    rw [if_pos (hlt.mpr (by omega)), hcast, hmod]
  · have hmod : z % 2 ^ w = z + 2 ^ w := by
      have : (z + 2 ^ w) % 2 ^ w = z + 2 ^ w := Int.emod_eq_of_lt (by omega) (by omega)
      rw [← this, Int.add_emod_self]
    rw [if_neg (fun h => by have := hlt.mp h; omega), hcast, hmod]
    ring

/-- Shifting left by `w - n` at width `w` keeps exactly the low `n` bits. -/
theorem shl_of_trunc (w n x : Nat) (hnw : n ≤ w) :
    shl w x (w - n) = trunc n x * 2 ^ (w - n) := by
  have hw : 2 ^ w = 2 ^ n * 2 ^ (w - n) := by
    rw [← pow_add]; congr 1; omega
  unfold shl trunc
  rw [Nat.shiftLeft_eq, hw, Nat.mul_mod_mul_right]

/-- The signed reading of a pattern shifted to the top of the word. -/
theorem toSigned_mul_two_pow (w n y : Nat) (hn : 0 < n) (hnw : n ≤ w) :
    toSigned w (y * 2 ^ (w - n)) = toSigned n y * 2 ^ (w - n) := by
  have hw : (2 : Int) ^ w = 2 ^ n * 2 ^ (w - n) := by
    rw [← pow_add]; congr 1; omega
  have hw1 : 2 ^ (w - 1) = 2 ^ (n - 1) * 2 ^ (w - n) := by
    rw [← pow_add]; congr 1; omega
  have hs : 0 < 2 ^ (w - n) := by positivity
  unfold toSigned
  have hiff : (y * 2 ^ (w - n) < 2 ^ (w - 1)) ↔ (y < 2 ^ (n - 1)) := by
    rw [hw1]
    exact Nat.mul_lt_mul_right hs
  by_cases h : y < 2 ^ (n - 1)
  · rw [if_pos (hiff.mpr h), if_pos h]
    push_cast
    ring
  · rw [if_neg (fun h' => h (hiff.mp h')), if_neg h, hw]
    push_cast
    ring

/-- Monotonicity of the sign-bit weight in the width. -/
theorem two_pow_pred_le (n w : Nat) (hnw : n ≤ w) : (2 : Int) ^ (n - 1) ≤ 2 ^ (w - 1) := by
  have : (2 : Nat) ^ (n - 1) ≤ 2 ^ (w - 1) := Nat.pow_le_pow_right (by decide) (by omega)
  exact_mod_cast this

/-- Sign extension keeps the signed reading. -/
theorem toSigned_sext (n w c : Nat) (hn : 0 < n) (hnw : n ≤ w) (hc : c < 2 ^ n) :
    toSigned w (sext n w c) = toSigned n c := by
  obtain ⟨hlo, hhi⟩ := toSigned_bounds n c hn hc
  have hle := two_pow_pred_le n w hnw
  unfold sext
  exact toSigned_ofSigned w _ (by omega) (by omega) (by omega)

/-- The signed branch of `GetMaskedValue` has the signed reading of the truncated source. -/
theorem toSigned_GetMaskedValue (undefMask w n x : Nat) (hn : 0 < n) (hnw : n ≤ w) :
    toSigned w (GetMaskedValue undefMask true w x n) = toSigned n (trunc n x) := by
  have hy : trunc n x < 2 ^ n := Nat.mod_lt _ (by positivity)
  obtain ⟨hlo, hhi⟩ := toSigned_bounds n (trunc n x) hn hy
  have hle := two_pow_pred_le n w hnw
  have hs : ((2 : Int) ^ (w - n)) ≠ 0 := by positivity
  simp only [GetMaskedValue, Bool.not_true, Bool.false_eq_true, if_false, ashr]
  rw [shl_of_trunc w n x hnw, toSigned_mul_two_pow w n _ hn hnw, Int.mul_ediv_cancel _ hs]
  exact toSigned_ofSigned w _ (by omega) (by omega) (by omega)

namespace Legalization

/-- For every source width `W`, every narrower width `0 < N < W`, every `W`-bit
`x`, every `N`-bit constant `c` and every predicate `p` that is signed or whose
width `N` is at most 64, the compare that `visitICmpInst` builds on the masked
(unsigned and equality predicates) or shifted (signed predicates) source,
against the zero- or sign-extended constant, has the value of
`icmp p (trunc_N x), c`. -/
theorem visitICmpInst_NCmp_eq (undefMask : Nat) (p : Predicate) (W N x c : Nat)
    (hN : 0 < N) (hNW : N < W) (_hx : x < 2 ^ W) (hc : c < 2 ^ N)
    (hmask : N ≤ 64 ∨ p.isSigned = true) :
    visitICmpInst_NCmp undefMask p W N x c = icmpOfTrunc p N x c := by
  have hs := toSigned_GetMaskedValue undefMask W N x hN hNW.le
  have hsc := toSigned_sext N W c hN hNW.le hc
  have hu : p.isSigned = false → GetMaskedValue undefMask false W x N = trunc N x := by
    intro hp
    have hN64 : N ≤ 64 := by
      rcases hmask with h | h
      · exact h
      · rw [hp] at h
        cases h
    simp [GetMaskedValue, getBitMask, trunc, hN64]
  cases p <;>
    first
    | (have hu2 := hu rfl
       simp only [visitICmpInst_NCmp, icmpOfTrunc, Predicate.isSigned, icmp, hu2, zext,
         Bool.false_eq_true, if_false])
    | simp only [visitICmpInst_NCmp, icmpOfTrunc, Predicate.isSigned, icmp, hs, hsc,
        if_true]

/-- The rewritten compare for `icmp slt (trunc i32 %x to i28), -1` at
`x = 0x0FFFFFFE`. -/
theorem visitICmpInst_NCmp_eq_witness :
    visitICmpInst_NCmp 0 .ICMP_SLT 32 28 0x0FFFFFFE 0x0FFFFFFF
      = icmpOfTrunc .ICMP_SLT 28 0x0FFFFFFE 0x0FFFFFFF :=
  visitICmpInst_NCmp_eq 0 .ICMP_SLT 32 28 0x0FFFFFFE 0x0FFFFFFF
    (by decide) (by decide) (by decide) (by decide) (Or.inl (by decide))

/-- Sample evaluations of the rewritten compare: with `x = 0x0FFFFFFE` the 28-bit
truncation is `-2`, which is signed-less-than `-1` and unsigned-less-than
`0x0FFFFFFF`; with `x = 0xF0000005` the bits above bit 27 are masked or shifted
out. -/
theorem visitICmpInst_NCmp_examples :
    visitICmpInst_NCmp 0 .ICMP_SLT 32 28 0x0FFFFFFE 0x0FFFFFFF = true
      ∧ GetMaskedValue 0 true 32 0x0FFFFFFE 28 = 0xFFFFFFFE
      ∧ sext 28 32 0x0FFFFFFF = 0xFFFFFFFF
      ∧ visitICmpInst_NCmp 0 .ICMP_ULT 32 28 0x0FFFFFFE 0x0FFFFFFF = true
      ∧ GetMaskedValue 0 false 32 0xF0000005 28 = 5
      ∧ visitICmpInst_NCmp 0 .ICMP_EQ 32 28 0xF0000005 5 = true
      ∧ visitICmpInst_NCmp 0 .ICMP_SGT 32 28 0xF0000005 0x0FFFFFFF = true := by
  decide

/-- C10 fails for an illegal width above 64 bits, on
`icmp eq (trunc i128 %x to i96), 18446744073709551616` at `%x = 2^64`: the
compare is true, and the compare `visitICmpInst` puts in its place,
`icmp eq (and i128 %x, mask), 18446744073709551616`, is false whatever
`getBitMask` yields for the width 96, since the mask is a `uint64_t` and clears
bit 64 of `%x`.  The same holds for `icmp uge`. -/
theorem visitICmpInst_NCmp_wide_mask :
    icmpOfTrunc .ICMP_EQ 96 (2 ^ 64) (2 ^ 64) = true
      ∧ icmpOfTrunc .ICMP_UGE 96 (2 ^ 64) (2 ^ 64) = true
      ∧ ∀ undefMask : Nat,
          GetMaskedValue undefMask false 128 (2 ^ 64) 96 < 2 ^ 64
            ∧ visitICmpInst_NCmp undefMask .ICMP_EQ 128 96 (2 ^ 64) (2 ^ 64) = false
            ∧ visitICmpInst_NCmp undefMask .ICMP_UGE 128 96 (2 ^ 64) (2 ^ 64) = false := by
  refine ⟨by decide, by decide, ?_⟩
  intro undefMask
  have hm : getBitMask undefMask 96 < 2 ^ 64 := by
    simp only [getBitMask, show ¬ (96 ≤ 64) by decide, if_false]
    exact Nat.mod_lt _ (by positivity)
  have hlt : GetMaskedValue undefMask false 128 (2 ^ 64) 96 < 2 ^ 64 := by
    simp only [GetMaskedValue, Bool.not_false, if_true]
    exact Nat.lt_of_le_of_lt Nat.and_le_right hm
  refine ⟨hlt, ?_, ?_⟩
  · simp only [visitICmpInst_NCmp, Predicate.isSigned, Bool.false_eq_true, if_false, zext, icmp,
      decide_eq_false_iff_not]
    omega
  · simp only [visitICmpInst_NCmp, Predicate.isSigned, Bool.false_eq_true, if_false, zext, icmp,
      decide_eq_false_iff_not]
    omega

end Legalization

namespace Legalization

/-! ### One-bit compare, select and phi -/

/-- The widened compare of two one-bit values is the one-bit compare. -/
theorem visitICmpInst_i1_eq (p : Predicate) (a b : Nat) (ha : a < 2) (hb : b < 2) :
    visitICmpInst_i1 p a b = icmp p 1 a b := by
  rcases oneBit_cases a ha with rfl | rfl <;> rcases oneBit_cases b hb with rfl | rfl <;>
    cases p <;> decide

/-- The compare of the sign-extended phi with zero is the incoming one-bit value. -/
theorem visitPHINode_i1_eq (incoming : List (Nat × Nat)) (pred : Nat)
    (h : ∀ e ∈ incoming, e.1 < 2) :
    visitPHINode_i1 incoming pred = (phiValue incoming pred).map (fun v => decide (v = 1)) := by
  induction incoming with
  | nil => rfl
  | cons e es ih =>
    have he : e.1 < 2 := h e (List.mem_cons_self _ _)
    have ih' := ih (fun x hx => h x (List.mem_cons_of_mem _ hx))
    simp only [visitPHINode_i1, phiValue, visitPHINode_newPhi, List.map_cons, List.find?_cons]
      at ih' ⊢
    by_cases hp : (e.2 == pred) = true
    · simp only [hp, Option.map_some']
      rcases oneBit_cases e.1 he with h0 | h0 <;> rw [h0] <;> decide
    · simp only [hp]
      exact ih'

/-- C11: for all one-bit values the widened forms compute the one-bit result: the
compare on the 8-bit extensions (sign extension for a signed predicate, zero
extension otherwise) equals the one-bit compare; the truncation of the select
on the 32-bit zero extensions equals the select; and for a phi, the compare of
the sign-extended incoming value with zero equals the incoming one-bit value. -/
theorem oneBit_widening (p : Predicate) (c : Bool) (a b : Nat)
    (incoming : List (Nat × Nat)) (pred : Nat)
    (ha : a < 2) (hb : b < 2) (hin : ∀ e ∈ incoming, e.1 < 2) :
    visitICmpInst_i1 p a b = icmp p 1 a b
      ∧ visitSelectInst_i1 c a b = (if c then a else b)
      ∧ visitPHINode_i1 incoming pred
          = (phiValue incoming pred).map (fun v => decide (v = 1)) := by
  refine ⟨visitICmpInst_i1_eq p a b ha hb, ?_, visitPHINode_i1_eq incoming pred hin⟩
  rcases oneBit_cases a ha with rfl | rfl <;> rcases oneBit_cases b hb with rfl | rfl <;>
    cases c <;> decide

/-- C11 at `icmp slt true, false`, `select true, 1, 0` and a phi with the
incoming values `1` from block 0 and `0` from block 1, read from block 0. -/
theorem oneBit_widening_witness :
    visitICmpInst_i1 .ICMP_SLT 1 0 = true
      ∧ visitSelectInst_i1 true 1 0 = 1
      ∧ visitPHINode_i1 [(1, 0), (0, 1)] 0 = some true :=
  (oneBit_widening .ICMP_SLT true 1 0 [(1, 0), (0, 1)] 0 (by decide) (by decide)
    (by decide)).imp (fun h => h.trans (by decide))
      (And.imp (fun h => h.trans (by decide)) (fun h => h.trans (by decide)))

end Legalization

namespace Legalization

/-! ### `RecursivelyPromoteInsertElementUses` -/

set_option maxRecDepth 100000 in
/-- The extracted bit is bit `i` of the byte. -/
theorem extractLane_eq_bit : ∀ acc, acc < 256 → ∀ i, i < 8 →
    extractLane acc i = (acc >>> i) % 2 := by
  decide

/-- The extracted bit in terms of `testBit`. -/
theorem extractLane_eq_testBit (acc i : Nat) (hacc : acc < 256) (hi : i < 8) :
    extractLane acc i = if acc.testBit i then 1 else 0 := by
  rw [extractLane_eq_bit acc hacc i hi, Nat.testBit_to_div_mod, Nat.shiftRight_eq_div_pow]
  have h2 : acc / 2 ^ i % 2 < 2 := Nat.mod_lt _ (by decide)
  by_cases h : acc / 2 ^ i % 2 = 1
  · simp [h]
  · simp only [h, decide_False, Bool.false_eq_true, if_false]
    omega

/-- An insertion of a bit at an index below 8 is the `or` with the shifted bit. -/
theorem promoteInsert_eq (acc b idx : Nat) (hb : b < 2) (hidx : idx < 8) :
    promoteInsert acc b idx = acc ||| (b <<< idx) := by
  have h1 : idx % 2 ^ 8 = idx := Nat.mod_eq_of_lt (by omega)
  have h2 : b <<< idx < 2 ^ 8 := by
    rcases oneBit_cases b hb with rfl | rfl
    · simp
    · have : idx = 0 ∨ idx = 1 ∨ idx = 2 ∨ idx = 3 ∨ idx = 4 ∨ idx = 5 ∨ idx = 6 ∨ idx = 7 := by
        omega
      rcases this with rfl | rfl | rfl | rfl | rfl | rfl | rfl | rfl <;> decide
  simp only [promoteInsert, zext, shl, trunc, h1, Nat.mod_eq_of_lt h2]

/-- An insertion keeps the byte below 256. -/
theorem promoteInsert_lt (acc b idx : Nat) (hacc : acc < 256) :
    promoteInsert acc b idx < 256 := by
  have h : shl 8 (zext b) (trunc 8 idx) < 2 ^ 8 := Nat.mod_lt _ (by decide)
  exact Nat.or_lt_two_pow (n := 8) hacc h

/-- A chain of insertions keeps the byte below 256. -/
theorem promoteInserts_lt (chain : List (Nat × Nat)) :
    ∀ acc, acc < 256 → promoteInserts acc chain < 256 := by
  induction chain with
  | nil => intro acc h; exact h
  | cons e rest ih => intro acc h; exact ih _ (promoteInsert_lt acc e.1 e.2 h)

/-- Bit `i` after one insertion. -/
theorem testBit_promoteInsert (acc b idx i : Nat) (hb : b < 2) (hidx : idx < 8) :
    (promoteInsert acc b idx).testBit i = (acc.testBit i || (b == 1 && idx == i)) := by
  rw [promoteInsert_eq acc b idx hb hidx, Nat.testBit_or, Nat.testBit_shiftLeft]
  congr 1
  rcases oneBit_cases b hb with rfl | rfl
  · simp
  · by_cases h : idx = i
    · subst h; simp
    · have h1 : (1 : Nat).testBit (i - idx) = decide (i - idx = 0) := by
        cases hk : i - idx with
        | zero => simp
        | succ k => simp [Nat.testBit_succ]
      rw [h1]
      by_cases hle : idx ≤ i
      · have : i - idx ≠ 0 := by omega
        simp [h, this]
      · simp [h, hle]

/-- Bit `i` after a chain of insertions: it was set before, or some insertion
put a `1` at lane `i`. -/
theorem testBit_promoteInserts (chain : List (Nat × Nat)) (i : Nat)
    (hchain : ∀ e ∈ chain, e.1 < 2 ∧ e.2 < 8) :
    ∀ acc, (promoteInserts acc chain).testBit i
      = (acc.testBit i || chain.any (fun e => e.1 == 1 && e.2 == i)) := by
  induction chain with
  | nil => intro acc; simp [promoteInserts]
  | cons e rest ih =>
    intro acc
    have he := hchain e (List.mem_cons_self _ _)
    rw [promoteInserts, ih (fun x hx => hchain x (List.mem_cons_of_mem _ hx)),
      testBit_promoteInsert acc e.1 e.2 i he.1 he.2, List.any_cons, Bool.or_assoc]

/-- A chain that never inserts lane `i` has no value inserted at lane `i`. -/
theorem lastInserted_of_filter_nil (chain : List (Nat × Nat)) (i : Nat)
    (h : chain.filter (fun e => e.2 == i) = []) : lastInserted chain i = none := by
  induction chain with
  | nil => rfl
  | cons x xs ih =>
    by_cases hx : (x.2 == i) = true
    · simp [List.filter_cons, hx] at h
    · have hx' : ¬ x.2 = i := by simpa using hx
      have hf : (x.2 == i) = false := by simpa using hx
      simp only [List.filter_cons, hf, Bool.false_eq_true, if_false] at h
      simp [lastInserted, ih h, hx']

/-- In a chain that inserts lane `i` at most once, a `1` was put at lane `i` exactly
when the value most recently inserted at lane `i` is `1`. -/
theorem lastInserted_of_once (chain : List (Nat × Nat)) (i : Nat)
    (hchain : ∀ e ∈ chain, e.1 < 2 ∧ e.2 < 8)
    (honce : (chain.filter (fun e => e.2 == i)).length ≤ 1) :
    (if chain.any (fun e => e.1 == 1 && e.2 == i) then 1 else 0)
      = (lastInserted chain i).getD 0 := by
  induction chain with
  | nil => rfl
  | cons e rest ih =>
    have he := hchain e (List.mem_cons_self _ _)
    have hrest := fun x hx => hchain x (List.mem_cons_of_mem _ hx)
    by_cases hei : e.2 = i
    · have hnone : (rest.filter (fun x => x.2 == i)) = [] := by
        simp only [List.filter_cons, hei, beq_self_eq_true, if_true, List.length_cons] at honce
        exact List.length_eq_zero.mp (by omega)
      have hany : rest.any (fun x => x.1 == 1 && x.2 == i) = false := by
        rw [List.any_eq_false]
        intro x hx
        have : (x.2 == i) = false := by
          by_contra hcon
          have hmem : x ∈ rest.filter (fun x => x.2 == i) :=
            List.mem_filter.mpr ⟨hx, by simpa using hcon⟩
          rw [hnone] at hmem
          cases hmem
        simp [this]
      have hlast : lastInserted rest i = none := lastInserted_of_filter_nil rest i hnone
      simp only [List.any_cons, hany, Bool.or_false, lastInserted, hlast, hei, if_true,
        Option.getD_some, beq_self_eq_true, Bool.and_true]
      rcases oneBit_cases e.1 he.1 with h0 | h0 <;> rw [h0] <;> rfl
    · have honce' : (rest.filter (fun x => x.2 == i)).length ≤ 1 := by
        have : (e.2 == i) = false := by simpa using hei
        simpa only [List.filter_cons, this] using honce
      have ih' := ih hrest honce'
      have hb : (e.2 == i) = false := by simpa using hei
      simp only [List.any_cons, hb, Bool.and_false, Bool.false_or, lastInserted, hei, if_false]
      rw [ih']
      cases lastInserted rest i <;> rfl

/-- C12 (amended): on a chain of insertions of one-bit values at indices below 8,
started with the byte `0`, an extraction at lane `i` returns `1` exactly when
some insertion of the chain put a `1` at lane `i`; in a chain that inserts lane
`i` at most once this is the value most recently inserted at lane `i` (and `0`
if there is none). -/
theorem extractLane_promoteInserts (chain : List (Nat × Nat)) (i : Nat)
    (hchain : ∀ e ∈ chain, e.1 < 2 ∧ e.2 < 8) (hi : i < 8) :
    extractLane (promoteInserts 0 chain) i
        = (if chain.any (fun e => e.1 == 1 && e.2 == i) then 1 else 0)
      ∧ ((chain.filter (fun e => e.2 == i)).length ≤ 1 →
          extractLane (promoteInserts 0 chain) i = (lastInserted chain i).getD 0) := by
  have hmain : extractLane (promoteInserts 0 chain) i
      = (if chain.any (fun e => e.1 == 1 && e.2 == i) then 1 else 0) := by
    rw [extractLane_eq_testBit _ i (promoteInserts_lt chain 0 (by decide)) hi,
      testBit_promoteInserts chain i hchain 0]
    simp
  exact ⟨hmain, fun honce => hmain.trans (lastInserted_of_once chain i hchain honce)⟩

/-- C12 (amended) on the chain `1` at lane 0, `0` at lane 1, `1` at lane 2, read
at lane 2. -/
theorem extractLane_promoteInserts_witness :
    extractLane (promoteInserts 0 [(1, 0), (0, 1), (1, 2)]) 2 = 1 :=
  ((extractLane_promoteInserts [(1, 0), (0, 1), (1, 2)] 2 (by decide) (by decide)).1).trans
    (by decide)

/-- C12 as stated fails on a chain that inserts the same lane twice: after `1` at
lane 0 and then `0` at lane 0 the byte still holds the `1`, so the extraction at
lane 0 returns `1` where the value most recently inserted is `0`. -/
theorem extractLane_overwritten_counterexample :
    promoteInserts 0 [(1, 0), (0, 0)] = 1
      ∧ extractLane (promoteInserts 0 [(1, 0), (0, 0)]) 0 = 1
      ∧ lastInserted [(1, 0), (0, 0)] 0 = some 0 := by
  decide

/-- C13 fails at `b = 1`: on the byte that holds a `1` at lane 0, read at lane 0 by
a `sext` to `i32`, the rule sign-extends the 8-bit `newVal = 1` and substitutes
`1` for the `sext`, where `sext i1 1 to i32` is `0xFFFFFFFF`; at `b = 0` both are
`0`. -/
theorem promoteExtract_sext_value :
    promoteInserts 0 [(1, 0)] = 1
      ∧ promoteExtract (promoteInserts 0 [(1, 0)]) 0 [.sextI1ToI32] = [.castReplaced 1]
      ∧ sext 1 32 1 = 0xFFFFFFFF
      ∧ promoteExtract (promoteInserts 0 [(0, 0)]) 0 [.sextI1ToI32] = [.castReplaced 0]
      ∧ sext 1 32 0 = 0 := by
  decide

end Legalization

namespace Legalization

/-! ### `visitStoreInst`: illegal-width scalar integers -/

/-- The loop returns the first of the halvings that divides the width. -/
theorem findIntSize_eq_find (w : Nat) :
    ∀ fuel i, findIntSize w fuel i
      = ((halvings fuel i).find? (fun x => decide (w % x = 0))).getD 0 := by
  intro fuel
  induction fuel with
  | zero => intro i; rfl
  | succ n ih =>
    intro i
    by_cases h8 : 8 ≤ i
    · by_cases hd : w % i = 0
      · simp [findIntSize, halvings, h8, hd]
      · simp [findIntSize, halvings, h8, hd, ih]
    · simp [findIntSize, halvings, h8]

/-- Every halving is at least 8 and at most the width the loop started from. -/
theorem halvings_bounds :
    ∀ fuel i, ∀ x ∈ halvings fuel i, 8 ≤ x ∧ x ≤ i := by
  intro fuel
  induction fuel with
  | zero => intro i x hx; simp [halvings] at hx
  | succ n ih =>
    intro i x hx
    by_cases h8 : 8 ≤ i
    · simp only [halvings, h8, if_true, List.mem_cons] at hx
      rcases hx with rfl | hx
      · exact ⟨h8, le_refl _⟩
      · have := ih (i >>> 1) x hx
        have hle : i >>> 1 ≤ i := by rw [Nat.shiftRight_eq_div_pow]; exact Nat.div_le_self _ _
        exact ⟨this.1, le_trans this.2 hle⟩
    · simp [halvings, h8] at hx

/-- The first halving that passes a test is the largest one that passes it. -/
theorem find_halvings_largest (p : Nat → Bool) :
    ∀ fuel i r, (halvings fuel i).find? p = some r →
      r ∈ halvings fuel i ∧ p r = true ∧ ∀ x ∈ halvings fuel i, p x = true → x ≤ r := by
  intro fuel
  induction fuel with
  | zero => intro i r h; simp [halvings] at h
  | succ n ih =>
    intro i r h
    by_cases h8 : 8 ≤ i
    · simp only [halvings, h8, if_true, List.find?_cons] at h ⊢
      by_cases hp : p i = true
      · simp only [hp] at h
        have hr : i = r := Option.some.inj h
        subst hr
        refine ⟨List.mem_cons_self _ _, hp, ?_⟩
        intro x hx _
        rcases List.mem_cons.mp hx with rfl | hx
        · exact le_refl _
        · have hle : i >>> 1 ≤ i := by
            rw [Nat.shiftRight_eq_div_pow]; exact Nat.div_le_self _ _
          exact le_trans (halvings_bounds n (i >>> 1) x hx).2 hle
      · have hp' : p i = false := by simpa using hp
        simp only [hp'] at h
        obtain ⟨h1, h2, h3⟩ := ih (i >>> 1) r h
        refine ⟨List.mem_cons_of_mem _ h1, h2, ?_⟩
        intro x hx hpx
        rcases List.mem_cons.mp hx with rfl | hx
        · rw [hp'] at hpx; cases hpx
        · exact h3 x hx hpx
    · simp [halvings, h8] at h

/-- C14 (amended): for a data layout whose legal integer widths are the halvings,
down to 8, of the largest one, and a store of a scalar integer of illegal width
`w ≠ 1`, `visitStoreInst` stores a vector whose element width is the largest
legal integer width that divides `w`, with `w / width` elements, and it leaves
the store unchanged if and only if no legal integer width divides `w`. -/
theorem visitStoreInst_scalarInt_spec (DL : DataLayout) (w : Nat)
    (hDL : legalWidthsAreHalvings DL = true) (hw1 : w ≠ 1)
    (hill : DL.isLegalInteger w = false) :
    (∀ intSize numElts, visitStoreInst_scalarInt DL w = .asVector intSize numElts →
        DL.isLegalInteger intSize = true ∧ w % intSize = 0 ∧ numElts = w / intSize
          ∧ ∀ x, DL.isLegalInteger x = true → w % x = 0 → x ≤ intSize)
      ∧ (visitStoreInst_scalarInt DL w = .unchanged ↔
          ∀ x, DL.isLegalInteger x = true → w % x ≠ 0)
      ∧ visitStoreInst_scalarInt DL w ≠ .zextToI8 := by
  simp only [legalWidthsAreHalvings, Bool.and_eq_true, List.all_eq_true,
    List.contains_iff_exists_mem_beq, beq_iff_eq, exists_eq_right'] at hDL
  obtain ⟨hsub, hsup⟩ := hDL
  have hlegal : ∀ x, DL.isLegalInteger x = true ↔
      x ∈ halvings (DL.getLargestLegalIntTypeSizeInBits + 1)
        DL.getLargestLegalIntTypeSizeInBits := by
    intro x
    simp only [DataLayout.isLegalInteger, List.contains_iff_exists_mem_beq, beq_iff_eq,
      exists_eq_right']
    exact ⟨fun h => hsub x h, fun h => hsup x h⟩
  have hvisit : visitStoreInst_scalarInt DL w
      = (if findIntSize w (DL.getLargestLegalIntTypeSizeInBits + 1)
            DL.getLargestLegalIntTypeSizeInBits = 0 then .unchanged
          else .asVector (findIntSize w (DL.getLargestLegalIntTypeSizeInBits + 1)
            DL.getLargestLegalIntTypeSizeInBits)
            (w / findIntSize w (DL.getLargestLegalIntTypeSizeInBits + 1)
              DL.getLargestLegalIntTypeSizeInBits)) := by
    simp [visitStoreInst_scalarInt, hw1, hill]
  rw [hvisit, findIntSize_eq_find]
  cases hfind : (halvings (DL.getLargestLegalIntTypeSizeInBits + 1)
      DL.getLargestLegalIntTypeSizeInBits).find? (fun x => decide (w % x = 0)) with
  | none =>
    have hnone := List.find?_eq_none.mp hfind
    simp only [Option.getD_none, if_true, reduceCtorEq, false_implies, implies_true, true_and,
      true_iff, ne_eq, not_false_eq_true, and_true]
    intro x hx hdiv
    exact hnone x ((hlegal x).mp hx) (by simpa using hdiv)
  | some r =>
    obtain ⟨hmem, hp, hmax⟩ := find_halvings_largest _ _ _ r hfind
    have hr8 := (halvings_bounds _ _ r hmem).1
    have hr0 : r ≠ 0 := by omega
    have hdiv : w % r = 0 := by simpa using hp
    simp only [Option.getD_some, hr0, if_false, StoreRewrite.asVector.injEq, reduceCtorEq,
      false_iff, ne_eq, not_false_eq_true, and_true, not_forall, Classical.not_imp,
      Decidable.not_not]
    refine ⟨?_, ⟨r, (hlegal r).mpr hmem, hdiv⟩⟩
    rintro intSize numElts ⟨rfl, rfl⟩
    refine ⟨(hlegal r).mpr hmem, hdiv, rfl, ?_⟩
    intro x hx hxd
    exact hmax x ((hlegal x).mp hx) (by simpa using hxd)

/-- C14 (amended) on the layout `n8:16:32` and a store of an `i48`: a vector of
three `i16`. -/
theorem visitStoreInst_scalarInt_spec_witness :
    visitStoreInst_scalarInt ⟨[8, 16, 32]⟩ 48 = .asVector 16 3
      ∧ (visitStoreInst_scalarInt ⟨[8, 16, 32]⟩ 48 = .unchanged ↔
          ∀ x, DataLayout.isLegalInteger ⟨[8, 16, 32]⟩ x = true → 48 % x ≠ 0) :=
  ⟨by decide,
    (visitStoreInst_scalarInt_spec ⟨[8, 16, 32]⟩ 48 (by decide) (by decide) (by decide)).2.1⟩

/-- C14 as stated fails on data layouts whose legal widths are not the halvings of
the largest one.  With `n8:32` a store of an `i48` becomes a vector of `i16`,
which is not legal there, while the largest legal width that divides 48 is 8;
with `n16:32` a store of an `i24` becomes a vector of `i8` although no legal
width divides 24. -/
theorem visitStoreInst_scalarInt_layout_counterexample :
    visitStoreInst_scalarInt ⟨[8, 32]⟩ 48 = .asVector 16 3
      ∧ DataLayout.isLegalInteger ⟨[8, 32]⟩ 48 = false
      ∧ DataLayout.isLegalInteger ⟨[8, 32]⟩ 16 = false
      ∧ DataLayout.isLegalInteger ⟨[8, 32]⟩ 8 = true ∧ 48 % 8 = 0
      ∧ visitStoreInst_scalarInt ⟨[16, 32]⟩ 24 = .asVector 8 3
      ∧ DataLayout.isLegalInteger ⟨[16, 32]⟩ 24 = false
      ∧ 24 % 16 ≠ 0 ∧ 24 % 32 ≠ 0 := by
  decide

end Legalization

/-! ### `LegalizeGVNBitCastPattern` -/

/-- Lane `k` of a vector of `w`-bit lanes, read from the integer it is bitcast to. -/
theorem bitcastToInt_lane (w : Nat) (lanes : List Nat) (hl : ∀ x ∈ lanes, x < 2 ^ w) :
    ∀ k, k < lanes.length → bitcastToInt w lanes / 2 ^ (w * k) % 2 ^ w = lanes.getD k 0 := by
  induction lanes with
  | nil => intro k hk; simp at hk
  | cons x xs ih =>
    intro k hk
    have hx : x < 2 ^ w := hl x (List.mem_cons_self _ _)
    have hpos : 0 < 2 ^ w := by positivity
    cases k with
    | zero =>
      simp only [bitcastToInt, Nat.mul_zero, pow_zero, Nat.div_one, List.getD_cons_zero]
      rw [Nat.add_mul_mod_self_left]
      exact Nat.mod_eq_of_lt hx
    | succ k =>
      have hk' : k < xs.length := by simpa using hk
      have hdiv : (x + 2 ^ w * bitcastToInt w xs) / 2 ^ w = bitcastToInt w xs := by
        rw [Nat.add_mul_div_left _ _ hpos, Nat.div_eq_of_lt hx, Nat.zero_add]
      have hpow : 2 ^ (w * (k + 1)) = 2 ^ w * 2 ^ (w * k) := by
        rw [← pow_add]; congr 1; ring
      simp only [bitcastToInt, List.getD_cons_succ]
      rw [hpow, ← Nat.div_div_eq_div_mul, hdiv]
      exact ih (fun y hy => hl y (List.mem_cons_of_mem _ hy)) k hk'

/-- C15: for a source vector of `w`-bit lanes, read as an integer with lane 0 in
the least-significant bits, and a constant shift amount `s` that is a multiple
of `w` with `s / w` below the lane count, `LegalizeGVNBitCastPattern` matches
the chain `lshr s; trunc to w bits` with the first shape and extracts the lane
`s / w` of the source, and the chain without shift at lane 0; the lane
extracted equals `trunc_w (lshr (bitcast v, s))`, the value the chain computed. -/
theorem LegalizeGVNBitCastPattern_extract (DL : DataLayout) (EltTy : ScalarTy) (w s : Nat)
    (lanes : List Nat) (hbits : EltTy.bits = w) (hl : ∀ x ∈ lanes, x < 2 ^ w)
    (hs : s % w = 0) (hidx : s / w < lanes.length)
    (hill : DL.isLegalInteger (w * lanes.length) = false) :
    LegalizeGVNBitCastPattern DL (.scalar (.int (w * lanes.length)))
        (.vector EltTy lanes.length)
        [.binaryOperator true 1 (some s) (.trunc ⟨w, 1, .other⟩), .trunc ⟨w, 1, .other⟩]
      = ⟨true, [some (.extractFromSource (s / w) false true),
                some (.extractFromSource 0 false false)]⟩
    ∧ lanes.getD (s / w) 0 = trunc w (lshr (bitcastToInt w lanes) s)
    ∧ lanes.getD 0 0 = trunc w (bitcastToInt w lanes) := by
  refine ⟨?_, ?_, ?_⟩
  · simp [LegalizeGVNBitCastPattern, hill, rewriteUser, match1, match1Trunc, hbits, hs]
  · have h := bitcastToInt_lane w lanes hl (s / w) hidx
    have hsw : w * (s / w) = s := Nat.mul_div_cancel' (Nat.dvd_of_mod_eq_zero hs)
    rw [hsw] at h
    simp only [trunc, lshr, Nat.shiftRight_eq_div_pow]
    exact h.symm
  · have h := bitcastToInt_lane w lanes hl 0 (Nat.lt_of_le_of_lt (Nat.zero_le _) hidx)
    simpa [trunc] using h.symm

/-- C15 on `<4 x i32> <1, 2, 3, 4>` bitcast to `i128`, shifted by 64 and truncated
to `i32`: lane 2. -/
theorem LegalizeGVNBitCastPattern_extract_witness :
    LegalizeGVNBitCastPattern ⟨[8, 16, 32]⟩ (.scalar (.int (32 * 4))) (.vector (.int 32) 4)
        [.binaryOperator true 1 (some 64) (.trunc ⟨32, 1, .other⟩), .trunc ⟨32, 1, .other⟩]
      = ⟨true, [some (.extractFromSource 2 false true),
                some (.extractFromSource 0 false false)]⟩
    ∧ (3 : Nat) = trunc 32 (lshr (bitcastToInt 32 [1, 2, 3, 4]) 64) :=
  ⟨(LegalizeGVNBitCastPattern_extract ⟨[8, 16, 32]⟩ (.int 32) 32 64 [1, 2, 3, 4]
      rfl (by decide) (by decide) (by decide) (by decide)).1,
    by decide⟩

/-- The first shape rejects a shift amount that is not a multiple of the lane
width. -/
theorem match1_shift_not_multiple (EltTy : ScalarTy) (isLShr : Bool) (numUses s : Nat)
    (userBack : BinOpUser) (h : s % EltTy.bits ≠ 0) :
    match1 EltTy (.binaryOperator isLShr numUses (some s) userBack) = none := by
  simp only [match1, h, ne_eq, not_false_eq_true, if_true]
  split <;> rfl

/-- The first shape rejects a truncation to a width other than the lane width. -/
theorem match1Trunc_width (EltTy : ScalarTy) (TI : TruncDesc) (hasBO : Bool) (Index : Nat)
    (h : TI.bits ≠ EltTy.bits) : match1Trunc EltTy TI hasBO Index = none := by
  unfold match1Trunc
  split
  · rfl
  · split
    · split
      · rfl
      · simp [h]
    · simp [h]

/-- C16 (amended): `LegalizeGVNBitCastPattern` rewrites nothing for a chain whose
constant shift amount is a multiple neither of the lane width of the source nor
of the truncated width; and nothing for a chain, with or without shift, whose
truncated width differs from the lane width, does not divide the width of the
wide integer, and is not followed by a bitcast to a vector read only by
`extractelement`s. -/
theorem rewriteUser_rejects (EltTy : ScalarTy) (srcSize : Nat)
    (isLShr : Bool) (numUses s : Nat) (TI : TruncDesc)
    (shAmt : Option Nat) (TI2 : TruncDesc)
    (hs1 : s % EltTy.bits ≠ 0) (hs2 : s % TI.bits ≠ 0)
    (hw1 : TI2.bits ≠ EltTy.bits) (hw2 : srcSize % TI2.bits ≠ 0)
    (hw3 : match2 (.trunc TI2) = none) :
    rewriteUser EltTy srcSize (.binaryOperator isLShr numUses (some s) (.trunc TI)) = none
      ∧ rewriteUser EltTy srcSize (.trunc TI2) = none
      ∧ rewriteUser EltTy srcSize (.binaryOperator isLShr numUses shAmt (.trunc TI2)) = none := by
  refine ⟨?_, ?_, ?_⟩
  · have h1 := match1_shift_not_multiple EltTy isLShr numUses s (.trunc TI) hs1
    have h3 : match3 srcSize (.binaryOperator isLShr numUses (some s) (.trunc TI)) = none := by
      simp only [match3, hs2, ne_eq, not_false_eq_true, if_true]
      split
      · rfl
      · split <;> rfl
    simp [rewriteUser, h1, match2, h3]
  · have h1 : match1 EltTy (.trunc TI2) = none := match1Trunc_width EltTy TI2 false 0 hw1
    have h3 : match3 srcSize (.trunc TI2) = none := by simp [match3, hw2]
    simp [rewriteUser, h1, hw3, h3]
  · have h1 : match1 EltTy (.binaryOperator isLShr numUses shAmt (.trunc TI2)) = none := by
      simp only [match1]
      split
      · rfl
      · cases shAmt with
        | none => rfl
        | some v =>
          simp only
          split
          · rfl
          · exact match1Trunc_width EltTy TI2 true _ hw1
    have h3 : match3 srcSize (.binaryOperator isLShr numUses shAmt (.trunc TI2)) = none := by
      simp only [match3, hw2, ne_eq, not_false_eq_true, if_true]
      split <;> rfl
    simp [rewriteUser, h1, match2, h3]

/-- C16 (amended) on `<4 x i32>` bitcast to `i128`: a shift by 12 before a
truncation to `i8`, and a truncation to `i24`. -/
theorem rewriteUser_rejects_witness :
    rewriteUser (.int 32) 128 (.binaryOperator true 1 (some 12) (.trunc ⟨8, 1, .other⟩)) = none
      ∧ rewriteUser (.int 32) 128 (.trunc ⟨24, 1, .other⟩) = none
      ∧ rewriteUser (.int 32) 128 (.binaryOperator true 1 (some 8) (.trunc ⟨24, 1, .other⟩))
          = none :=
  rewriteUser_rejects (.int 32) 128 true 1 12 ⟨8, 1, .other⟩ (some 8) ⟨24, 1, .other⟩
    (by decide) (by decide) (by decide) (by decide) (by decide)

/-- C16 as stated fails on the two other shapes.  On `<4 x i32>` bitcast to `i128`,
`lshr 8; trunc to i8` has a shift amount that is not a multiple of the lane
width 32 and a truncated width other than 32, and the third shape rewrites it
to lane 1 of `<16 x i8>`; on `<4 x float>`, `trunc to i96; bitcast to
<3 x float>` read by three `extractelement`s has a truncated width other than
32, and the second shape rewrites it. -/
theorem rewriteUser_other_shapes_counterexample :
    rewriteUser (.int 32) 128 (.binaryOperator true 1 (some 8) (.trunc ⟨8, 1, .other⟩))
        = some (.bitcastAndExtract 8 16 1 true)
      ∧ 8 % 32 ≠ 0 ∧ 8 ≠ 32
      ∧ rewriteUser (.fp 32) 128
          (.trunc ⟨96, 1, .bitcast (.vector (.fp 32) 3)
            [.extractElement 0, .extractElement 1, .extractElement 2]⟩)
        = some (.extractPerUser [0, 1, 2])
      ∧ 96 ≠ 32 := by
  decide

/-- C17 (amended): for a bitcast from a vector to an integer of illegal width none
of whose users matches one of the three shapes, `LegalizeGVNBitCastPattern`
touches nothing and returns `true`, so `GenOptLegalizer::visitBitCastInst`
sets `m_Changed`. -/
theorem LegalizeGVNBitCastPattern_no_match (DL : DataLayout) (dstBits : Nat)
    (EltTy : ScalarTy) (n : Nat) (users : List BitCastUser) (m_Changed : Bool)
    (hill : DL.isLegalInteger dstBits = false)
    (hnone : ∀ U ∈ users, match1 EltTy U = none ∧ match2 U = none
      ∧ match3 dstBits U = none) :
    LegalizeGVNBitCastPattern DL (.scalar (.int dstBits)) (.vector EltTy n) users
        = ⟨true, users.map (fun _ => none)⟩
      ∧ GenOptLegalizer.visitBitCastInst m_Changed DL (.scalar (.int dstBits))
          (.vector EltTy n) users = true := by
  have hmap : users.map (rewriteUser EltTy dstBits) = users.map (fun _ => none) := by
    apply List.map_congr_left
    intro U hU
    obtain ⟨h1, h2, h3⟩ := hnone U hU
    simp [rewriteUser, h1, h2, h3]
  have hres : LegalizeGVNBitCastPattern DL (.scalar (.int dstBits)) (.vector EltTy n) users
      = ⟨true, users.map (fun _ => none)⟩ := by
    simp [LegalizeGVNBitCastPattern, hill, hmap]
  exact ⟨hres, by simp [GenOptLegalizer.visitBitCastInst, hres]⟩

/-- C17 (amended) on `<4 x i32>` bitcast to `i128` whose only user is an `add`. -/
theorem LegalizeGVNBitCastPattern_no_match_witness :
    LegalizeGVNBitCastPattern ⟨[8, 16, 32]⟩ (.scalar (.int 128)) (.vector (.int 32) 4)
        [.binaryOperator false 1 (some 8) .other]
      = ⟨true, [none]⟩
    ∧ GenOptLegalizer.visitBitCastInst false ⟨[8, 16, 32]⟩ (.scalar (.int 128))
        (.vector (.int 32) 4) [.binaryOperator false 1 (some 8) .other] = true :=
  LegalizeGVNBitCastPattern_no_match ⟨[8, 16, 32]⟩ 128 (.int 32) 4
    [.binaryOperator false 1 (some 8) .other] false (by decide) (by decide)

/-- C17 as stated fails: for `<4 x i32>` bitcast to `i128` with one user that is
neither a shift nor a truncation, nothing is rewritten and the function returns
`true`, not `false`, and `GenOptLegalizer` reports a change. -/
theorem LegalizeGVNBitCastPattern_returns_true_counterexample :
    LegalizeGVNBitCastPattern ⟨[8, 16, 32]⟩ (.scalar (.int 128)) (.vector (.int 32) 4) [.other]
        = ⟨true, [none]⟩
      ∧ (LegalizeGVNBitCastPattern ⟨[8, 16, 32]⟩ (.scalar (.int 128)) (.vector (.int 32) 4)
          [.other]).ret ≠ false
      ∧ GenOptLegalizer.visitBitCastInst false ⟨[8, 16, 32]⟩ (.scalar (.int 128))
          (.vector (.int 32) 4) [.other] = true := by
  decide

namespace Legalization

/-! ### `LegalAllocaType` -/

mutual
/-- On a supported type `LegalAllocaType` returns a type of the same shape with
every one-bit integer outside a pointer replaced, and the type itself exactly
when there is no such integer. -/
theorem LegalAllocaType_spec (size : Nat) (hsize : size ≠ 1) :
    ∀ t : LType, t.supported = true →
      ∃ t', LegalAllocaType size t = some t' ∧ t.legalizedTo size t' = true
        ∧ (t' = t ↔ t.containsI1 = false)
  | .int bits, _ => by
    by_cases h : bits = 1
    · subst h
      refine ⟨.int size, by simp [LegalAllocaType], by simp [LType.legalizedTo], ?_⟩
      simp [LType.containsI1, hsize]
    · refine ⟨.int bits, by simp [LegalAllocaType, h], by simp [LType.legalizedTo, h], ?_⟩
      simp [LType.containsI1, h]
  | .half, _ => ⟨.half, rfl, rfl, by simp [LType.containsI1]⟩
  | .float, _ => ⟨.float, rfl, rfl, by simp [LType.containsI1]⟩
  | .double, _ => ⟨.double, rfl, rfl, by simp [LType.containsI1]⟩
  | .pointer p a, _ =>
    ⟨.pointer p a, rfl, by simp [LType.legalizedTo], by simp [LType.containsI1]⟩
  | .array elt n, h => by
    obtain ⟨e', h1, h2, h3⟩ := LegalAllocaType_spec size hsize elt (by simpa [LType.supported] using h)
    refine ⟨.array e' n, by simp [LegalAllocaType, h1], by simp [LType.legalizedTo, h2], ?_⟩
    simp only [LType.array.injEq, and_true, LType.containsI1]
    exact h3
  | .vector elt n, h => by
    obtain ⟨e', h1, h2, h3⟩ := LegalAllocaType_spec size hsize elt (by simpa [LType.supported] using h)
    refine ⟨.vector e' n, by simp [LegalAllocaType, h1], by simp [LType.legalizedTo, h2], ?_⟩
    simp only [LType.vector.injEq, and_true, LType.containsI1]
    exact h3
  | .struct name packed fields, h => by
    obtain ⟨fs', ill, h1, h2, h3, h4⟩ :=
      LegalStructElems_spec size hsize fields (by simpa [LType.supported] using h)
    cases hill : ill with
    | true =>
      have hc : fields.containsI1 = true := h4.mp hill
      refine ⟨.struct none false fs', by simp [LegalAllocaType, LegalStructAllocaType_result, h1, hill],
        by simp [LType.legalizedTo, h2], ?_⟩
      simp only [LType.struct.injEq, LType.containsI1, hc, Bool.true_eq_false, iff_false, not_and]
      intro _ _ hfs
      have := h3.mp hfs
      rw [hc] at this
      cases this
    | false =>
      have hc : fields.containsI1 = false := by
        cases hcc : fields.containsI1 with
        | false => rfl
        | true => have := h4.mpr hcc; rw [hill] at this; cases this
      have hfs : fs' = fields := h3.mpr hc
      refine ⟨.struct name packed fields,
        by simp [LegalAllocaType, LegalStructAllocaType_result, h1, hill], ?_, ?_⟩
      · rw [hfs] at h2
        simpa only [LType.legalizedTo] using h2
      · simp [LType.containsI1, hc]
  | .unsupported, h => by simp [LType.supported] at h
/-- On supported fields the loop of `LegalStructAllocaType` returns fields of the
same shape, the fields themselves exactly when none holds a one-bit integer,
and the flag exactly when one does. -/
theorem LegalStructElems_spec (size : Nat) (hsize : size ≠ 1) :
    ∀ ts : LTypes, ts.supported = true →
      ∃ ts' ill, LegalStructElems size ts = some (ts', ill) ∧ ts.legalizedTo size ts' = true
        ∧ (ts' = ts ↔ ts.containsI1 = false) ∧ (ill = true ↔ ts.containsI1 = true)
  | .nil, _ => ⟨.nil, false, rfl, rfl, by simp [LTypes.containsI1], by simp [LTypes.containsI1]⟩
  | .cons t ts, h => by
    have hs : t.supported = true ∧ ts.supported = true := by
      simpa [LTypes.supported] using h
    obtain ⟨t', h1, h2, h3⟩ := LegalAllocaType_spec size hsize t hs.1
    obtain ⟨ts', ill, g1, g2, g3, g4⟩ := LegalStructElems_spec size hsize ts hs.2
    refine ⟨.cons t' ts', decide (t' ≠ t) || ill, by simp [LegalStructElems, h1, g1],
      by simp [LTypes.legalizedTo, h2, g2], ?_, ?_⟩
    · simp only [LTypes.cons.injEq, LTypes.containsI1, Bool.or_eq_false_iff]
      rw [h3, g3]
    · simp only [Bool.or_eq_true, decide_eq_true_eq, LTypes.containsI1, g4]
      constructor
      · rintro (hne | hc)
        · left
          cases hcc : t.containsI1 with
          | true => rfl
          | false => exact absurd (h3.mpr hcc) hne
        · right; exact hc
      · rintro (hc | hc)
        · left
          intro heq
          have := h3.mp heq
          rw [hc] at this
          cases this
        · right; exact hc
end

/-- C18: for every type built from integers, half, float, double, pointers,
arrays, vectors and structs, `LegalAllocaType` returns a type of the same shape
(same array lengths, vector lane counts and struct field counts) in which every
one-bit integer outside a pointer type is replaced by the integer of its
allocation size and every other leaf is unchanged, and it returns the input
type itself exactly when the input holds no such one-bit integer. -/
theorem LegalAllocaType_shape (size : Nat) (t : LType) (hsize : size ≠ 1)
    (hsupp : t.supported = true) :
    ∃ t', LegalAllocaType size t = some t' ∧ t.legalizedTo size t' = true
      ∧ (t' = t ↔ t.containsI1 = false) :=
  LegalAllocaType_spec size hsize t hsupp

/-- C18 on the struct `{ i1, [4 x i1], float, i1* }` with an allocation size of 8
bits. -/
theorem LegalAllocaType_shape_witness :
    ∃ t', LegalAllocaType 8 (.struct (some 0) false
          (.cons (.int 1) (.cons (.array (.int 1) 4) (.cons .float
            (.cons (.pointer (.int 1) 0) .nil))))) = some t'
      ∧ LType.legalizedTo 8 (.struct (some 0) false
          (.cons (.int 1) (.cons (.array (.int 1) 4) (.cons .float
            (.cons (.pointer (.int 1) 0) .nil))))) t' = true
      ∧ (t' = (.struct (some 0) false
          (.cons (.int 1) (.cons (.array (.int 1) 4) (.cons .float
            (.cons (.pointer (.int 1) 0) .nil))))) ↔
          LType.containsI1 (.struct (some 0) false
            (.cons (.int 1) (.cons (.array (.int 1) 4) (.cons .float
              (.cons (.pointer (.int 1) 0) .nil))))) = false) :=
  LegalAllocaType_shape 8 _ (by decide) (by decide)

/-- Sample evaluations of `LegalAllocaType` with an allocation size of 8 bits. -/
theorem LegalAllocaType_examples :
    LegalAllocaType 8 (.struct (some 0) false
          (.cons (.int 1) (.cons (.array (.int 1) 4) (.cons .float
            (.cons (.pointer (.int 1) 0) .nil)))))
        = some (.struct none false
          (.cons (.int 8) (.cons (.array (.int 8) 4) (.cons .float
            (.cons (.pointer (.int 1) 0) .nil)))))
      ∧ LegalAllocaType 8 (.vector (.int 1) 4) = some (.vector (.int 8) 4)
      ∧ LegalAllocaType 8 (.struct (some 0) true (.cons (.int 32) (.cons .double .nil)))
        = some (.struct (some 0) true (.cons (.int 32) (.cons .double .nil)))
      ∧ LegalAllocaType 8 (.array .unsupported 2) = none := by
  decide

end Legalization

namespace Legalization

/-! ### `visitIntrinsicInst`: the unhandled overflow intrinsics -/

/-- The other cases of `visitIntrinsicInst` return: the unsigned add with its two
extracts replaced, `assume` recorded, a `floor` on `half` promoted, any other
intrinsic unchanged.  An unsigned add with a user that is no `extractvalue`
stops at the assertion in a build with assertions; with `NDEBUG` that user is
passed over. -/
theorem visitIntrinsicInst_examples :
    visitIntrinsicInst false true
        ⟨.uadd_with_overflow, false, 32, 0xFFFFFFFF, 1, [.extractValue 0, .extractValue 1]⟩
      = .returned ⟨[.res 0, .isOverflow true], true, false⟩
      ∧ visitIntrinsicInst false true ⟨.assume, false, 0, 0, 0, []⟩
        = .returned ⟨[], true, false⟩
      ∧ visitIntrinsicInst false false ⟨.floor, true, 0, 0, 0, []⟩
        = .returned ⟨[], false, true⟩
      ∧ visitIntrinsicInst false true ⟨.floor, true, 0, 0, 0, []⟩
        = .returned ⟨[], false, false⟩
      ∧ visitIntrinsicInst false false ⟨.other, true, 0, 0, 0, []⟩
        = .returned ⟨[], false, false⟩
      ∧ visitIntrinsicInst false true
          ⟨.uadd_with_overflow, false, 32, 0xFFFFFFFF, 1, [.notExtract, .extractValue 1]⟩
        = .assertFailed
      ∧ visitIntrinsicInst true true
          ⟨.uadd_with_overflow, false, 32, 0xFFFFFFFF, 1, [.notExtract, .extractValue 1]⟩
        = .returned ⟨[.isOverflow true], true, false⟩ := by
  decide

end Legalization

namespace Legalization

/-! ### `visitAlloca`: the recorded instructions and their users -/

/-- C20 fails on `%0 = alloca i1; %1 = icmp eq i1* %0, %q; ret i1 %1`:
`visitAlloca` creates the `i8` alloca `%3` and records the compare `%1` and the
alloca `%0`, while the compare is neither rewritten nor are its uses replaced;
the return `%2` still uses the recorded compare and is not recorded. -/
theorem visitAlloca_dead_user_live :
    visitAlloca 8 icmpOfAlloca 0
        = some ⟨[⟨3, .alloca (.int 8), []⟩, ⟨0, .alloca (.int 1), []⟩, ⟨1, .other, [0, 100]⟩,
            ⟨2, .other, [1]⟩], 4, [1, 0]⟩
      ∧ (visitAlloca 8 icmpOfAlloca 0).map (fun st => st.users 1) = some [2]
      ∧ (visitAlloca 8 icmpOfAlloca 0).map (fun st => st.dead.contains 2) = some false
      ∧ (visitAlloca 8 icmpOfAlloca 0).map (fun st => st.deadSetClosed) = some false := by
  decide

/-- Where every user of the alloca is a `gep`, a load, a store or a cast, the
recorded instructions have recorded users only: the uses of the old load and of
the old cast are replaced before they are recorded. -/
theorem visitAlloca_handled_users :
    visitAlloca 8 handledUsers 0
        = some ⟨[⟨7, .alloca (.array (.int 8) 4), []⟩, ⟨0, .alloca (.array (.int 1) 4), []⟩,
            ⟨8, .gep, [7, 200, 100]⟩, ⟨1, .gep, [0, 200, 100]⟩,
            ⟨9, .load true, [8]⟩, ⟨2, .load true, [1]⟩, ⟨10, .cast, [9]⟩,
            ⟨11, .cast, [101]⟩, ⟨12, .store true, [11, 8]⟩, ⟨3, .store true, [101, 1]⟩,
            ⟨13, .cast, [7]⟩, ⟨4, .cast, [0]⟩, ⟨5, .other, [13]⟩, ⟨6, .other, [10]⟩],
            14, [2, 3, 1, 4, 0]⟩
      ∧ (visitAlloca 8 handledUsers 0).map (fun st => st.deadSetClosed) = some true := by
  decide

end Legalization

namespace Legalization

/-! ### `unifyReturnInsts`: the unified return block -/

/-- The collected block numbers are exactly the numbers of the returning blocks. -/
theorem mem_returningBlocksFrom (blocks : List BasicBlock) :
    ∀ k i, i ∈ returningBlocksFrom k blocks ↔
      k ≤ i ∧ ∃ bb, blocks[i - k]? = some bb ∧ bb.isReturning = true := by
  induction blocks with
  | nil => intro k i; simp [returningBlocksFrom]
  | cons b bs ih =>
    intro k i
    have hshift : i ∈ returningBlocksFrom (k + 1) bs ↔
        k + 1 ≤ i ∧ ∃ bb, (b :: bs)[i - k]? = some bb ∧ bb.isReturning = true := by
      rw [ih (k + 1) i]
      constructor
      · rintro ⟨hle, bb, hb, hr⟩
        refine ⟨hle, bb, ?_, hr⟩
        have : i - k = (i - (k + 1)) + 1 := by omega
        rw [this, List.getElem?_cons_succ]
        exact hb
      · rintro ⟨hle, bb, hb, hr⟩
        refine ⟨hle, bb, ?_, hr⟩
        have : i - k = (i - (k + 1)) + 1 := by omega
        rw [this, List.getElem?_cons_succ] at hb
        exact hb
    unfold returningBlocksFrom
    by_cases hb : b.isReturning = true
    · simp only [hb, if_true, List.mem_cons, hshift]
      constructor
      · rintro (rfl | ⟨hle, h⟩)
        · exact ⟨le_refl _, b, by simp, hb⟩
        · exact ⟨by omega, h⟩
      · rintro ⟨hle, h⟩
        by_cases hik : i = k
        · exact Or.inl hik
        · exact Or.inr ⟨by omega, h⟩
    · simp only [hb, Bool.false_eq_true, if_false, hshift]
      constructor
      · rintro ⟨hle, h⟩
        exact ⟨by omega, h⟩
      · rintro ⟨hle, bb, hbb, hr⟩
        by_cases hik : i = k
        · subst hik
          simp only [Nat.sub_self, List.getElem?_cons_zero, Option.some.injEq] at hbb
          subst hbb
          exact absurd hr hb
        · exact ⟨by omega, bb, hbb, hr⟩

/-- There are as many collected block numbers as returning blocks. -/
theorem length_returningBlocksFrom_countP (blocks : List BasicBlock) :
    ∀ k, (returningBlocksFrom k blocks).length = blocks.countP BasicBlock.isReturning := by
  induction blocks with
  | nil => intro k; simp [returningBlocksFrom]
  | cons b bs ih =>
    intro k
    unfold returningBlocksFrom
    by_cases hb : b.isReturning = true
    · simp [hb, ih (k + 1), List.countP_cons]
    · simp [hb, ih (k + 1), List.countP_cons]

/-- The second loop of `unifyReturnInsts`: every visited block has its last
instruction replaced by a branch to the new block, every other block is as
before, and the phi gains one entry per visited block, in order, with the
operand of the return of that block. -/
theorem foldl_replaceReturn_spec (n : Nat) (hasPN : Bool) (is : List Nat) :
    ∀ (blocks : List BasicBlock) (inc : List (Option Value × Nat)),
      is.Nodup → (∀ i ∈ is, i < blocks.length) →
      (is.foldl (replaceReturn n hasPN) (blocks, inc)).1.length = blocks.length
        ∧ (∀ j, (is.foldl (replaceReturn n hasPN) (blocks, inc)).1[j]?
            = if j ∈ is then blocks[j]?.map (fun bb => ⟨bb.insts.dropLast ++ [.br n]⟩)
              else blocks[j]?)
        ∧ (is.foldl (replaceReturn n hasPN) (blocks, inc)).2
            = if hasPN then inc ++ is.map (fun i => (blocks[i]?.bind BasicBlock.returnOperand, i))
              else inc := by
  induction is with
  | nil => intro blocks inc _ _; simp
  | cons i rest ih =>
    intro blocks inc hnd hlt
    rw [List.nodup_cons] at hnd
    have hi : i < blocks.length := hlt i (List.mem_cons_self _ _)
    have hget : blocks[i]? = some blocks[i] := List.getElem?_eq_getElem hi
    have hstep : replaceReturn n hasPN (blocks, inc) i
        = (blocks.set i ⟨blocks[i].insts.dropLast ++ [.br n]⟩,
            if hasPN then inc ++ [(blocks[i].returnOperand, i)] else inc) := by
      simp [replaceReturn, hget]
    rw [List.foldl_cons, hstep]
    obtain ⟨h1, h2, h3⟩ := ih (blocks.set i ⟨blocks[i].insts.dropLast ++ [.br n]⟩)
      (if hasPN then inc ++ [(blocks[i].returnOperand, i)] else inc) hnd.2
      (by intro j hj; rw [List.length_set]; exact hlt j (List.mem_cons_of_mem _ hj))
    refine ⟨by rw [h1, List.length_set], ?_, ?_⟩
    · intro j
      rw [h2 j]
      by_cases hji : j = i
      · subst hji
        simp [hnd.1, hget, hi]
      · have hne : i ≠ j := fun h => hji h.symm
        simp only [List.mem_cons, hji, false_or, List.getElem?_set_ne hne]
    · rw [h3]
      have hmap : rest.map (fun k =>
            ((blocks.set i ⟨blocks[i].insts.dropLast ++ [.br n]⟩)[k]?.bind
              BasicBlock.returnOperand, k))
          = rest.map (fun k => (blocks[k]?.bind BasicBlock.returnOperand, k)) := by
        apply List.map_congr_left
        intro k hk
        have hne : i ≠ k := fun h => hnd.1 (h ▸ hk)
        rw [List.getElem?_set_ne hne]
      cases hasPN
      · simp
      · simp [hmap, hget]

/-- C24: for every function with at least two blocks that end in a return,
`unifyReturnInsts` adds one new block at the end; each original block that ends
in a return ends in an unconditional branch to the new block instead, and every
other block is unchanged; when the return type is not void the new block is a
phi with exactly one incoming entry per original returning block, whose value is
the operand of the return of that block, followed by the return of that phi;
when the return type is void the new block is a return of nothing. -/
theorem unifyReturnInsts_unified (F : Function)
    (h : 2 ≤ F.blocks.countP BasicBlock.isReturning) :
    (unifyReturnInsts F).returnsVoid = F.returnsVoid
      ∧ (unifyReturnInsts F).blocks.length = F.blocks.length + 1
      ∧ (∀ (i : Nat) (bb : BasicBlock), F.blocks[i]? = some bb →
          (unifyReturnInsts F).blocks[i]?
            = some (if bb.isReturning then ⟨bb.insts.dropLast ++ [.br F.blocks.length]⟩ else bb))
      ∧ (unifyReturnInsts F).blocks[F.blocks.length]?
          = some (if F.returnsVoid then ⟨[.ret none]⟩
              else ⟨[.phi ((returningBlocksFrom 0 F.blocks).map
                        (fun i => (F.blocks[i]?.bind BasicBlock.returnOperand, i))),
                     .ret (some (.inst F.blocks.length 0))]⟩)
      ∧ (returningBlocksFrom 0 F.blocks).Nodup
      ∧ (∀ i, i ∈ returningBlocksFrom 0 F.blocks ↔
          ∃ bb, F.blocks[i]? = some bb ∧ bb.isReturning = true) := by
  have hlen := length_returningBlocksFrom_countP F.blocks 0
  have hnd := (returningBlocksFrom_spec F.blocks 0).2
  have hmem : ∀ i, i ∈ returningBlocksFrom 0 F.blocks ↔
      ∃ bb, F.blocks[i]? = some bb ∧ bb.isReturning = true := by
    intro i
    rw [mem_returningBlocksFrom F.blocks 0 i]
    simp
  have hlt : ∀ i ∈ returningBlocksFrom 0 F.blocks, i < F.blocks.length := by
    intro i hi
    obtain ⟨bb, hb, _⟩ := (hmem i).mp hi
    exact (List.getElem?_eq_some_iff.mp hb).1
  obtain ⟨h1, h2, h3⟩ := foldl_replaceReturn_spec F.blocks.length (!F.returnsVoid)
    (returningBlocksFrom 0 F.blocks) F.blocks [] hnd hlt
  have hgt : ¬ (returningBlocksFrom 0 F.blocks).length ≤ 1 := by omega
  have hunfold : (unifyReturnInsts F)
      = { F with blocks :=
            ((returningBlocksFrom 0 F.blocks).foldl
              (replaceReturn F.blocks.length (!F.returnsVoid)) (F.blocks, [])).1
            ++ [if F.returnsVoid then ⟨[.ret none]⟩
                else ⟨[.phi ((returningBlocksFrom 0 F.blocks).foldl
                    (replaceReturn F.blocks.length (!F.returnsVoid)) (F.blocks, [])).2,
                  .ret (some (.inst F.blocks.length 0))]⟩] } := by
    unfold unifyReturnInsts
    simp only [hgt, if_false]
  rw [hunfold]
  refine ⟨rfl, by simp [h1], ?_, ?_, hnd, hmem⟩
  · intro i bb hb
    have hi : i < F.blocks.length := (List.getElem?_eq_some_iff.mp hb).1
    simp only
    rw [List.getElem?_append_left (by rw [h1]; exact hi), h2 i, hb]
    by_cases hr : bb.isReturning = true
    · have : i ∈ returningBlocksFrom 0 F.blocks := (hmem i).mpr ⟨bb, hb, hr⟩
      simp [this, hr]
    · have : i ∉ returningBlocksFrom 0 F.blocks := by
        intro hin
        obtain ⟨bb', hb', hr'⟩ := (hmem i).mp hin
        rw [hb] at hb'
        cases hb'
        exact hr hr'
      simp [this, hr]
  · simp only
    rw [List.getElem?_append_right (by rw [h1]), h1, Nat.sub_self, h3]
    cases F.returnsVoid <;> simp

/-- C24 on a function that returns a value from two of its three blocks. -/
theorem unifyReturnInsts_unified_witness :
    unifyReturnInsts ⟨false, [⟨[.other [], .condBr (.ext 0) 1 2]⟩, ⟨[.ret (some (.ext 1))]⟩,
        ⟨[.other [], .ret (some (.inst 2 0))]⟩]⟩
      = ⟨false, [⟨[.other [], .condBr (.ext 0) 1 2]⟩, ⟨[.br 3]⟩, ⟨[.other [], .br 3]⟩,
          ⟨[.phi [(some (.ext 1), 1), (some (.inst 2 0), 2)], .ret (some (.inst 3 0))]⟩]⟩
      ∧ (unifyReturnInsts ⟨false, [⟨[.other [], .condBr (.ext 0) 1 2]⟩,
          ⟨[.ret (some (.ext 1))]⟩, ⟨[.other [], .ret (some (.inst 2 0))]⟩]⟩).blocks.length
        = 3 + 1 :=
  ⟨by decide,
    (unifyReturnInsts_unified ⟨false, [⟨[.other [], .condBr (.ext 0) 1 2]⟩,
      ⟨[.ret (some (.ext 1))]⟩, ⟨[.other [], .ret (some (.inst 2 0))]⟩]⟩ (by decide)).2.1⟩

end Legalization

namespace IGC

/-! ### The expansion of `fdiv` in exact arithmetic -/

/-- The scale factor selected by `expandFDIVInstructions` is one of `2^32`,
`2^-32` and `1`. -/
theorem expandFDIV_Scale_mem (ybits : Nat) :
    expandFDIV_Scale ybits = 2 ^ 32 ∨ expandFDIV_Scale ybits = 1 / 2 ^ 32
      ∨ expandFDIV_Scale ybits = 1 := by
  simp only [expandFDIV_Scale]
  split_ifs <;> simp

/-- C25: evaluated in exact rational arithmetic, for every dividend `x`, every
divisor `y ≠ 0` and each of the three scale factors `S` in `2^32`, `2^-32`, `1`,
the scaled expansion `((1 / (y * S)) * x) * S` equals `x / y`, and the unscaled
expansion `(1 / y) * x` equals `x / y`; so does the value the expansion puts in
the place of the division, whichever path is taken. -/
theorem expandFDIV_exact (x y S : ℚ) (hy : y ≠ 0)
    (hS : S = 2 ^ 32 ∨ S = 1 / 2 ^ 32 ∨ S = 1) :
    expandFDIV_scaled S x y = x / y
      ∧ expandFDIV_unscaled x y = x / y
      ∧ ∀ (isHalfTy hasAllowReciprocal : Bool) (Yval : FValue) (ybits : Nat),
          expandFDIV_value isHalfTy hasAllowReciprocal Yval ybits x y = x / y := by
  have hscaled : ∀ s : ℚ, s ≠ 0 → expandFDIV_scaled s x y = x / y := by
    intro s hs
    simp only [expandFDIV_scaled]
    field_simp
    ring
  have hun : expandFDIV_unscaled x y = x / y := by
    simp only [expandFDIV_unscaled]
    field_simp
  have hS0 : S ≠ 0 := by
    rcases hS with h | h | h <;> rw [h] <;> norm_num
  refine ⟨hscaled S hS0, hun, ?_⟩
  intro isHalfTy hasAllowReciprocal Yval ybits
  have hsc : expandFDIV_Scale ybits ≠ 0 := by
    rcases expandFDIV_Scale_mem ybits with h | h | h <;> rw [h] <;> norm_num
  simp only [expandFDIV_value]
  split_ifs
  · exact hun
  · exact hun
  · exact hun
  · exact hscaled _ hsc

/-- C25 at `3 / 7` with the scale factor `2^32`. -/
theorem expandFDIV_exact_witness :
    expandFDIV_scaled (2 ^ 32) 3 7 = 3 / 7 ∧ expandFDIV_unscaled 3 7 = 3 / 7 :=
  ⟨(expandFDIV_exact 3 7 (2 ^ 32) (by norm_num) (Or.inl rfl)).1,
    (expandFDIV_exact 3 7 (2 ^ 32) (by norm_num) (Or.inl rfl)).2.1⟩

end IGC

namespace Legalization

/-! ### `visitAddrSpaceCastInst` -/

/-- C23: for an OpenCL function and an address-space cast whose source pointer is
in the local address space: to the generic address space from the constant
null, the result is the null of the destination type; to the generic address
space from a source that is not the constant null, when the implicit
local-memory base argument exists, the resulting address is
`(base + (source address mod 2^16)) mod 2^P` for the pointer width `P`; to an
address space that is neither generic nor 0, the result is the null of the
destination type; to address space 0 the cast is left unchanged. -/
theorem visitAddrSpaceCastInst_local (dstAS PtrSz : Nat) (Src : SrcPointer) (SLM : Option Nat) :
    (dstAS = ADDRESS_SPACE_GENERIC → Src = .constantNull →
        visitAddrSpaceCastInst true ADDRESS_SPACE_LOCAL dstAS Src SLM PtrSz = .null dstAS)
      ∧ (∀ address base, dstAS = ADDRESS_SPACE_GENERIC → Src = .value address →
          SLM = some base →
          visitAddrSpaceCastInst true ADDRESS_SPACE_LOCAL dstAS Src SLM PtrSz
            = .GASPtr ((base + address % 2 ^ 16) % 2 ^ PtrSz))
      ∧ (dstAS ≠ ADDRESS_SPACE_GENERIC → dstAS ≠ 0 →
          visitAddrSpaceCastInst true ADDRESS_SPACE_LOCAL dstAS Src SLM PtrSz = .null dstAS)
      ∧ (dstAS = 0 →
          visitAddrSpaceCastInst true ADDRESS_SPACE_LOCAL dstAS Src SLM PtrSz = .unchanged) := by
  refine ⟨?_, ?_, ?_, ?_⟩
  · rintro rfl rfl
    simp [visitAddrSpaceCastInst]
  · rintro address base rfl rfl rfl
    simp [visitAddrSpaceCastInst, zext, trunc, createAdd]
  · intro h1 h2
    simp [visitAddrSpaceCastInst, h1, h2]
  · rintro rfl
    simp [visitAddrSpaceCastInst, ADDRESS_SPACE_GENERIC]

/-- C23 on a cast of the local address `0x12345` to the generic address space
with the base `0xFFFF0000` and 32-bit pointers: the offset is `0x2345`. -/
theorem visitAddrSpaceCastInst_local_witness :
    visitAddrSpaceCastInst true ADDRESS_SPACE_LOCAL ADDRESS_SPACE_GENERIC (.value 0x12345)
        (some 0xFFFF0000) 32
      = .GASPtr ((0xFFFF0000 + 0x12345 % 2 ^ 16) % 2 ^ 32) :=
  (visitAddrSpaceCastInst_local ADDRESS_SPACE_GENERIC 32 (.value 0x12345)
    (some 0xFFFF0000)).2.1 0x12345 0xFFFF0000 rfl rfl rfl

/-- Sample runs of `visitAddrSpaceCastInst`: outside OpenCL, from another address
space and without the base argument the cast stays; a null is cast to null; a
cast to address space 1 becomes null; an address wraps around at the pointer
width. -/
theorem visitAddrSpaceCastInst_examples :
    visitAddrSpaceCastInst false 3 4 (.value 5) (some 0) 32 = .unchanged
      ∧ visitAddrSpaceCastInst true 1 4 (.value 5) (some 0) 32 = .unchanged
      ∧ visitAddrSpaceCastInst true 3 4 (.value 5) none 32 = .unchanged
      ∧ visitAddrSpaceCastInst true 3 4 .constantNull none 32 = .null 4
      ∧ visitAddrSpaceCastInst true 3 1 (.value 5) (some 0) 32 = .null 1
      ∧ visitAddrSpaceCastInst true 3 0 (.value 5) (some 0) 32 = .unchanged
      ∧ visitAddrSpaceCastInst true 3 4 (.value 0x12345) (some 0xFFFFFFFF) 32
          = .GASPtr 0x2344 := by
  decide

end Legalization

namespace Legalization

/-! ### `visitFCmpInst` under `FiniteMathOnly` -/

/-- C26 as stated fails when the option `preserve-nan` is set: with
`FiniteMathOnly`, `fcmp ord %0, %1` without fast-math flags is no NaN check, and
it gets the NaN-honouring expansion, not the flush-NaN rewrite. -/
theorem visitFCmpInst_preserve_nan_option_counterexample :
    isNanCheck ⟨.FCMP_ORD, .value 0, .value 1, false⟩ = false
      ∧ visitFCmpInst (runOnFunction_nanMode true (NanMode.init false)) true
          ⟨.FCMP_ORD, .value 0, .value 1, false⟩ = some .UndorderedPredicate := by
  decide

/-- C26 (amended): when the module metadata sets `FiniteMathOnly` and the option
`preserve-nan` is off or the compare carries the fast-math flags, for every
floating-point compare with an unordered, ORD or ONE predicate, `visitFCmpInst`
applies the NaN-honouring expansion if the compare is a NaN check
(`fcmp uno x, 0.0` or `fcmp une x, x`) and the flush-NaN rewrite otherwise. -/
theorem visitFCmpInst_finiteMathOnly (m : NanMode) (PreserveNan : Bool) (FC : FCmpInst)
    (hpred : FC.pred.isUnordered = true ∨ FC.pred = .FCMP_ORD ∨ FC.pred = .FCMP_ONE)
    (hopt : PreserveNan = false ∨ FC.isFast = true) :
    (runOnFunction_nanMode true m = ⟨false, true⟩)
      ∧ visitFCmpInst (runOnFunction_nanMode true m) PreserveNan FC
          = some (if isNanCheck FC then .UndorderedPredicate else .UndorderedFlushNan)
      ∧ (isNanCheck FC = true ↔
          (FC.pred = .FCMP_UNO ∧ FC.Op1.isZeroConstant = true)
            ∨ (FC.pred = .FCMP_UNE ∧ FC.Op0 = FC.Op1)) := by
  refine ⟨rfl, ?_, ?_⟩
  · have hp : (FC.pred.isUnordered || FC.pred == .FCMP_ORD || FC.pred == .FCMP_ONE) = true := by
      rcases hpred with h | h | h <;> simp [h]
    have ho : ((false || PreserveNan) && !FC.isFast) = false := by
      rcases hopt with h | h <;> simp [h]
    simp only [visitFCmpInst, runOnFunction_nanMode, if_true, hp, ho, Bool.true_and,
      Bool.false_eq_true, if_false]
    cases isNanCheck FC <;> simp
  · simp only [isNanCheck]
    by_cases h1 : FC.pred = .FCMP_UNO
    · simp [h1]
    · by_cases h2 : FC.pred = .FCMP_UNE
      · simp [h2]
      · simp [h1, h2]

/-- C26 (amended) on `fcmp uno %0, 0.0`, a NaN check, with the option off. -/
theorem visitFCmpInst_finiteMathOnly_witness :
    visitFCmpInst (runOnFunction_nanMode true (NanMode.init false)) false
        ⟨.FCMP_UNO, .value 0, .constFP 0 (some 0), false⟩
      = some (if isNanCheck ⟨.FCMP_UNO, .value 0, .constFP 0 (some 0), false⟩
          then .UndorderedPredicate else .UndorderedFlushNan) :=
  (visitFCmpInst_finiteMathOnly (NanMode.init false) false
    ⟨.FCMP_UNO, .value 0, .constFP 0 (some 0), false⟩ (Or.inl rfl) (Or.inl rfl)).2.1

/-- Sample runs of `visitFCmpInst` under `FiniteMathOnly` with the option off: a
NaN check is expanded, any other compare is flushed, an ordered compare is left
alone; `fcmp uno 0.0, %0` is no NaN check. -/
theorem visitFCmpInst_examples :
    visitFCmpInst ⟨false, true⟩ false ⟨.FCMP_UNO, .value 0, .constFP 0 (some 0), false⟩
        = some .UndorderedPredicate
      ∧ visitFCmpInst ⟨false, true⟩ false ⟨.FCMP_UNE, .value 0, .value 0, false⟩
        = some .UndorderedPredicate
      ∧ visitFCmpInst ⟨false, true⟩ false ⟨.FCMP_UNO, .constFP 0 (some 0), .value 0, false⟩
        = some .UndorderedFlushNan
      ∧ visitFCmpInst ⟨false, true⟩ false ⟨.FCMP_UGE, .value 0, .value 1, false⟩
        = some .UndorderedFlushNan
      ∧ visitFCmpInst ⟨false, true⟩ false ⟨.FCMP_OLT, .value 0, .value 1, false⟩ = none
      ∧ visitFCmpInst ⟨false, true⟩ true ⟨.FCMP_UGE, .value 0, .value 1, true⟩
        = some .UndorderedFlushNan := by
  decide

end Legalization

namespace Legalization

/-! ### `visitFCmpInstUndorderedPredicate` -/

/-- The inverse predicate is true exactly where the predicate is false. -/
theorem holds_getInversePredicate (p : FPredicate) (o : FOutcome) :
    (getInversePredicate p).holds o = !(p.holds o) := by
  cases p <;> cases o <;> decide

/-- A value compares equal to itself unless it is a NaN. -/
theorem fcmpOutcome_self (a : Option Int) :
    fcmpOutcome a a = if a.isSome then .equal else .unordered := by
  cases a <;> simp [fcmpOutcome]

/-- The outcome is unordered exactly when an operand is a NaN. -/
theorem fcmpOutcome_unordered (a b : Option Int) :
    fcmpOutcome a b = .unordered ↔ a = none ∨ b = none := by
  cases a <;> cases b <;> simp [fcmpOutcome]
  split_ifs <;> simp

/-- The `and` of the two self-compares is `fcmp ord`. -/
theorem addFCmpWithORD_eq (env : Nat → Option Int) (FC : FCmpInst) :
    addFCmpWithORD env FC = fcmp .FCMP_ORD (FC.Op0.eval env) (FC.Op1.eval env) := by
  simp only [addFCmpWithORD, fcmp, fcmpOutcome_self]
  cases h0 : FC.Op0.eval env <;> cases h1 : FC.Op1.eval env <;>
    simp [fcmpOutcome, FPredicate.holds]
  split_ifs <;> decide

/-- The value `addFCmpWithUNO` returns is `fcmp uno`. -/
theorem addFCmpWithUNO_eq (env : Nat → Option Int) (FC : FCmpInst) :
    addFCmpWithUNO env FC = fcmp .FCMP_UNO (FC.Op0.eval env) (FC.Op1.eval env) := by
  have hself : ∀ a : Option Int, fcmp .FCMP_UNE a a = !a.isSome := by
    intro a
    cases a <;> simp [fcmp, fcmpOutcome, FPredicate.holds]
  have huno : ∀ a b : Option Int, fcmp .FCMP_UNO a b = (!a.isSome || !b.isSome) := by
    intro a b
    cases a <;> cases b <;> simp [fcmp, fcmpOutcome, FPredicate.holds]
    split_ifs <;> decide
  simp only [addFCmpWithUNO, hself, huno]
  cases hO0 : FC.Op0 with
  | constFP k0 v0 =>
    cases hO1 : FC.Op1 with
    | constFP k1 v1 =>
      cases v0 <;> cases v1 <;>
        simp [FOperand.isConstantFP, FOperand.isNonNaNConstant, FOperand.eval]
    | value i1 =>
      cases v0 <;> simp [FOperand.isConstantFP, FOperand.isNonNaNConstant, FOperand.eval]
  | value i0 =>
    cases hO1 : FC.Op1 with
    | constFP k1 v1 =>
      cases v1 <;> simp [FOperand.isConstantFP, FOperand.isNonNaNConstant, FOperand.eval]
    | value i1 =>
      simp [FOperand.isConstantFP, FOperand.isNonNaNConstant, FOperand.eval]

/-- The value of `result` is the value of the compare it replaces. -/
theorem visitFCmpInstUndorderedPredicate_result_eq (env : Nat → Option Int) (FC : FCmpInst)
    (r : Bool) (h : visitFCmpInstUndorderedPredicate_result env FC = some r) :
    r = fcmp FC.pred (FC.Op0.eval env) (FC.Op1.eval env) := by
  have hinv : (!invertedOrderedInst env FC) = fcmp FC.pred (FC.Op0.eval env) (FC.Op1.eval env) := by
    simp [invertedOrderedInst, fcmp, holds_getInversePredicate]
  have hone : ∀ a b : Option Int,
      (fcmp .FCMP_ORD a b && fcmp .FCMP_UNE a b) = fcmp .FCMP_ONE a b := by
    intro a b
    simp only [fcmp]
    cases fcmpOutcome a b <;> decide
  have hueq : ∀ a b : Option Int,
      (fcmp .FCMP_UNO a b || fcmp .FCMP_OEQ a b) = fcmp .FCMP_UEQ a b := by
    intro a b
    simp only [fcmp]
    cases fcmpOutcome a b <;> decide
  cases hp : FC.pred <;>
    simp only [visitFCmpInstUndorderedPredicate_result, hp, Option.some.injEq, reduceCtorEq] at h
  · rw [← h, addFCmpWithORD_eq, hone]
  · rw [← h, addFCmpWithORD_eq]
  · rw [← h, addFCmpWithUNO_eq]
  · rw [← h, addFCmpWithUNO_eq, hueq]
  · rw [← h, hinv, hp]
  · rw [← h, hinv, hp]
  · rw [← h, hinv, hp]
  · rw [← h, hinv, hp]

/-- One round of the loop: a flip takes one flippable user away and changes
what no user yields; a `break` changes nothing. -/
theorem flipFirstUser_spec (fc res : Bool) (args : Nat → Nat) :
    ∀ (users users1 : List FCUser) (go : Bool), flipFirstUser users = some (users1, go) →
      users1.map (FCUser.exec fc res (!fc) args) = users.map (FCUser.exec fc res (!fc) args)
        ∧ (go = true → users1.countP FCUser.flippable + 1 = users.countP FCUser.flippable)
        ∧ (go = false → users1 = users) := by
  intro users
  induction users with
  | nil => intro users1 go h; simp [flipFirstUser] at h
  | cons u rest ih =>
    intro users1 go h
    by_cases hu : u.usesFC = true
    · simp only [flipFirstUser, hu, if_true] at h
      cases u with
      | select c t f =>
        cases c with
        | FC =>
          simp only [Option.some.injEq, Prod.mk.injEq] at h
          obtain ⟨rfl, rfl⟩ := h
          refine ⟨?_, ?_, by simp⟩
          · simp only [List.map_cons, List.cons.injEq, and_true, FCUser.exec, FCOperand.eval]
            cases fc <;> simp
          · intro _
            cases t <;> cases f <;> simp [List.countP_cons, FCUser.flippable]
        | result =>
          simp only [Option.some.injEq, Prod.mk.injEq] at h
          obtain ⟨rfl, rfl⟩ := h
          simp
        | invertedOrderedInst =>
          simp only [Option.some.injEq, Prod.mk.injEq] at h
          obtain ⟨rfl, rfl⟩ := h
          simp
        | arg n =>
          simp only [Option.some.injEq, Prod.mk.injEq] at h
          obtain ⟨rfl, rfl⟩ := h
          simp
      | condBr c t f =>
        have hc : c = .FC := by
          have : FCOperand.FC = c := by simpa [FCUser.usesFC, FCUser.operands] using hu
          exact this.symm
        subst hc
        simp only [Option.some.injEq, Prod.mk.injEq] at h
        obtain ⟨rfl, rfl⟩ := h
        refine ⟨?_, ?_, by simp⟩
        · simp only [List.map_cons, List.cons.injEq, and_true, FCUser.exec, FCOperand.eval]
          cases fc <;> simp
        · intro _
          simp [List.countP_cons, FCUser.flippable]
      | other ops =>
        simp only [Option.some.injEq, Prod.mk.injEq] at h
        obtain ⟨rfl, rfl⟩ := h
        simp
    · simp only [flipFirstUser, hu, Bool.false_eq_true, if_false] at h
      cases hr : flipFirstUser rest with
      | none => simp [hr] at h
      | some r =>
        obtain ⟨r1, g⟩ := r
        simp only [hr, Option.map_some', Option.some.injEq, Prod.mk.injEq] at h
        obtain ⟨rfl, rfl⟩ := h
        obtain ⟨h1, h2, h3⟩ := ih r1 g hr
        refine ⟨by simp [h1], ?_, ?_⟩
        · intro hg
          have := h2 hg
          simp only [List.countP_cons]
          omega
        · intro hg
          rw [h3 hg]

/-- When no round is left to do, no instruction uses the compare. -/
theorem flipFirstUser_none (users : List FCUser) (h : flipFirstUser users = none) :
    ∀ u ∈ users, u.usesFC = false := by
  induction users with
  | nil => intro u hu; simp at hu
  | cons u rest ih =>
    by_cases hu : u.usesFC = true
    · simp only [flipFirstUser, hu, if_true] at h
      cases u with
      | select c t f => cases c <;> simp at h
      | condBr c t f => simp at h
      | other ops => simp at h
    · simp only [flipFirstUser, hu, Bool.false_eq_true, if_false, Option.map_eq_none'] at h
      intro x hx
      rcases List.mem_cons.mp hx with rfl | hx
      · simpa using hu
      · exact ih h x hx

/-- The loop ends within one round more than there are flippable users, and
changes what no user yields. -/
theorem flipFCmpLoop_spec (fc res : Bool) (args : Nat → Nat) :
    ∀ (fuel : Nat) (users : List FCUser), users.countP FCUser.flippable < fuel →
      ∃ r, flipFCmpLoop fuel users = some r
        ∧ r.map (FCUser.exec fc res (!fc) args) = users.map (FCUser.exec fc res (!fc) args) := by
  intro fuel
  induction fuel with
  | zero => intro users h; omega
  | succ n ih =>
    intro users h
    cases hf : flipFirstUser users with
    | none => exact ⟨users, by simp [flipFCmpLoop, hf], rfl⟩
    | some r =>
      obtain ⟨users1, go⟩ := r
      obtain ⟨h1, h2, h3⟩ := flipFirstUser_spec fc res args users users1 go hf
      cases go with
      | true =>
        have hlt : users1.countP FCUser.flippable < n := by
          have := h2 rfl
          omega
        obtain ⟨r, hr1, hr2⟩ := ih users1 hlt
        exact ⟨r, by simp [flipFCmpLoop, hf, hr1], by rw [hr2, h1]⟩
      | false => exact ⟨users1, by simp [flipFCmpLoop, hf], h1⟩

/-- Replacing the uses of the compare by a value with the same truth value
changes what no user yields, and leaves no use of the compare. -/
theorem replaceAllUsesWith_spec (fc inv : Bool) (args : Nat → Nat) (u : FCUser) :
    u.replaceAllUsesWith.exec fc fc inv args = u.exec fc fc inv args
      ∧ u.replaceAllUsesWith.usesFC = false := by
  have hop : ∀ o : FCOperand,
      FCOperand.eval fc fc inv args (if o = .FC then .result else o)
        = FCOperand.eval fc fc inv args o := by
    intro o
    cases o <;> simp [FCOperand.eval]
  have hne : ∀ o : FCOperand, (if o = .FC then FCOperand.result else o) ≠ .FC := by
    intro o
    cases o <;> simp
  cases u with
  | select c t f =>
    refine ⟨by simp only [FCUser.replaceAllUsesWith, FCUser.exec, hop], ?_⟩
    simp only [FCUser.replaceAllUsesWith, FCUser.usesFC, FCUser.operands]
    have h1 := hne c
    have h2 := hne t
    have h3 := hne f
    simp only [List.contains_cons, List.contains_nil, Bool.or_false, Bool.or_eq_false_iff,
      beq_eq_false_iff_ne, ne_eq]
    exact ⟨fun h => h1 h.symm, fun h => h2 h.symm, fun h => h3 h.symm⟩
  | condBr c t f =>
    refine ⟨by simp only [FCUser.replaceAllUsesWith, FCUser.exec, hop], ?_⟩
    simp only [FCUser.replaceAllUsesWith, FCUser.usesFC, FCUser.operands]
    have h1 := hne c
    simp only [List.contains_cons, List.contains_nil, Bool.or_false, beq_eq_false_iff_ne, ne_eq]
    exact fun h => h1 h.symm
  | other ops =>
    refine ⟨?_, ?_⟩
    · simp only [FCUser.replaceAllUsesWith, FCUser.exec, List.map_map]
      congr 1
      apply List.map_congr_left
      intro o _
      exact hop o
    · simp only [FCUser.replaceAllUsesWith, FCUser.usesFC, FCUser.operands]
      rw [Bool.eq_false_iff]
      intro hc
      rw [List.contains_iff_exists_mem_beq] at hc
      obtain ⟨x, hx, hxe⟩ := hc
      obtain ⟨o, _, rfl⟩ := List.mem_map.mp hx
      have hxe2 : FCOperand.FC = (if o = .FC then FCOperand.result else o) := by simpa using hxe
      exact hne o hxe2.symm

/-- C30: in NaN-preserving mode, for every pair of operands, NaN included, and
each of the predicates ORD, UNO, ONE, UEQ, UGE, UGT, ULE, ULT, the value that
`visitFCmpInstUndorderedPredicate` substitutes equals the original compare:
`result` exists and has the value of the compare (ORD as the `and` of the two
`oeq` self-compares, UNO through `addFCmpWithUNO`, ONE as ORD and `une`, UEQ as
UNO or `oeq`, and the last four as the negation of the compare with the inverse
predicate), the loop over the users ends, no user uses the compare afterwards,
and every user yields what it yielded before, also where the negation is
realised by flipping a select or a branch. -/
theorem visitFCmpInstUndorderedPredicate_preserves (env : Nat → Option Int) (FC : FCmpInst)
    (users : List FCUser) (args : Nat → Nat)
    (hp : FC.pred ∈ [FPredicate.FCMP_ORD, .FCMP_UNO, .FCMP_ONE, .FCMP_UEQ, .FCMP_UGE,
      .FCMP_UGT, .FCMP_ULE, .FCMP_ULT]) :
    visitFCmpInstUndorderedPredicate_result env FC
        = some (fcmp FC.pred (FC.Op0.eval env) (FC.Op1.eval env))
      ∧ invertedOrderedInst env FC = !(fcmp FC.pred (FC.Op0.eval env) (FC.Op1.eval env))
      ∧ ∃ r, visitFCmpInstUndorderedPredicate_users (users.length + 1) FC.pred users = some r
          ∧ (∀ u ∈ r, u.usesFC = false)
          ∧ r.map (FCUser.exec (fcmp FC.pred (FC.Op0.eval env) (FC.Op1.eval env))
                (fcmp FC.pred (FC.Op0.eval env) (FC.Op1.eval env))
                (invertedOrderedInst env FC) args)
              = users.map (FCUser.exec (fcmp FC.pred (FC.Op0.eval env) (FC.Op1.eval env))
                (fcmp FC.pred (FC.Op0.eval env) (FC.Op1.eval env))
                (invertedOrderedInst env FC) args) := by
  have hinv : invertedOrderedInst env FC = !(fcmp FC.pred (FC.Op0.eval env) (FC.Op1.eval env)) := by
    simp [invertedOrderedInst, fcmp, holds_getInversePredicate]
  have hres : visitFCmpInstUndorderedPredicate_result env FC
      = some (fcmp FC.pred (FC.Op0.eval env) (FC.Op1.eval env)) := by
    cases hr : visitFCmpInstUndorderedPredicate_result env FC with
    | none =>
      simp only [List.mem_cons, List.mem_singleton, List.not_mem_nil, or_false] at hp
      rcases hp with h | h | h | h | h | h | h | h <;>
        simp [visitFCmpInstUndorderedPredicate_result, h] at hr
    | some r => rw [visitFCmpInstUndorderedPredicate_result_eq env FC r hr]
  have hrauw : ∀ us : List FCUser,
      (∀ u ∈ us.map FCUser.replaceAllUsesWith, u.usesFC = false)
        ∧ (us.map FCUser.replaceAllUsesWith).map
            (FCUser.exec (fcmp FC.pred (FC.Op0.eval env) (FC.Op1.eval env))
              (fcmp FC.pred (FC.Op0.eval env) (FC.Op1.eval env))
              (invertedOrderedInst env FC) args)
          = us.map (FCUser.exec (fcmp FC.pred (FC.Op0.eval env) (FC.Op1.eval env))
              (fcmp FC.pred (FC.Op0.eval env) (FC.Op1.eval env))
              (invertedOrderedInst env FC) args) := by
    intro us
    refine ⟨?_, ?_⟩
    · intro u hu
      obtain ⟨x, _, rfl⟩ := List.mem_map.mp hu
      exact (replaceAllUsesWith_spec false false args x).2
    · rw [List.map_map]
      apply List.map_congr_left
      intro x _
      exact (replaceAllUsesWith_spec _ _ args x).1
  have hloop : ∃ r, flipFCmpLoop (users.length + 1) users = some r
      ∧ r.map (FCUser.exec (fcmp FC.pred (FC.Op0.eval env) (FC.Op1.eval env))
            (fcmp FC.pred (FC.Op0.eval env) (FC.Op1.eval env))
            (invertedOrderedInst env FC) args)
          = users.map (FCUser.exec (fcmp FC.pred (FC.Op0.eval env) (FC.Op1.eval env))
            (fcmp FC.pred (FC.Op0.eval env) (FC.Op1.eval env))
            (invertedOrderedInst env FC) args) := by
    rw [hinv]
    exact flipFCmpLoop_spec _ _ args (users.length + 1) users
      (Nat.lt_succ_of_le (List.countP_le_length _))
  refine ⟨hres, hinv, ?_⟩
  have hdirect : ∃ r, some (users.map FCUser.replaceAllUsesWith) = some r
      ∧ (∀ u ∈ r, u.usesFC = false)
      ∧ r.map (FCUser.exec (fcmp FC.pred (FC.Op0.eval env) (FC.Op1.eval env))
            (fcmp FC.pred (FC.Op0.eval env) (FC.Op1.eval env))
            (invertedOrderedInst env FC) args)
          = users.map (FCUser.exec (fcmp FC.pred (FC.Op0.eval env) (FC.Op1.eval env))
            (fcmp FC.pred (FC.Op0.eval env) (FC.Op1.eval env))
            (invertedOrderedInst env FC) args) :=
    ⟨_, rfl, (hrauw users).1, (hrauw users).2⟩
  have hflip : ∃ r, (flipFCmpLoop (users.length + 1) users).map
        (fun us => us.map FCUser.replaceAllUsesWith) = some r
      ∧ (∀ u ∈ r, u.usesFC = false)
      ∧ r.map (FCUser.exec (fcmp FC.pred (FC.Op0.eval env) (FC.Op1.eval env))
            (fcmp FC.pred (FC.Op0.eval env) (FC.Op1.eval env))
            (invertedOrderedInst env FC) args)
          = users.map (FCUser.exec (fcmp FC.pred (FC.Op0.eval env) (FC.Op1.eval env))
            (fcmp FC.pred (FC.Op0.eval env) (FC.Op1.eval env))
            (invertedOrderedInst env FC) args) := by
    obtain ⟨r, hr1, hr2⟩ := hloop
    exact ⟨_, by rw [hr1]; rfl, (hrauw r).1, by rw [(hrauw r).2, hr2]⟩
  simp only [List.mem_cons, List.mem_singleton, List.not_mem_nil, or_false] at hp
  rcases hp with h | h | h | h | h | h | h | h <;>
    simp only [visitFCmpInstUndorderedPredicate_users, h] <;>
    first
      | (rw [h] at hdirect; exact hdirect)
      | (rw [h] at hflip; exact hflip)

/-- C30 on `fcmp uge %0, %1` with `%0` a NaN, used by a select as condition and
as data operand, by a branch and by another instruction. -/
theorem visitFCmpInstUndorderedPredicate_preserves_witness :
    visitFCmpInstUndorderedPredicate_result (fun i => if i = 0 then none else some 1)
        ⟨.FCMP_UGE, .value 0, .value 1, false⟩ = some true
      ∧ visitFCmpInstUndorderedPredicate_users 4 .FCMP_UGE
          [.condBr .FC 1 2, .select .FC .FC (.arg 0), .other [.FC]]
        = some [.condBr .invertedOrderedInst 2 1,
            .select .invertedOrderedInst (.arg 0) .result, .other [.result]] :=
  ⟨(visitFCmpInstUndorderedPredicate_preserves (fun i => if i = 0 then none else some 1)
      ⟨.FCMP_UGE, .value 0, .value 1, false⟩ [] (fun _ => 0) (by decide)).1.trans (by decide),
    by decide⟩

end Legalization

namespace Legalization

/-! ### `visitSelectInst`: vectors -/

/-- After `k` rounds the first `k` lanes of `newVec` hold their selects. -/
theorem visitSelectInst_vector_rounds (n : Nat) (cond : SelectCond) (T F : List Nat) :
    ∀ k, k ≤ n →
      ((List.range k).foldl (visitSelectInst_vectorLane cond T F)
          (List.replicate n none)).length = n
        ∧ ∀ i, i < k →
            ((List.range k).foldl (visitSelectInst_vectorLane cond T F)
                (List.replicate n none))[i]?
              = some (CreateSelect (cond.condVal i) T[i]? F[i]?) := by
  intro k
  induction k with
  | zero => intro _; simp
  | succ k ih =>
    intro hk
    obtain ⟨hlen, hl⟩ := ih (by omega)
    rw [List.range_succ, List.foldl_append]
    simp only [List.foldl_cons, List.foldl_nil]
    refine ⟨by simp [visitSelectInst_vectorLane, hlen], ?_⟩
    intro i hi
    by_cases hik : i = k
    · subst hik
      simp only [visitSelectInst_vectorLane]
      rw [List.getElem?_set_self (by rw [hlen]; omega)]
    · simp only [visitSelectInst_vectorLane]
      rw [List.getElem?_set_ne (fun h => hik h.symm)]
      exact hl i (by omega)

/-- C27: for every select whose result is an `n`-lane vector, `visitSelectInst`
produces a vector of `n` lanes whose lane `i`, for every `i < n`, equals
`select(c_i, t_i, f_i)`, where `t_i` and `f_i` are lane `i` of the true and
false operands and `c_i` is lane `i` of the condition when the condition is a
vector and the scalar condition itself otherwise. -/
theorem visitSelectInst_vector_lanes (n : Nat) (cond : SelectCond) (T F : List Nat)
    (hT : T.length = n) (hF : F.length = n)
    (hc : ∀ lanes, cond = .vector lanes → lanes.length = n) :
    (∀ ForceDPEmulation supportFP64,
        visitSelectInst_case (.vector n) ForceDPEmulation supportFP64 = .vector n)
      ∧ (visitSelectInst_vector n cond T F).length = n
      ∧ ∀ i, i < n → ∃ c t f,
          (match cond with
            | .scalar s => s = c
            | .vector lanes => lanes[i]? = some c)
          ∧ T[i]? = some t ∧ F[i]? = some f
          ∧ (visitSelectInst_vector n cond T F)[i]? = some (some (if c then t else f)) := by
  obtain ⟨hlen, hl⟩ := visitSelectInst_vector_rounds n cond T F n (le_refl _)
  refine ⟨by intro a b; simp [visitSelectInst_case], hlen, ?_⟩
  intro i hi
  have ht : T[i]? = some T[i] := List.getElem?_eq_getElem (by omega)
  have hf : F[i]? = some F[i] := List.getElem?_eq_getElem (by omega)
  cases cond with
  | scalar s =>
    refine ⟨s, T[i], F[i], rfl, ht, hf, ?_⟩
    simp only [visitSelectInst_vector]
    rw [hl i hi, ht, hf]
    rfl
  | vector lanes =>
    have hcl : lanes.length = n := hc lanes rfl
    have hci : lanes[i]? = some lanes[i] := List.getElem?_eq_getElem (by omega)
    refine ⟨lanes[i], T[i], F[i], hci, ht, hf, ?_⟩
    simp only [visitSelectInst_vector]
    rw [hl i hi, ht, hf]
    simp only [SelectCond.condVal, hci]
    rfl

/-- C27 on `select <3 x i1> <1, 0, 1>, <10, 20, 30>, <11, 21, 31>` and on the same
operands under the scalar condition `false`. -/
theorem visitSelectInst_vector_lanes_witness :
    (visitSelectInst_vector 3 (.vector [true, false, true]) [10, 20, 30] [11, 21, 31]).length = 3
      ∧ visitSelectInst_vector 3 (.vector [true, false, true]) [10, 20, 30] [11, 21, 31]
          = [some 10, some 21, some 30]
      ∧ visitSelectInst_vector 3 (.scalar false) [10, 20, 30] [11, 21, 31]
          = [some 11, some 21, some 31] :=
  ⟨(visitSelectInst_vector_lanes 3 (.vector [true, false, true]) [10, 20, 30] [11, 21, 31]
      rfl rfl (by intro lanes h; cases h; rfl)).2.1, by decide, by decide⟩

end Legalization

namespace Legalization

/-! ### `visitBinaryOperator`: a select that uses the instruction twice -/

/-- One round of the loop on a body in which the select `%3` is the only user of
`%2`. -/
theorem flipLoop_succ_of_users (I : Nat) (invert : Operand) (fuel : Nat) (F : Body)
    (U : Nat × Instr) (rest : List (Nat × Instr)) (h : F.users I = U :: rest) :
    flipLoop I invert (fuel + 1) F
      = flipLoop I invert fuel
          (F.map (fun p => if p.1 = U.1 then (p.1, flipUser invert p.2) else p)) := by
  simp only [flipLoop, h]

/-- From the second round on the select of `selectOfItself` swings between two
forms, in both of which it still uses `%2`: the loop has not ended after any
number of rounds. -/
theorem flipLoop_selectOfItself_swings :
    ∀ fuel, flipLoop 2 (.inst 4) fuel selectOfItself_loop1 = none
      ∧ flipLoop 2 (.inst 4) fuel selectOfItself_loop2 = none := by
  intro fuel
  induction fuel with
  | zero => exact ⟨rfl, rfl⟩
  | succ n ih =>
    constructor
    · rw [flipLoop_succ_of_users 2 (.inst 4) n selectOfItself_loop1
        (3, .select (.inst 4) (.arg 2) (.inst 2)) [] (by decide)]
      have : selectOfItself_loop1.map
          (fun p => if p.1 = 3 then (p.1, flipUser (.inst 4) p.2) else p)
          = selectOfItself_loop2 := by decide
      rw [this]
      exact ih.2
    · rw [flipLoop_succ_of_users 2 (.inst 4) n selectOfItself_loop2
        (3, .select (.inst 4) (.inst 2) (.arg 2)) [] (by decide)]
      have : selectOfItself_loop2.map
          (fun p => if p.1 = 3 then (p.1, flipUser (.inst 4) p.2) else p)
          = selectOfItself_loop1 := by decide
      rw [this]
      exact ih.1

/-- C28 fails on `%2 = and %0, %1; %3 = select %2, %2, %x` with `%0`, `%1` two
negations used once: every user of `%2` is a select with `%2` as condition, so
the flippable check passes, but each round of the loop leaves `%2` as a data
operand of the select, and the loop has not ended after any number of rounds. -/
theorem visitBinaryOperator_AndOr_select_of_itself :
    (selectOfItself.users 2).all (fun U => flippableUser 2 U.2) = true
      ∧ ∀ fuel, flipLoop 2 (.inst 4) fuel selectOfItself_loop0 = none
          ∧ visitBinaryOperator_AndOr fuel selectOfItself 2 = none := by
  refine ⟨by decide, ?_⟩
  intro fuel
  have hloop : flipLoop 2 (.inst 4) fuel selectOfItself_loop0 = none := by
    cases fuel with
    | zero => rfl
    | succ n =>
      rw [flipLoop_succ_of_users 2 (.inst 4) n selectOfItself_loop0
        (3, .select (.inst 2) (.inst 2) (.arg 2)) [] (by decide)]
      have : selectOfItself_loop0.map
          (fun p => if p.1 = 3 then (p.1, flipUser (.inst 4) p.2) else p)
          = selectOfItself_loop1 := by decide
      rw [this]
      exact (flipLoop_selectOfItself_swings n).1
  refine ⟨hloop, ?_⟩
  have hvisit : visitBinaryOperator_AndOr fuel selectOfItself 2
      = (match flipLoop 2 (.inst 4) fuel selectOfItself_loop0 with
          | some F2 => some (((F2.erase 2).erase 0).erase 1)
          | none => none) := by
    rfl
  rw [hvisit, hloop]

end Legalization

namespace Legalization

/-! ### `visitICmpInst`: both rewrites on one compare -/

/-- C29 fails on `%t = trunc i32 %x to i1; %c = icmp ne i1 %t, false` under the
data layout `n8:16:32`: the one-bit rewrite replaces and erases the compare,
and since `i1` is not a legal integer there, operand 0 is a trunc and operand 1
a constant, the second rewrite is applied to the erased compare as well.  Under
a layout with `i1` legal only the first rewrite runs, and on a compare of `i28`
only the second. -/
theorem visitICmpInst_both_rewrites :
    visitICmpInst_steps ⟨[8, 16, 32]⟩ ⟨some 1, true, true⟩
        = [⟨.oneBit, false⟩, ⟨.truncConstant, true⟩]
      ∧ DataLayout.isIllegalInteger ⟨[8, 16, 32]⟩ 1 = true
      ∧ visitICmpInst_steps ⟨[1, 8, 16, 32]⟩ ⟨some 1, true, true⟩ = [⟨.oneBit, false⟩]
      ∧ visitICmpInst_steps ⟨[8, 16, 32]⟩ ⟨some 28, true, true⟩ = [⟨.truncConstant, false⟩]
      ∧ visitICmpInst_steps ⟨[8, 16, 32]⟩ ⟨some 1, false, true⟩ = [⟨.oneBit, false⟩] := by
  decide

/-- The second rewrite runs on an erased compare exactly when the compare is
one-bit, `i1` is not a legal integer, operand 0 is a trunc and operand 1 a
constant integer. -/
theorem visitICmpInst_steps_onErased (DL : DataLayout) (IC : ICmpInst) :
    (⟨.truncConstant, true⟩ : ICmpStep) ∈ visitICmpInst_steps DL IC ↔
      IC.Ty = some 1 ∧ DL.isLegalInteger 1 = false ∧ IC.Op0IsTruncInst = true
        ∧ IC.Op1IsConstantInt = true := by
  obtain ⟨ty, t, c⟩ := IC
  cases ty with
  | none => simp [visitICmpInst_steps]
  | some w =>
    by_cases hw : w = 1
    · subst hw
      cases hl : DL.isLegalInteger 1 <;> cases t <;> cases c <;>
        simp [visitICmpInst_steps, DataLayout.isIllegalInteger, hl]
    · cases hl : DL.isLegalInteger w <;> cases t <;> cases c <;>
        simp [visitICmpInst_steps, DataLayout.isIllegalInteger, hl, hw]

end Legalization

namespace Legalization

/-! ### The walk: what it leaves behind -/

/-- C21 fails on `%0 = load i1, i1* %p; store i1 %0, i1* %q; ret void`: the walk
replaces the store of the `i1` by a store of an `i8` and erases it, and it
replaces the uses of the load by the truncation `%5` of a new `i8` load, but
the load of the `i1` itself stays in the function. -/
theorem legalizationWalk_leaves_load_of_i1 :
    legalizationWalk loadStoreOfI1
        = ⟨[⟨3, .cast, [.arg 0]⟩, ⟨4, .load false, [.inst 3]⟩, ⟨5, .cast, [.inst 4]⟩,
            ⟨0, .load true, [.arg 0]⟩,
            ⟨6, .cast, [.inst 5]⟩, ⟨7, .cast, [.arg 1]⟩, ⟨8, .store false, [.inst 6, .inst 7]⟩,
            ⟨2, .other, []⟩], 9, []⟩
      ∧ (legalizationWalk loadStoreOfI1).hasStoreOfI1 = false
      ∧ (legalizationWalk loadStoreOfI1).hasLoadOfI1 = true := by
  decide

/-- C22 fails on the same body and on an insertion into a constant vector: the
load of the `i1` and the insertion into the constant are left in the output of
the first walk, without uses, and the second walk rewrites them again, so it
creates three and three more instructions. -/
theorem legalizationWalk_second_run_changes :
    legalizationWalk (legalizationWalk loadStoreOfI1) ≠ legalizationWalk loadStoreOfI1
      ∧ (legalizationWalk (legalizationWalk loadStoreOfI1)).insts.length
          = (legalizationWalk loadStoreOfI1).insts.length + 3
      ∧ legalizationWalk insertIntoConstant
          = ⟨[⟨2, .insertelement, [.undef, .constInt 7, .constInt 0]⟩,
              ⟨3, .insertelement, [.inst 2, .constInt 9, .constInt 1]⟩,
              ⟨4, .insertelement, [.inst 3, .arg 0, .constInt 0]⟩,
              ⟨0, .insertelement, [.constantDataVector [7, 9], .arg 0, .constInt 0]⟩,
              ⟨1, .other, [.inst 4]⟩], 5, []⟩
      ∧ legalizationWalk (legalizationWalk insertIntoConstant)
          ≠ legalizationWalk insertIntoConstant
      ∧ (legalizationWalk (legalizationWalk insertIntoConstant)).insts.length
          = (legalizationWalk insertIntoConstant).insts.length + 3 := by
  decide

/-- Where nothing of the model's rules applies the walk changes nothing: a load
and a store of wider values and an insertion into `undef`. -/
theorem legalizationWalk_fixed_examples :
    legalizationWalk ⟨[⟨0, .load false, [.arg 0]⟩, ⟨1, .store false, [.inst 0, .arg 1]⟩,
        ⟨2, .insertelement, [.undef, .inst 0, .constInt 0]⟩, ⟨3, .other, [.inst 2]⟩], 4, []⟩
      = ⟨[⟨0, .load false, [.arg 0]⟩, ⟨1, .store false, [.inst 0, .arg 1]⟩,
        ⟨2, .insertelement, [.undef, .inst 0, .constInt 0]⟩, ⟨3, .other, [.inst 2]⟩], 4, []⟩ := by
  decide

end Legalization

namespace Legalization

/-! ### `LegalAllocaType` is idempotent -/

mutual
/-- On a supported type `LegalAllocaType` returns a type. -/
theorem LegalAllocaType_isSome (size : Nat) :
    ∀ t : LType, t.supported = true → ∃ t', LegalAllocaType size t = some t'
  | .int bits, _ => by
    by_cases h : bits = 1 <;> simp [LegalAllocaType, h]
  | .half, _ => ⟨.half, rfl⟩
  | .float, _ => ⟨.float, rfl⟩
  | .double, _ => ⟨.double, rfl⟩
  | .pointer p a, _ => ⟨.pointer p a, rfl⟩
  | .array elt n, h => by
    obtain ⟨e', h1⟩ := LegalAllocaType_isSome size elt (by simpa [LType.supported] using h)
    exact ⟨.array e' n, by simp [LegalAllocaType, h1]⟩
  | .vector elt n, h => by
    obtain ⟨e', h1⟩ := LegalAllocaType_isSome size elt (by simpa [LType.supported] using h)
    exact ⟨.vector e' n, by simp [LegalAllocaType, h1]⟩
  | .struct name packed fields, h => by
    obtain ⟨fs', ill, h1⟩ :=
      LegalStructElems_isSome size fields (by simpa [LType.supported] using h)
    cases ill <;> simp [LegalAllocaType, LegalStructAllocaType_result, h1]
  | .unsupported, h => by simp [LType.supported] at h
/-- On supported fields the loop of `LegalStructAllocaType` returns fields. -/
theorem LegalStructElems_isSome (size : Nat) :
    ∀ ts : LTypes, ts.supported = true →
      ∃ ts' ill, LegalStructElems size ts = some (ts', ill)
  | .nil, _ => ⟨.nil, false, rfl⟩
  | .cons t ts, h => by
    have hs : t.supported = true ∧ ts.supported = true := by
      simpa [LTypes.supported] using h
    obtain ⟨t', h1⟩ := LegalAllocaType_isSome size t hs.1
    obtain ⟨ts', ill, g1⟩ := LegalStructElems_isSome size ts hs.2
    exact ⟨.cons t' ts', decide (t' ≠ t) || ill, by simp [LegalStructElems, h1, g1]⟩
end

mutual
/-- A type `LegalAllocaType` returns is returned as it is. -/
theorem LegalAllocaType_fixed (size : Nat) :
    ∀ t t' : LType, LegalAllocaType size t = some t' → LegalAllocaType size t' = some t'
  | .int bits, t', h => by
    by_cases hb : bits = 1
    · simp only [LegalAllocaType, hb, if_true, Option.some.injEq] at h
      subst h
      by_cases hs : size = 1 <;> simp [LegalAllocaType, hs]
    · simp only [LegalAllocaType, hb, if_false, Option.some.injEq] at h
      subst h
      simp [LegalAllocaType, hb]
  | .half, t', h => by
    simp only [LegalAllocaType, Option.some.injEq] at h
    subst h
    rfl
  | .float, t', h => by
    simp only [LegalAllocaType, Option.some.injEq] at h
    subst h
    rfl
  | .double, t', h => by
    simp only [LegalAllocaType, Option.some.injEq] at h
    subst h
    rfl
  | .pointer p a, t', h => by
    simp only [LegalAllocaType, Option.some.injEq] at h
    subst h
    rfl
  | .array elt n, t', h => by
    cases he : LegalAllocaType size elt with
    | none => simp [LegalAllocaType, he] at h
    | some e' =>
      simp only [LegalAllocaType, he, Option.map_some', Option.some.injEq] at h
      subst h
      simp [LegalAllocaType, LegalAllocaType_fixed size elt e' he]
  | .vector elt n, t', h => by
    cases he : LegalAllocaType size elt with
    | none => simp [LegalAllocaType, he] at h
    | some e' =>
      simp only [LegalAllocaType, he, Option.map_some', Option.some.injEq] at h
      subst h
      simp [LegalAllocaType, LegalAllocaType_fixed size elt e' he]
  | .struct name packed fields, t', h => by
    cases hf : LegalStructElems size fields with
    | none => simp [LegalAllocaType, LegalStructAllocaType_result, hf] at h
    | some r =>
      obtain ⟨fs', ill⟩ := r
      obtain ⟨hfix, hill⟩ := LegalStructElems_fixed size fields fs' ill hf
      cases ill with
      | true =>
        simp only [LegalAllocaType, LegalStructAllocaType_result, hf, if_true,
          Option.some.injEq] at h
        subst h
        simp [LegalAllocaType, LegalStructAllocaType_result, hfix]
      | false =>
        simp only [LegalAllocaType, LegalStructAllocaType_result, hf, Bool.false_eq_true,
          if_false, Option.some.injEq] at h
        subst h
        have hfs : fs' = fields := hill rfl
        subst hfs
        simp [LegalAllocaType, LegalStructAllocaType_result, hfix]
  | .unsupported, t', h => by simp [LegalAllocaType] at h
/-- The fields the loop of `LegalStructAllocaType` returns come back unchanged, with
the flag down; when the flag was down the first time, they are the fields the
loop was given. -/
theorem LegalStructElems_fixed (size : Nat) :
    ∀ (ts ts' : LTypes) (ill : Bool), LegalStructElems size ts = some (ts', ill) →
      LegalStructElems size ts' = some (ts', false) ∧ (ill = false → ts' = ts)
  | .nil, ts', ill, h => by
    simp only [LegalStructElems, Option.some.injEq, Prod.mk.injEq] at h
    obtain ⟨rfl, rfl⟩ := h
    exact ⟨rfl, fun _ => rfl⟩
  | .cons t ts, ts', ill, h => by
    cases ht : LegalAllocaType size t with
    | none => simp [LegalStructElems, ht] at h
    | some t1 =>
      cases hr : LegalStructElems size ts with
      | none => simp [LegalStructElems, ht, hr] at h
      | some r =>
        obtain ⟨ts1, ill1⟩ := r
        simp only [LegalStructElems, ht, hr, Option.some.injEq, Prod.mk.injEq] at h
        obtain ⟨rfl, rfl⟩ := h
        have h1 := LegalAllocaType_fixed size t t1 ht
        obtain ⟨h2, h3⟩ := LegalStructElems_fixed size ts ts1 ill1 hr
        refine ⟨by simp [LegalStructElems, h1, h2], ?_⟩
        intro hill
        simp only [Bool.or_eq_false_iff, decide_eq_false_iff_not, ne_eq, Decidable.not_not] at hill
        rw [hill.1, h3 hill.2]
end

/-- C38: `LegalAllocaType` is a total function on types (a structural recursion),
and it is idempotent: for every supported type `t` it returns a type, and on
that type it returns the type itself, so `visitAlloca`, which compares the
allocated type with its legal type, leaves an alloca of that type alone. -/
theorem LegalAllocaType_idempotent (size : Nat) (t : LType) (hsupp : t.supported = true) :
    ∃ t', LegalAllocaType size t = some t'
      ∧ (LegalAllocaType size t).bind (LegalAllocaType size) = LegalAllocaType size t
      ∧ LegalAllocaType size t' = some t'
      ∧ ∀ (st : PtrState) (I : Nat) (ops : List Nat),
          st.find? I = some ⟨I, .alloca t', ops⟩ → visitAlloca size st I = some st := by
  obtain ⟨t', h⟩ := LegalAllocaType_isSome size t hsupp
  have hfix := LegalAllocaType_fixed size t t' h
  refine ⟨t', h, by rw [h]; exact hfix, hfix, ?_⟩
  intro st I ops hfind
  simp [visitAlloca, hfind, hfix]

/-- C38 on the struct `{ i1, [4 x i1], float }` with an allocation size of 8
bits. -/
theorem LegalAllocaType_idempotent_witness :
    ∃ t', LegalAllocaType 8 (.struct (some 0) false
          (.cons (.int 1) (.cons (.array (.int 1) 4) (.cons .float .nil)))) = some t'
      ∧ LegalAllocaType 8 t' = some t' :=
  (LegalAllocaType_idempotent 8 (.struct (some 0) false
    (.cons (.int 1) (.cons (.array (.int 1) 4) (.cons .float .nil)))) (by decide)).imp
    (fun _ h => ⟨h.1, h.2.2.1⟩)

end Legalization

namespace Legalization

/-! ### `visitFCmpInstUndorderedFlushNan` -/

/-- C34: for every pair of operands neither of which is a NaN, the value that
`visitFCmpInstUndorderedFlushNan` substitutes equals the original compare: ORD
becomes true, UNO becomes false, ONE becomes UNE, UEQ becomes OEQ, and UGT,
UGE, ULT, ULE become OGT, OGE, OLT, OLE. -/
theorem visitFCmpInstUndorderedFlushNan_eq (pred : FPredicate) (a b : Option Int)
    (hp : pred ∈ [FPredicate.FCMP_ORD, .FCMP_UNO, .FCMP_ONE, .FCMP_UEQ, .FCMP_UGT,
      .FCMP_UGE, .FCMP_ULT, .FCMP_ULE])
    (ha : a ≠ none) (hb : b ≠ none) :
    (∃ r, visitFCmpInstUndorderedFlushNan pred = some r ∧ r.eval a b = fcmp pred a b)
      ∧ visitFCmpInstUndorderedFlushNan .FCMP_ORD = some (.constant true)
      ∧ visitFCmpInstUndorderedFlushNan .FCMP_UNO = some (.constant false)
      ∧ visitFCmpInstUndorderedFlushNan .FCMP_ONE = some (.fcmp .FCMP_UNE)
      ∧ visitFCmpInstUndorderedFlushNan .FCMP_UEQ = some (.fcmp .FCMP_OEQ)
      ∧ visitFCmpInstUndorderedFlushNan .FCMP_UGT = some (.fcmp .FCMP_OGT)
      ∧ visitFCmpInstUndorderedFlushNan .FCMP_UGE = some (.fcmp .FCMP_OGE)
      ∧ visitFCmpInstUndorderedFlushNan .FCMP_ULT = some (.fcmp .FCMP_OLT)
      ∧ visitFCmpInstUndorderedFlushNan .FCMP_ULE = some (.fcmp .FCMP_OLE) := by
  refine ⟨?_, rfl, rfl, rfl, rfl, rfl, rfl, rfl, rfl⟩
  have hne : fcmpOutcome a b ≠ .unordered := by
    intro h
    rcases (fcmpOutcome_unordered a b).mp h with h | h
    · exact ha h
    · exact hb h
  simp only [List.mem_cons, List.mem_singleton, List.not_mem_nil, or_false] at hp
  rcases hp with h | h | h | h | h | h | h | h <;> subst h <;>
    refine ⟨_, rfl, ?_⟩ <;>
    simp only [FlushNanResult.eval, fcmp] <;>
    cases ho : fcmpOutcome a b <;> first | decide | exact absurd ho hne

/-- C34 on `fcmp uge 3, 2`, replaced by `fcmp oge 3, 2`. -/
theorem visitFCmpInstUndorderedFlushNan_eq_witness :
    ∃ r, visitFCmpInstUndorderedFlushNan .FCMP_UGE = some r
      ∧ r.eval (some 3) (some 2) = fcmp .FCMP_UGE (some 3) (some 2) :=
  (visitFCmpInstUndorderedFlushNan_eq .FCMP_UGE (some 3) (some 2) (by decide)
    (by decide) (by decide)).1

/-- With a NaN the flushed forms differ from the compares they replace: `ord` of a
NaN is false and is replaced by true, and `uge` of a NaN is true while `oge` is
false. -/
theorem visitFCmpInstUndorderedFlushNan_nan_examples :
    fcmp .FCMP_ORD none (some 1) = false
      ∧ fcmp .FCMP_UGE none (some 1) = true
      ∧ fcmp .FCMP_OGE none (some 1) = false := by
  decide

end Legalization

namespace Legalization

/-! ### `visitTruncInst` -/

/-- Two 16-bit values joined by shift and `or` are their sum. -/
theorem shl_or_eq_add (lo hi : Nat) (hlo : lo < 2 ^ 16) (hhi : hi < 2 ^ 16) :
    shl 32 hi 16 ||| lo = lo + 2 ^ 16 * hi := by
  have h1 : shl 32 hi 16 = hi <<< 16 := by
    simp only [shl]
    apply Nat.mod_eq_of_lt
    rw [Nat.shiftLeft_eq]
    omega
  have h2 : hi <<< 16 = 2 ^ 16 * hi := by rw [Nat.shiftLeft_eq, Nat.mul_comm]
  rw [h1, h2, ← Nat.mul_add_lt_is_or hlo hi]
  omega

/-- C36: for every vector of three 16-bit lanes `e0`, `e1`, `e2` read as a 48-bit
integer `x` with lane 0 in the least-significant bits, the value
`visitTruncInst` substitutes equals the replaced truncation to 32 bits:
`trunc32(x) = zext(e0) OR (zext(e1) << 16)`,
`trunc32(x >> 16) = zext(e1) OR (zext(e2) << 16)` and
`trunc32(x >> 32) = zext(e2)`; for any other constant shift amount the
truncation is left unchanged. -/
theorem visitTruncInst_eq_trunc (e0 e1 e2 : Nat)
    (h0 : e0 < 2 ^ 16) (h1 : e1 < 2 ^ 16) (h2 : e2 < 2 ^ 16) :
    visitTruncInst 32 48 (.bitCast ⟨.vector 3 16, [e0, e1, e2]⟩)
        = some (trunc 32 (bitcastToInt 16 [e0, e1, e2]))
      ∧ visitTruncInst 32 48 (.bitCast ⟨.vector 3 16, [e0, e1, e2]⟩)
        = some (shl 32 (zext e1) 16 ||| zext e0)
      ∧ visitTruncInst 32 48
          (.binaryOperator true (some 16) (some ⟨.vector 3 16, [e0, e1, e2]⟩))
        = some (trunc 32 (lshr (bitcastToInt 16 [e0, e1, e2]) 16))
      ∧ visitTruncInst 32 48
          (.binaryOperator true (some 16) (some ⟨.vector 3 16, [e0, e1, e2]⟩))
        = some (shl 32 (zext e2) 16 ||| zext e1)
      ∧ visitTruncInst 32 48
          (.binaryOperator true (some 32) (some ⟨.vector 3 16, [e0, e1, e2]⟩))
        = some (trunc 32 (lshr (bitcastToInt 16 [e0, e1, e2]) 32))
      ∧ visitTruncInst 32 48
          (.binaryOperator true (some 32) (some ⟨.vector 3 16, [e0, e1, e2]⟩))
        = some (zext e2)
      ∧ ∀ c, c ≠ 16 → c ≠ 32 →
          visitTruncInst 32 48
            (.binaryOperator true (some c) (some ⟨.vector 3 16, [e0, e1, e2]⟩)) = none := by
  have hx : bitcastToInt 16 [e0, e1, e2] = e0 + 2 ^ 16 * (e1 + 2 ^ 16 * e2) := by
    simp [bitcastToInt]
  have ha : visitTruncInst 32 48 (.bitCast ⟨.vector 3 16, [e0, e1, e2]⟩)
      = some (shl 32 (zext e1) 16 ||| zext e0) := by
    simp [visitTruncInst, visitTruncInst_match]
  have hb : visitTruncInst 32 48
      (.binaryOperator true (some 16) (some ⟨.vector 3 16, [e0, e1, e2]⟩))
      = some (shl 32 (zext e2) 16 ||| zext e1) := by
    simp [visitTruncInst, visitTruncInst_match]
  have hc : visitTruncInst 32 48
      (.binaryOperator true (some 32) (some ⟨.vector 3 16, [e0, e1, e2]⟩))
      = some (zext e2) := by
    simp [visitTruncInst, visitTruncInst_match]
  refine ⟨?_, ha, ?_, hb, ?_, hc, ?_⟩
  · rw [ha, hx]
    simp only [zext, trunc, shl_or_eq_add e0 e1 h0 h1, Option.some.injEq]
    omega
  · rw [hb, hx]
    simp only [zext, trunc, lshr, shl_or_eq_add e1 e2 h1 h2, Option.some.injEq,
      Nat.shiftRight_eq_div_pow]
    omega
  · rw [hc, hx]
    simp only [zext, trunc, lshr, Option.some.injEq, Nat.shiftRight_eq_div_pow]
    omega
  · intro c h16 h32
    simp [visitTruncInst, visitTruncInst_match, h16, h32]

/-- C36 on the lanes `0x1111`, `0x2222`, `0x3333`. -/
theorem visitTruncInst_eq_trunc_witness :
    visitTruncInst 32 48 (.bitCast ⟨.vector 3 16, [0x1111, 0x2222, 0x3333]⟩) = some 0x22221111
      ∧ visitTruncInst 32 48
          (.binaryOperator true (some 16) (some ⟨.vector 3 16, [0x1111, 0x2222, 0x3333]⟩))
        = some 0x33332222
      ∧ visitTruncInst 32 48
          (.binaryOperator true (some 32) (some ⟨.vector 3 16, [0x1111, 0x2222, 0x3333]⟩))
        = some 0x3333 :=
  ⟨(visitTruncInst_eq_trunc 0x1111 0x2222 0x3333 (by decide) (by decide) (by decide)).1.trans
      (by decide),
    by decide, by decide⟩

/-- Where `visitTruncInst` leaves the truncation: another destination or source
width, a shift that is no `lshr`, a shift amount that is no constant, a first
operand of the shift that is no bitcast, a bitcast from another type, any other
operand. -/
theorem visitTruncInst_unchanged_examples :
    visitTruncInst 16 48 (.bitCast ⟨.vector 3 16, [1, 2, 3]⟩) = none
      ∧ visitTruncInst 32 64 (.bitCast ⟨.vector 4 16, [1, 2, 3, 4]⟩) = none
      ∧ visitTruncInst 32 48 (.binaryOperator false (some 16) (some ⟨.vector 3 16, [1, 2, 3]⟩))
        = none
      ∧ visitTruncInst 32 48 (.binaryOperator true none (some ⟨.vector 3 16, [1, 2, 3]⟩)) = none
      ∧ visitTruncInst 32 48 (.binaryOperator true (some 16) none) = none
      ∧ visitTruncInst 32 48 (.bitCast ⟨.vector 6 8, [1, 2, 3, 4, 5, 6]⟩) = none
      ∧ visitTruncInst 32 48 .other = none := by
  decide

end Legalization

namespace Legalization

/-! ### `findInsert` -/

/-- The parts of a well-formed insertion. -/
theorem wellFormedChain_insert (env : Nat → RVal) (n : Nat) (vec elt idx : VecValue)
    (h : wellFormedChain env n (.insertElement vec elt idx) = true) :
    wellFormedChain env n vec = true
      ∧ (∃ s, elt.eval env = .scalar s)
      ∧ ∃ k, idx.eval env = .scalar (some k) ∧ k < n := by
  simp only [wellFormedChain, Bool.and_eq_true] at h
  obtain ⟨⟨h1, h2⟩, h3⟩ := h
  refine ⟨h1, ?_, ?_⟩
  · cases he : elt.eval env with
    | scalar s => exact ⟨s, rfl⟩
    | vector l => simp [he] at h2
  · cases hi : idx.eval env with
    | scalar s =>
      cases s with
      | none => simp [hi] at h3
      | some k => exact ⟨k, rfl, by simpa [hi] using h3⟩
    | vector l => simp [hi] at h3

/-- A well-formed chain evaluates to a vector of `n` lanes. -/
theorem eval_of_wellFormedChain (env : Nat → RVal) (n : Nat) :
    ∀ v, wellFormedChain env n v = true →
      ∃ lanes, v.eval env = .vector lanes ∧ lanes.length = n := by
  intro v
  induction v with
  | constInt c => intro h; simp [wellFormedChain] at h
  | undef => intro h; simp [wellFormedChain] at h
  | constVec lanes =>
    intro h
    exact ⟨lanes, rfl, by simpa [wellFormedChain] using h⟩
  | leaf id =>
    intro h
    simp only [wellFormedChain] at h
    cases he : env id with
    | scalar s => simp [he] at h
    | vector lanes => exact ⟨lanes, by simp [VecValue.eval, he], by simpa [he] using h⟩
  | insertElement vec elt idx ihv _ _ =>
    intro h
    obtain ⟨hv, ⟨s, hs⟩, k, hk, hkn⟩ := wellFormedChain_insert env n vec elt idx h
    obtain ⟨lanes, hl, hlen⟩ := ihv hv
    refine ⟨lanes.set k s, ?_, by simp [hlen]⟩
    simp [VecValue.eval, hl, hs, hk, hlen, hkn]
  | extractElement vec idx _ _ => intro h; simp [wellFormedChain] at h

/-- On a well-formed chain `findInsert` follows the claim, and what it returns
evaluates to lane `i` of the vector. -/
theorem findInsert_spec (env : Nat → RVal) (n i : Nat) (hn : n ≤ 2 ^ 32) :
    ∀ v, wellFormedChain env n v = true →
      findInsert v i = outermostInsertion (insertChain v) i
        ∧ ∀ x, findInsert v i = some x →
            ∃ lanes s, v.eval env = .vector lanes ∧ x.eval env = .scalar s
              ∧ lanes[i]? = some s := by
  intro v
  induction v with
  | constInt c => intro _; simp [findInsert, insertChain, outermostInsertion]
  | undef => intro _; simp [findInsert, insertChain, outermostInsertion]
  | constVec lanes => intro _; simp [findInsert, insertChain, outermostInsertion]
  | leaf id => intro _; simp [findInsert, insertChain, outermostInsertion]
  | extractElement vec idx _ _ => intro _; simp [findInsert, insertChain, outermostInsertion]
  | insertElement vec elt idx ihv _ _ =>
    intro h
    obtain ⟨hv, ⟨s, hs⟩, k, hk, hkn⟩ := wellFormedChain_insert env n vec elt idx h
    obtain ⟨ih1, ih2⟩ := ihv hv
    obtain ⟨lanes, hl, hlen⟩ := eval_of_wellFormedChain env n vec hv
    have hev : (VecValue.insertElement vec elt idx).eval env = .vector (lanes.set k s) := by
      simp [VecValue.eval, hl, hs, hk, hlen, hkn]
    cases idx with
    | constInt c =>
      have hck : c = k := by
        simp only [VecValue.eval, RVal.scalar.injEq, Option.some.injEq] at hk
        exact hk
      subst hck
      have hmod : c % 2 ^ 32 = c := Nat.mod_eq_of_lt (by omega)
      by_cases hci : c = i
      · subst hci
        refine ⟨by simp only [findInsert, insertChain, outermostInsertion, hmod, if_true], ?_⟩
        intro x hx
        simp only [findInsert, hmod, if_true, Option.some.injEq] at hx
        subst hx
        exact ⟨lanes.set c s, s, hev, hs, by
          rw [List.getElem?_set_self (by rw [hlen]; exact hkn)]⟩
      · refine ⟨by
          simp only [findInsert, insertChain, outermostInsertion, hmod, hci, if_false, ih1], ?_⟩
        intro x hx
        simp only [findInsert, hmod, hci, if_false] at hx
        obtain ⟨lanes', s', hl', hs', hget⟩ := ih2 x hx
        rw [hl] at hl'
        cases hl'
        exact ⟨lanes.set c s, s', hev, hs', by rw [List.getElem?_set_ne hci]; exact hget⟩
    | undef => simp [findInsert, insertChain, outermostInsertion]
    | constVec l => simp [findInsert, insertChain, outermostInsertion]
    | leaf id => simp [findInsert, insertChain, outermostInsertion]
    | insertElement a b c => simp [findInsert, insertChain, outermostInsertion]
    | extractElement a b => simp [findInsert, insertChain, outermostInsertion]

/-- C32: for every vector value built by a chain of `insertelement`s whose indices
are in range, and every lane index `i`, `findInsert` (a structural recursion
along the chain) returns either nothing or a value equal to lane `i` of that
vector: it returns the inserted operand of the outermost insertion whose
constant index equals `i`, and nothing if it first meets an insertion with a
non-constant index or reaches the start of the chain. -/
theorem findInsert_lane (env : Nat → RVal) (n i : Nat) (v : VecValue)
    (hn : n ≤ 2 ^ 32) (hwf : wellFormedChain env n v = true) :
    findInsert v i = outermostInsertion (insertChain v) i
      ∧ (findInsert v i = none
          ∨ ∃ x lanes s, findInsert v i = some x ∧ v.eval env = .vector lanes
              ∧ x.eval env = .scalar s ∧ lanes[i]? = some s) := by
  obtain ⟨h1, h2⟩ := findInsert_spec env n i hn v hwf
  refine ⟨h1, ?_⟩
  cases hf : findInsert v i with
  | none => exact Or.inl rfl
  | some x =>
    obtain ⟨lanes, s, hl, hs, hg⟩ := h2 x hf
    exact Or.inr ⟨x, lanes, s, rfl, hl, hs, hg⟩

/-- C32 on the chain `insertelement (insertelement (insertelement %v, %a, 1), %b, 0),
%c, 1` over a vector `%v` of two lanes, with `%a`, `%b`, `%c` the scalars 10,
20, 30: lane 1 is `%c`, the outermost insertion at index 1. -/
theorem findInsert_lane_witness :
    findInsert (.insertElement (.insertElement (.insertElement (.leaf 0) (.leaf 1) (.constInt 1))
        (.leaf 2) (.constInt 0)) (.leaf 3) (.constInt 1)) 1 = some (.leaf 3)
      ∧ findInsert (.insertElement (.insertElement (.insertElement (.leaf 0) (.leaf 1)
          (.constInt 1)) (.leaf 2) (.constInt 0)) (.leaf 3) (.constInt 1)) 1
        = outermostInsertion (insertChain (.insertElement (.insertElement
            (.insertElement (.leaf 0) (.leaf 1) (.constInt 1)) (.leaf 2) (.constInt 0))
            (.leaf 3) (.constInt 1))) 1 :=
  ⟨by decide,
    (findInsert_lane
      (fun id => if id = 0 then .vector [some 1, some 2] else .scalar (some (10 * id))) 2 1
      (.insertElement (.insertElement (.insertElement (.leaf 0) (.leaf 1) (.constInt 1))
        (.leaf 2) (.constInt 0)) (.leaf 3) (.constInt 1))
      (by decide) (by decide)).1⟩

/-- Where `findInsert` returns nothing: a non-constant index comes first, or no
insertion has the index. -/
theorem findInsert_none_examples :
    findInsert (.insertElement (.insertElement (.leaf 0) (.leaf 1) (.constInt 1))
        (.leaf 2) (.leaf 9)) 1 = none
      ∧ findInsert (.insertElement (.leaf 0) (.leaf 1) (.constInt 1)) 0 = none
      ∧ findInsert (.leaf 0) 0 = none := by
  decide

end Legalization

namespace Legalization

/-! ### `Cast` around a retyped access -/

end Legalization

namespace Legalization

/-! ### Recording without dropping the references -/

/-- C33 fails on `uaddExample` and on `assumeExample`.  The `uadd_with_overflow`
case creates `%14 = add %a, %b` and `%15 = icmp ult %14, %a`, redirects the uses
of the two `extractvalue`s and records them and the call with
`m_instructionsToRemove.insert`: right after the first `extractvalue` is
recorded it still holds its reference to the call, and so do both when the
visit returns, and the call holds its references to `%a` and `%b`.  The `assume`
case records the call while it holds its reference to the condition.
`markToRemove` on the same instruction leaves it without operands. -/
theorem visitIntrinsicInst_records_with_references :
    (∃ st, visitIntrinsicInst_uaddUser 14 15
        ((uaddExample.createBefore 10 .add [100, 101]).1.createBefore 10 .icmpULT [14, 100]).1 11
          = some st
        ∧ st.m_instructionsToRemove = [11] ∧ st.operandsOf 11 = [10])
      ∧ (∃ st, visitIntrinsicInst_onGraph uaddExample 10 = some st
        ∧ st.m_instructionsToRemove = [11, 12, 10]
        ∧ st.operandsOf 11 = [10] ∧ st.operandsOf 12 = [10] ∧ st.operandsOf 10 = [100, 101]
        ∧ st.operandsOf 13 = [15, 102, 14])
      ∧ (∃ st, visitIntrinsicInst_onGraph assumeExample 11 = some st
        ∧ st.m_instructionsToRemove = [11] ∧ st.operandsOf 11 = [10])
      ∧ (markToRemove uaddExample 11).m_instructionsToRemove = [11]
      ∧ (markToRemove uaddExample 11).operandsOf 11 = [] := by
  refine ⟨⟨_, rfl, ?_, ?_⟩, ⟨_, rfl, ?_, ?_, ?_, ?_, ?_⟩, ⟨_, rfl, ?_, ?_⟩, ?_, ?_⟩ <;> decide

end Legalization

namespace GenOptLegalizer

/-! ### The removal list of `GenOptLegalizer` -/

/-- C37 fails on `twoStores`: both stores match the second case of
`visitStoreInst`, which pushes the store, the truncation and the pointer
bitcast `%10` without looking at the uses of the bitcast, so `%10` is pushed
twice; at its first erasure it still has the second store as a user, and the
second erasure meets an instruction that is no longer in the function.  On
`storeThenLoadBack` the bitcast is pushed once and erased while the load, which
no rule rewrites, still uses it and stays in the function. -/
theorem removal_list_pushes_shared_bitcast :
    removalList twoStores 15 = some [12, 11, 10, 14, 13, 10]
      ∧ (runOnFunction twoStores 15).map (fun r => r.1)
        = some [⟨12, true, []⟩, ⟨11, true, []⟩, ⟨10, true, [14]⟩, ⟨14, true, []⟩,
            ⟨13, true, []⟩, ⟨10, false, []⟩]
      ∧ removalList storeThenLoadBack 15 = some [12, 11, 10]
      ∧ (runOnFunction storeThenLoadBack 15).map (fun r => r.1)
        = some [⟨12, true, []⟩, ⟨11, true, []⟩, ⟨10, true, [13]⟩]
      ∧ (runOnFunction storeThenLoadBack 15).map (fun r => r.2.1.map (fun i => i.id))
        = some [15, 16, 17, 18, 13, 14] := by
  refine ⟨?_, ?_, ?_, ?_, ?_⟩ <;> decide

/-- Where every pushed instruction has its one use inside the rewritten pattern, each
is pushed once and erased without users: a load of `i24` extended to `i32`, a
copy of an `i24` from one pointer to another, and a single store of a
truncation through a bitcast pointer. -/
theorem removal_list_single_use_examples :
    (runOnFunction [⟨10, .Load, .int 24, [100]⟩, ⟨11, .ZExt, .int 32, [10]⟩,
        ⟨12, .Other, .notInt, [11]⟩] 13).map (fun r => r.1)
        = some [⟨11, true, []⟩, ⟨10, true, []⟩]
      ∧ (runOnFunction [⟨10, .Load, .int 24, [100]⟩, ⟨11, .Store, .notInt, [10, 101]⟩] 12).map
          (fun r => r.1)
        = some [⟨11, true, []⟩, ⟨10, true, []⟩]
      ∧ (runOnFunction [⟨10, .BitCast, .notInt, [100]⟩, ⟨11, .Trunc, .int 24, [101]⟩,
          ⟨12, .Store, .notInt, [11, 10]⟩] 13).map (fun r => r.1)
        = some [⟨12, true, []⟩, ⟨11, true, []⟩, ⟨10, true, []⟩] := by
  refine ⟨?_, ?_, ?_⟩ <;> decide

end GenOptLegalizer

namespace IGC

/-! ### `expandFDIVInstructions` leaves no candidate -/

/-- The new instruction is in the list, next to the old ones. -/
theorem insertBefore_perm (pos : Nat) (new : FInst) (l : List FInst) :
    (insertBefore pos new l).Perm (new :: l) := by
  induction l with
  | nil => exact List.Perm.refl _
  | cons i rest ih =>
    unfold insertBefore
    by_cases h : i.id = pos
    · rw [if_pos h]
    · rw [if_neg h]
      exact (List.Perm.cons i ih).trans (List.Perm.swap new i rest)

/-- A value has no use exactly when no instruction holds it. -/
theorem numUses_eq_zero_iff (F : Func) (id : Nat) :
    F.numUses id = 0 ↔ ∀ u ∈ F.insts, Operand.value id ∉ u.operands := by
  unfold Func.numUses
  induction F.insts with
  | nil => simp
  | cons i rest ih =>
    simp only [List.map_cons, List.sum_cons, Nat.add_eq_zero_iff, ih, List.count_eq_zero,
      List.forall_mem_cons]

/-- The test `isCandidateFDiv` on an instruction of a function. -/
theorem isCandidateFDiv_toInstruction (F : Func) (i : FInst) :
    isCandidateFDiv (F.toInstruction i) = true ↔
      (∃ u ∈ F.insts, Operand.value i.id ∈ u.operands) ∧ (i.ty = .float ∨ i.ty = .half)
        ∧ i.opcode = .FDiv ∧ ¬ i.dividendIsOne := by
  have huse : F.numUses i.id = 0 ↔ ¬ ∃ u ∈ F.insts, Operand.value i.id ∈ u.operands := by
    rw [numUses_eq_zero_iff]
    push_neg
    rfl
  unfold isCandidateFDiv Func.toInstruction
  dsimp only
  by_cases h0 : F.numUses i.id = 0
  · rw [if_pos h0]
    constructor
    · intro h
      exact absurd h (by decide)
    · intro h
      exact absurd h.1 (huse.mp h0)
  · have hyes : ∃ u ∈ F.insts, Operand.value i.id ∈ u.operands := by
      by_contra hc
      exact h0 (huse.mpr hc)
    rw [if_neg h0]
    by_cases hty : i.ty ≠ .float ∧ i.ty ≠ .half
    · rw [if_pos hty]
      constructor
      · intro h
        exact absurd h (by decide)
      · intro h
        rcases h.2.1 with h1 | h1
        · exact absurd h1 hty.1
        · exact absurd h1 hty.2
    · have hty2 : i.ty = .float ∨ i.ty = .half := by
        by_contra hc
        push_neg at hc
        exact hty hc
      rw [if_neg hty]
      by_cases hop : i.opcode = .FDiv
      · have hop2 : i.opcode.toOpcode = .FDiv := by rw [hop]; rfl
        rw [if_pos hop2]
        cases hops : i.operands with
        | nil =>
          simp only [List.map_nil, List.getElem?_nil, true_iff]
          refine ⟨hyes, hty2, hop, ?_⟩
          rintro ⟨ty, bits, rest, h, _⟩
          rw [hops] at h
          cases h
        | cons o rest =>
          cases o with
          | value v =>
            simp only [List.map_cons, List.getElem?_cons_zero, Operand.toFValue, true_iff]
            refine ⟨hyes, hty2, hop, ?_⟩
            rintro ⟨ty, bits, rest2, h, _⟩
            rw [hops] at h
            cases h
          | const c =>
            cases c with
            | other t =>
              simp only [List.map_cons, List.getElem?_cons_zero, Operand.toFValue, true_iff]
              refine ⟨hyes, hty2, hop, ?_⟩
              rintro ⟨ty, bits, rest2, h, _⟩
              rw [hops] at h
              cases h
            | fp ty bits =>
              simp only [List.map_cons, List.getElem?_cons_zero, Operand.toFValue]
              constructor
              · intro h
                refine ⟨hyes, hty2, hop, ?_⟩
                rintro ⟨ty2, bits2, rest2, h2, hone⟩
                rw [hops] at h2
                cases h2
                rw [hone] at h
                exact absurd h (by decide)
              · intro h
                cases hone : (FValue.constFP ty bits).isExactlyOne with
                | false => rfl
                | true => exact absurd ⟨ty, bits, rest, hops, hone⟩ h.2.2.2
      · have hop2 : i.opcode.toOpcode ≠ .FDiv := by
          cases h : i.opcode <;> first | exact absurd h hop | simp [ExpOpcode.toOpcode]
        rw [if_neg hop2]
        constructor
        · intro h
          exact absurd h (by decide)
        · intro h
          exact absurd h.2.2.1 hop

/-- The start of an expansion. -/
theorem builtFrom_refl (B : Func) (X Y : Operand)
    (hnd : (B.insts.map (fun i => i.id)).Nodup) (hlt : ∀ i ∈ B.insts, i.id < B.next) :
    builtFrom B X Y B :=
  ⟨Nat.le_refl _, hlt, hnd, fun _ hi => Or.inl hi, fun _ hi => hi⟩

/-- One call of the builder keeps the state of an expansion, and returns a constant
or a new value. -/
theorem create_builtFrom (fold : ExpOpcode → Ty → List Operand → Const) (B G : Func)
    (X Y : Operand) (Inst : FInst) (opcode : ExpOpcode) (ty : Ty) (operands : List Operand)
    (hG : builtFrom B X Y G)
    (hops : ∀ o ∈ operands, allowedOperand B.next X Y o)
    (hdiv : opcode = .FDiv → ∃ ty bits rest, operands = .const (.fp ty bits) :: rest
      ∧ (FValue.constFP ty bits).isExactlyOne = true) :
    builtFrom B X Y (G.create fold Inst opcode ty operands).1
      ∧ freshOperand B.next (G.create fold Inst opcode ty operands).2 := by
  obtain ⟨h1, h2, h3, h4, h5⟩ := hG
  unfold Func.create
  by_cases hc : operands.all Operand.isConstant = true
  · rw [if_pos hc]
    exact ⟨⟨h1, h2, h3, h4, h5⟩, Or.inl rfl⟩
  · rw [if_neg hc]
    have hperm := insertBefore_perm Inst.id ⟨G.next, ty, opcode, operands, Inst.arcp⟩ G.insts
    have hmem : ∀ i, i ∈ insertBefore Inst.id ⟨G.next, ty, opcode, operands, Inst.arcp⟩ G.insts
        ↔ i = ⟨G.next, ty, opcode, operands, Inst.arcp⟩ ∨ i ∈ G.insts := by
      intro i
      rw [hperm.mem_iff, List.mem_cons]
    refine ⟨⟨?_, ?_, ?_, ?_, ?_⟩, Or.inr ⟨G.next, h1, rfl⟩⟩
    · show B.next ≤ G.next + 1
      omega
    · intro i hi
      show i.id < G.next + 1
      rcases (hmem i).mp hi with rfl | hi
      · exact Nat.lt_succ_self _
      · exact Nat.lt_succ_of_lt (h2 i hi)
    · show (List.map (fun i => i.id)
        (insertBefore Inst.id ⟨G.next, ty, opcode, operands, Inst.arcp⟩ G.insts)).Nodup
      rw [(hperm.map _).nodup_iff]
      simp only [List.map_cons, List.nodup_cons]
      refine ⟨?_, h3⟩
      intro hin
      obtain ⟨j, hj, hid⟩ := List.mem_map.mp hin
      have := h2 j hj
      omega
    · intro i hi
      rcases (hmem i).mp hi with rfl | hi
      · exact Or.inr ⟨h1, hdiv, hops⟩
      · exact h4 i hi
    · intro i hi
      exact (hmem i).mpr (Or.inr (h5 i hi))

/-- A value returned by the builder is an allowed operand. -/
theorem allowedOperand_of_fresh {N : Nat} {X Y o : Operand} (h : freshOperand N o) :
    allowedOperand N X Y o := by
  rcases h with h | h
  · exact Or.inl h
  · exact Or.inr (Or.inr (Or.inr h))

/-- One allowed operand. -/
theorem allowed1 {N : Nat} {X Y a : Operand} (ha : allowedOperand N X Y a) :
    ∀ o ∈ [a], allowedOperand N X Y o := by
  intro o ho
  rw [List.mem_singleton] at ho
  rw [ho]
  exact ha

/-- Two allowed operands. -/
theorem allowed2 {N : Nat} {X Y a b : Operand} (ha : allowedOperand N X Y a)
    (hb : allowedOperand N X Y b) : ∀ o ∈ [a, b], allowedOperand N X Y o := by
  intro o ho
  rw [List.mem_cons] at ho
  rcases ho with ho | ho
  · rw [ho]
    exact ha
  · exact allowed1 hb o ho

/-- Three allowed operands. -/
theorem allowed3 {N : Nat} {X Y a b c : Operand} (ha : allowedOperand N X Y a)
    (hb : allowedOperand N X Y b) (hc : allowedOperand N X Y c) :
    ∀ o ∈ [a, b, c], allowedOperand N X Y o := by
  intro o ho
  rw [List.mem_cons] at ho
  rcases ho with ho | ho
  · rw [ho]
    exact ha
  · exact allowed2 hb hc o ho

/-- The `half` expansion with `arcp` keeps the state of an expansion. -/
theorem expandHalfArcp_builtFrom (fold : ExpOpcode → Ty → List Operand → Const) (B : Func)
    (X Y : Operand) (Inst : FInst) (hB : builtFrom B X Y B) :
    builtFrom B X Y (expandHalfArcp fold B Inst X Y).1
      ∧ freshOperand B.next (expandHalfArcp fold B Inst X Y).2 := by
  have h1 := create_builtFrom fold B B X Y Inst .FDiv .half [.const (.fp .half 0x3C00), Y] hB
    (allowed2 (Or.inl rfl) (Or.inr (Or.inr (Or.inl rfl))))
    (fun _ => ⟨_, _, _, rfl, by decide⟩)
  exact create_builtFrom fold B _ X Y Inst .FMul .half [_, X] h1.1
    (allowed2 (allowedOperand_of_fresh h1.2) (Or.inr (Or.inl rfl)))
    (fun h => absurd h (by decide))

/-- The `half` expansion without `arcp` keeps the state of an expansion. -/
theorem expandHalf_builtFrom (fold : ExpOpcode → Ty → List Operand → Const) (B : Func)
    (X Y : Operand) (Inst : FInst) (hB : builtFrom B X Y B) :
    builtFrom B X Y (expandHalf fold B Inst X Y).1
      ∧ freshOperand B.next (expandHalf fold B Inst X Y).2 := by
  have h1 := create_builtFrom fold B B X Y Inst .FPExt .float [Y] hB
    (allowed1 (Or.inr (Or.inr (Or.inl rfl)))) (fun h => absurd h (by decide))
  have h2 := create_builtFrom fold B _ X Y Inst .FDiv .float
    [.const (.fp .float 0x3F800000), _] h1.1
    (allowed2 (Or.inl rfl) (allowedOperand_of_fresh h1.2))
    (fun _ => ⟨_, _, _, rfl, by decide⟩)
  have h3 := create_builtFrom fold B _ X Y Inst .FPExt .float [X] h2.1
    (allowed1 (Or.inr (Or.inl rfl))) (fun h => absurd h (by decide))
  have h4 := create_builtFrom fold B _ X Y Inst .FMul .float [_, _] h3.1
    (allowed2 (allowedOperand_of_fresh h2.2) (allowedOperand_of_fresh h3.2))
    (fun h => absurd h (by decide))
  exact create_builtFrom fold B _ X Y Inst .FPTrunc Inst.ty [_] h4.1
    (allowed1 (allowedOperand_of_fresh h4.2)) (fun h => absurd h (by decide))

/-- The unscaled `float` expansion keeps the state of an expansion. -/
theorem expandUnscaled_builtFrom (fold : ExpOpcode → Ty → List Operand → Const) (B : Func)
    (X Y : Operand) (Inst : FInst) (hB : builtFrom B X Y B) :
    builtFrom B X Y (expandUnscaled fold B Inst X Y).1
      ∧ freshOperand B.next (expandUnscaled fold B Inst X Y).2 := by
  have h1 := create_builtFrom fold B B X Y Inst .FDiv .float
    [.const (.fp .float 0x3F800000), Y] hB
    (allowed2 (Or.inl rfl) (Or.inr (Or.inr (Or.inl rfl))))
    (fun _ => ⟨_, _, _, rfl, by decide⟩)
  exact create_builtFrom fold B _ X Y Inst .FMul .float [_, X] h1.1
    (allowed2 (allowedOperand_of_fresh h1.2) (Or.inr (Or.inl rfl)))
    (fun h => absurd h (by decide))

/-- The scaled `float` expansion keeps the state of an expansion. -/
theorem expandScaled_builtFrom (fold : ExpOpcode → Ty → List Operand → Const) (B : Func)
    (X Y : Operand) (Inst : FInst) (hB : builtFrom B X Y B) :
    builtFrom B X Y (expandScaled fold B Inst X Y).1
      ∧ freshOperand B.next (expandScaled fold B Inst X Y).2 := by
  have h1 := create_builtFrom fold B B X Y Inst .BitCast .other [Y] hB
    (allowed1 (Or.inr (Or.inr (Or.inl rfl)))) (fun h => absurd h (by decide))
  have hExp := create_builtFrom fold B _ X Y Inst .And .other
    [_, .const (.other 0x7f800000)] h1.1
    (allowed2 (allowedOperand_of_fresh h1.2) (Or.inl rfl)) (fun h => absurd h (by decide))
  have hP1 := create_builtFrom fold B _ X Y Inst .ICmpEQ .other [_, .const (.other 0)] hExp.1
    (allowed2 (allowedOperand_of_fresh hExp.2) (Or.inl rfl)) (fun h => absurd h (by decide))
  have hS1 := create_builtFrom fold B _ X Y Inst .Select .float
    [_, .const (.fp .float 0x4F800000), .const (.fp .float 0x3F800000)] hP1.1
    (allowed3 (allowedOperand_of_fresh hP1.2) (Or.inl rfl) (Or.inl rfl))
    (fun h => absurd h (by decide))
  have hP2 := create_builtFrom fold B _ X Y Inst .ICmpUGE .other
    [_, .const (.other (200 <<< 23))] hS1.1
    (allowed2 (allowedOperand_of_fresh hExp.2) (Or.inl rfl)) (fun h => absurd h (by decide))
  have hS := create_builtFrom fold B _ X Y Inst .Select .float
    [_, .const (.fp .float 0x2F800000), _] hP2.1
    (allowed3 (allowedOperand_of_fresh hP2.2) (Or.inl rfl) (allowedOperand_of_fresh hS1.2))
    (fun h => absurd h (by decide))
  have hV1 := create_builtFrom fold B _ X Y Inst .FMul .float [Y, _] hS.1
    (allowed2 (Or.inr (Or.inr (Or.inl rfl))) (allowedOperand_of_fresh hS.2))
    (fun h => absurd h (by decide))
  have hV2 := create_builtFrom fold B _ X Y Inst .FDiv .float
    [.const (.fp .float 0x3F800000), _] hV1.1
    (allowed2 (Or.inl rfl) (allowedOperand_of_fresh hV1.2))
    (fun _ => ⟨_, _, _, rfl, by decide⟩)
  have hV3 := create_builtFrom fold B _ X Y Inst .FMul .float [_, X] hV2.1
    (allowed2 (allowedOperand_of_fresh hV2.2) (Or.inr (Or.inl rfl)))
    (fun h => absurd h (by decide))
  exact create_builtFrom fold B _ X Y Inst .FMul .float [_, _] hV3.1
    (allowed2 (allowedOperand_of_fresh hV3.2) (allowedOperand_of_fresh hS.2))
    (fun h => absurd h (by decide))

/-- Every expansion keeps the state of an expansion and returns a constant or a new
value. -/
theorem buildExpansion_builtFrom (fold : ExpOpcode → Ty → List Operand → Const) (B : Func)
    (X Y : Operand) (Inst : FInst) (hB : builtFrom B X Y B) :
    builtFrom B X Y (buildExpansion fold B Inst X Y).1
      ∧ freshOperand B.next (buildExpansion fold B Inst X Y).2 := by
  unfold buildExpansion
  split
  · split
    · exact expandHalfArcp_builtFrom fold B X Y Inst hB
    · exact expandHalf_builtFrom fold B X Y Inst hB
  · split
    · exact expandUnscaled_builtFrom fold B X Y Inst hB
    · exact expandScaled_builtFrom fold B X Y Inst hB

/-- An operand at a position of a list is the default or an operand of the list. -/
theorem getD_default_or_mem (l : List Operand) (n : Nat) (d : Operand) :
    l.getD n d = d ∨ l.getD n d ∈ l := by
  induction l generalizing n with
  | nil => exact Or.inl rfl
  | cons a rest ih =>
    cases n with
    | zero => exact Or.inr (List.mem_cons_self _ _)
    | succ m =>
      rcases ih m with h | h
      · exact Or.inl h
      · exact Or.inr (List.mem_cons_of_mem _ h)

/-- Replacing the uses of a value keeps a constant dividend. -/
theorem dividendIsOne_replace (j : FInst) (old : Nat) (V : Operand) (h : j.dividendIsOne) :
    FInst.dividendIsOne ⟨j.id, j.ty, j.opcode,
      j.operands.map (fun o => if o = .value old then V else o), j.arcp⟩ := by
  obtain ⟨ty, bits, rest, hops, hone⟩ := h
  refine ⟨ty, bits, rest.map (fun o => if o = .value old then V else o), ?_, hone⟩
  show List.map (fun o => if o = Operand.value old then V else o) j.operands = _
  rw [hops, List.map_cons, if_neg (by intro hc; cases hc)]

/-- Instructions with the same name in a function with unique names are equal. -/
theorem eq_of_id_eq (l : List FInst) (hnd : (l.map (fun i => i.id)).Nodup) (a b : FInst)
    (ha : a ∈ l) (hb : b ∈ l) (hid : a.id = b.id) : a = b := by
  induction l with
  | nil => cases ha
  | cons x rest ih =>
    rw [List.map_cons, List.nodup_cons] at hnd
    rw [List.mem_cons] at ha hb
    rcases ha with ha | ha <;> rcases hb with hb | hb
    · rw [ha, hb]
    · exfalso
      apply hnd.1
      rw [← ha, hid]
      exact List.mem_map_of_mem _ hb
    · exfalso
      apply hnd.1
      rw [← hb, ← hid]
      exact List.mem_map_of_mem _ ha
    · exact ih hnd.2 ha hb

/-- What replacing the uses of `Inst` by `V` and erasing `Inst` leaves, at the end of
an expansion: every instruction is new, and then no division unless its
dividend is `1.0`, or it is an instruction of the function before, and then a
candidate only if it was one. -/
theorem replace_erase_spec (F G : Func) (Inst : FInst) (X Y V : Operand)
    (hlt : ∀ i ∈ F.insts, i.id < F.next) (hmem : Inst ∈ F.insts)
    (hX : X.isConstant = true ∨ X ∈ Inst.operands)
    (hY : Y.isConstant = true ∨ Y ∈ Inst.operands)
    (hG : builtFrom F X Y G) (hV : freshOperand F.next V) :
    (((G.replaceAllUsesWith Inst.id V).eraseFromParent Inst.id).insts.map
        (fun i => i.id)).Nodup
      ∧ (∀ i ∈ ((G.replaceAllUsesWith Inst.id V).eraseFromParent Inst.id).insts,
          i.id < ((G.replaceAllUsesWith Inst.id V).eraseFromParent Inst.id).next)
      ∧ F.next ≤ ((G.replaceAllUsesWith Inst.id V).eraseFromParent Inst.id).next
      ∧ ∀ i ∈ ((G.replaceAllUsesWith Inst.id V).eraseFromParent Inst.id).insts,
          (F.next ≤ i.id ∧ (i.opcode = .FDiv → i.dividendIsOne))
            ∨ ∃ j ∈ F.insts, j.id = i.id ∧ j.id ≠ Inst.id ∧ j.opcode = i.opcode
                ∧ (j.dividendIsOne → i.dividendIsOne)
                ∧ (isCandidateFDiv
                    (((G.replaceAllUsesWith Inst.id V).eraseFromParent Inst.id).toInstruction i)
                      = true →
                    isCandidateFDiv (F.toInstruction j) = true) := by
  obtain ⟨h1, h2, h3, h4, h5⟩ := hG
  have hmemF : ∀ i, i ∈ ((G.replaceAllUsesWith Inst.id V).eraseFromParent Inst.id).insts ↔
      ∃ j ∈ G.insts, j.id ≠ Inst.id ∧ i = ⟨j.id, j.ty, j.opcode,
        j.operands.map (fun o => if o = .value Inst.id then V else o), j.arcp⟩ := by
    intro i
    simp only [Func.eraseFromParent, Func.replaceAllUsesWith, List.mem_filter, List.mem_map,
      bne_iff_ne, ne_eq]
    constructor
    · rintro ⟨⟨j, hj, rfl⟩, hne⟩
      exact ⟨j, hj, hne, rfl⟩
    · rintro ⟨j, hj, hne, rfl⟩
      exact ⟨⟨j, hj, rfl⟩, hne⟩
  refine ⟨?_, ?_, h1, ?_⟩
  · have hsub : (List.map (fun i => i.id)
        ((G.replaceAllUsesWith Inst.id V).eraseFromParent Inst.id).insts).Sublist
        (List.map (fun i => i.id) G.insts) := by
      have h0 : (List.filter (fun (i : FInst) => i.id != Inst.id)
          (G.replaceAllUsesWith Inst.id V).insts).Sublist (G.replaceAllUsesWith Inst.id V).insts :=
        List.filter_sublist _
      have h := h0.map (fun i => i.id)
      have e : List.map (fun i => i.id) (G.replaceAllUsesWith Inst.id V).insts
          = List.map (fun i => i.id) G.insts := by
        simp only [Func.replaceAllUsesWith, List.map_map]
        rfl
      rw [e] at h
      exact h
    exact List.Nodup.sublist hsub h3
  · intro i hi
    obtain ⟨j, hj, _, rfl⟩ := (hmemF i).mp hi
    exact h2 j hj
  · intro i hi
    obtain ⟨j, hj, hne, rfl⟩ := (hmemF i).mp hi
    rcases h4 j hj with hjF | ⟨hnew, hdiv, _⟩
    · refine Or.inr ⟨j, hjF, rfl, hne, rfl, dividendIsOne_replace j Inst.id V, ?_⟩
      intro hcand
      obtain ⟨⟨u, hu, huse⟩, hty, hop, hnone⟩ :=
        (isCandidateFDiv_toInstruction _ _).mp hcand
      have huse : Operand.value j.id ∈ u.operands := huse
      refine (isCandidateFDiv_toInstruction F j).mpr ⟨?_, hty, hop, ?_⟩
      · obtain ⟨w, hw, _, rfl⟩ := (hmemF u).mp hu
        obtain ⟨o, ho, hfo⟩ := List.mem_map.mp huse
        have hjlt := hlt j hjF
        by_cases hoI : o = .value Inst.id
        · rw [if_pos hoI] at hfo
          rcases hV with hc | ⟨k, hk, hVk⟩
          · rw [hfo] at hc
            cases hc
          · rw [hVk] at hfo
            have hkj : k = j.id := Operand.value.inj hfo
            omega
        · rw [if_neg hoI] at hfo
          rw [hfo] at ho
          rcases h4 w hw with hwF | ⟨_, _, hall⟩
          · exact ⟨w, hwF, ho⟩
          · rcases hall _ ho with hc | hc | hc | ⟨k, hk, hc⟩
            · cases hc
            · rcases hX with hX | hX
              · rw [← hc] at hX
                cases hX
              · rw [← hc] at hX
                exact ⟨Inst, hmem, hX⟩
            · rcases hY with hY | hY
              · rw [← hc] at hY
                cases hY
              · rw [← hc] at hY
                exact ⟨Inst, hmem, hY⟩
            · have hkj : j.id = k := Operand.value.inj hc
              omega
      · intro hone
        exact hnone (dividendIsOne_replace j Inst.id V hone)
    · exact Or.inl ⟨hnew, fun hop => dividendIsOne_replace j Inst.id V (hdiv hop)⟩

/-- The body of the loop on a candidate: names stay unique, and a candidate
afterwards was a candidate before and is not the expanded one. -/
theorem expand_spec (fold : ExpOpcode → Ty → List Operand → Const) (F : Func) (Inst : FInst)
    (hnd : (F.insts.map (fun i => i.id)).Nodup) (hlt : ∀ i ∈ F.insts, i.id < F.next)
    (hmem : Inst ∈ F.insts) :
    ((expand fold F Inst).insts.map (fun i => i.id)).Nodup
      ∧ (∀ i ∈ (expand fold F Inst).insts, i.id < (expand fold F Inst).next)
      ∧ F.next ≤ (expand fold F Inst).next
      ∧ ∀ i ∈ (expand fold F Inst).insts,
          (F.next ≤ i.id ∧ (i.opcode = .FDiv → i.dividendIsOne))
            ∨ ∃ j ∈ F.insts, j.id = i.id ∧ j.id ≠ Inst.id ∧ j.opcode = i.opcode
                ∧ (j.dividendIsOne → i.dividendIsOne)
                ∧ (isCandidateFDiv ((expand fold F Inst).toInstruction i) = true →
                    isCandidateFDiv (F.toInstruction j) = true) := by
  have hX : ∀ n, (Inst.operands.getD n (.const (.other 0))).isConstant = true
      ∨ Inst.operands.getD n (.const (.other 0)) ∈ Inst.operands := by
    intro n
    rcases getD_default_or_mem Inst.operands n (.const (.other 0)) with h | h
    · rw [h]
      exact Or.inl rfl
    · exact Or.inr h
  have hb := buildExpansion_builtFrom fold F (Inst.operands.getD 0 (.const (.other 0)))
    (Inst.operands.getD 1 (.const (.other 0))) Inst (builtFrom_refl F _ _ hnd hlt)
  exact replace_erase_spec F _ Inst _ _ _ hlt hmem (hX 0) (hX 1) hb.1 hb.2

/-- The loop of `expandFDIVInstructions`: when every candidate is still to be
visited, no candidate is left at the end, and every division with a name from
`N0` on has the dividend `1.0`. -/
theorem expandLoop_spec (fold : ExpOpcode → Ty → List Operand → Const) (N0 : Nat) :
    ∀ (rest : List Nat) (s : Func × Bool),
      (s.1.insts.map (fun i => i.id)).Nodup → (∀ i ∈ s.1.insts, i.id < s.1.next) →
      N0 ≤ s.1.next →
      (∀ i ∈ s.1.insts, N0 ≤ i.id → i.opcode = .FDiv → i.dividendIsOne) →
      (∀ i ∈ s.1.insts, isCandidateFDiv (s.1.toInstruction i) = true → i.id ∈ rest) →
      (∀ i ∈ (rest.foldl (expandStep fold) s).1.insts,
          isCandidateFDiv ((rest.foldl (expandStep fold) s).1.toInstruction i) = false)
        ∧ ∀ i ∈ (rest.foldl (expandStep fold) s).1.insts,
            N0 ≤ i.id → i.opcode = .FDiv → i.dividendIsOne := by
  intro rest
  induction rest with
  | nil =>
    intro s _ _ _ hone hcand
    refine ⟨?_, hone⟩
    intro i hi
    cases hc : isCandidateFDiv (s.1.toInstruction i) with
    | false => exact hc
    | true => exact absurd (hcand i hi hc) (List.not_mem_nil _)
  | cons id tail ih =>
    intro s hnd hlt hN hone hcand
    rw [List.foldl_cons]
    cases hf : s.1.find? id with
    | none =>
      have hs : expandStep fold s id = s := by
        unfold expandStep
        rw [hf]
      rw [hs]
      refine ih s hnd hlt hN hone ?_
      intro i hi hc
      rcases List.mem_cons.mp (hcand i hi hc) with h | h
      · exfalso
        have hnone := List.find?_eq_none.mp hf i hi
        apply hnone
        rw [h]
        exact beq_self_eq_true id
      · exact h
    | some Inst =>
      have hInst : Inst ∈ s.1.insts := List.mem_of_find?_eq_some hf
      have hid : Inst.id = id := by
        have := List.find?_some hf
        exact eq_of_beq this
      by_cases hci : isCandidateFDiv (s.1.toInstruction Inst) = true
      · have hs : expandStep fold s id = (expand fold s.1 Inst, true) := by
          unfold expandStep
          rw [hf]
          simp only [hci, Bool.not_true, Bool.false_eq_true, if_false]
        rw [hs]
        obtain ⟨e1, e2, e3, e4⟩ := expand_spec fold s.1 Inst hnd hlt hInst
        refine ih (expand fold s.1 Inst, true) e1 e2 (Nat.le_trans hN e3) ?_ ?_
        · intro i hi hNi hop
          rcases e4 i hi with ⟨_, hdiv⟩ | ⟨j, hj, hji, _, hjop, hpres, _⟩
          · exact hdiv hop
          · exact hpres (hone j hj (by omega) (by rw [hjop]; exact hop))
        · intro i hi hc
          rcases e4 i hi with ⟨_, hdiv⟩ | ⟨j, hj, hji, hne, _, _, hback⟩
          · exfalso
            obtain ⟨_, _, hop, hnone⟩ := (isCandidateFDiv_toInstruction _ _).mp hc
            exact hnone (hdiv hop)
          · rcases List.mem_cons.mp (hcand j hj (hback hc)) with h | h
            · exact absurd (h.trans hid.symm) hne
            · rw [← hji]
              exact h
      · have hs : expandStep fold s id = s := by
          unfold expandStep
          rw [hf]
          simp only [Bool.not_eq_true] at hci
          simp only [hci, Bool.not_false, if_true]
        rw [hs]
        refine ih s hnd hlt hN hone ?_
        intro i hi hc
        rcases List.mem_cons.mp (hcand i hi hc) with h | h
        · exfalso
          have heq : i = Inst := eq_of_id_eq s.1.insts hnd i Inst hi hInst (h.trans hid.symm)
          rw [heq] at hc
          exact hci hc
        · exact h

/-- On a function without candidates the loop changes nothing and `Changed` stays
`false`. -/
theorem expandLoop_fixed (fold : ExpOpcode → Ty → List Operand → Const) (F : Func)
    (h : ∀ i ∈ F.insts, isCandidateFDiv (F.toInstruction i) = false) :
    ∀ rest : List Nat, rest.foldl (expandStep fold) (F, false) = (F, false) := by
  intro rest
  induction rest with
  | nil => rfl
  | cons id tail ih =>
    rw [List.foldl_cons]
    have hs : expandStep fold (F, false) id = (F, false) := by
      unfold expandStep
      cases hf : F.find? id with
      | none => rfl
      | some Inst =>
        have hc := h Inst (List.mem_of_find?_eq_some hf)
        simp only [hc, Bool.not_false, if_true]
    rw [hs]
    exact ih

/-- C35: for every function (with unique instruction names), after
`expandFDIVInstructions` has run no instruction satisfies `isCandidateFDiv`;
every division it has created (an instruction with a new name) has a constant
that is exactly `1.0` as dividend; and a second run returns `false` and leaves
the function as it is. -/
theorem expandFDIVInstructions_no_candidate (fold : ExpOpcode → Ty → List Operand → Const)
    (F : Func) (hwf : F.wellFormed = true) :
    (∀ Inst ∈ (expandFDIVInstructions fold F).1.insts,
        isCandidateFDiv ((expandFDIVInstructions fold F).1.toInstruction Inst) = false)
      ∧ (∀ Inst ∈ (expandFDIVInstructions fold F).1.insts,
          F.next ≤ Inst.id → Inst.opcode = .FDiv → Inst.dividendIsOne)
      ∧ expandFDIVInstructions fold (expandFDIVInstructions fold F).1
          = ((expandFDIVInstructions fold F).1, false) := by
  have hnd : (F.insts.map (fun i => i.id)).Nodup := by
    simp only [Func.wellFormed, Bool.and_eq_true, decide_eq_true_eq] at hwf
    exact hwf.1
  have hlt : ∀ i ∈ F.insts, i.id < F.next := by
    simp only [Func.wellFormed, Bool.and_eq_true, decide_eq_true_eq, List.all_eq_true] at hwf
    exact hwf.2
  have hloop := expandLoop_spec fold F.next (F.insts.map (fun i => i.id)) (F, false) hnd hlt
    (Nat.le_refl _)
    (fun i hi hN => absurd (hlt i hi) (by omega))
    (fun i hi _ => List.mem_map_of_mem _ hi)
  exact ⟨hloop.1, hloop.2, expandLoop_fixed fold _ hloop.1 _⟩

/-- C35 on `divExample`, with a constant folder that returns `undef`. -/
theorem expandFDIVInstructions_no_candidate_witness :
    divExample.wellFormed = true
      ∧ (∀ Inst ∈ (expandFDIVInstructions (fun _ _ _ => .other 0) divExample).1.insts,
          isCandidateFDiv
            ((expandFDIVInstructions (fun _ _ _ => .other 0) divExample).1.toInstruction Inst)
              = false)
      ∧ expandFDIVInstructions (fun _ _ _ => .other 0)
          (expandFDIVInstructions (fun _ _ _ => .other 0) divExample).1
        = ((expandFDIVInstructions (fun _ _ _ => .other 0) divExample).1, false) :=
  ⟨by decide,
    (expandFDIVInstructions_no_candidate (fun _ _ _ => .other 0) divExample (by decide)).1,
    (expandFDIVInstructions_no_candidate (fun _ _ _ => .other 0) divExample (by decide)).2.2⟩

/-- The run on `divExample`: the three divisions are candidates and are expanded
(`Changed` is returned `true`), the scaled expansion of `%1` creates ten
instructions, the `half` expansion of `%2` two, and the expansion of `%3`, whose
reciprocal of `3.0` is folded, one; the divisions left are the three created
ones. -/
theorem expandFDIVInstructions_divExample :
    (expandFDIVInstructions (fun _ _ _ => .other 0) divExample).2 = true
      ∧ (expandFDIVInstructions (fun _ _ _ => .other 0) divExample).1.insts.map
          (fun i => (i.id, i.opcode))
        = [(7, .BitCast), (8, .And), (9, .ICmpEQ), (10, .Select), (11, .ICmpUGE), (12, .Select),
            (13, .FMul), (14, .FDiv), (15, .FMul), (16, .FMul), (17, .FDiv), (18, .FMul),
            (19, .FMul), (4, .FPExt), (5, .Other), (6, .Other)]
      ∧ (expandFDIVInstructions (fun _ _ _ => .other 0) divExample).1.find? 19
        = some ⟨19, .float, .FMul, [.const (.other 0), .value 16], false⟩
      ∧ (expandFDIVInstructions (fun _ _ _ => .other 0) divExample).1.find? 5
        = some ⟨5, .float, .Other, [.value 19, .value 4], false⟩ := by
  refine ⟨?_, ?_, ?_, ?_⟩ <;> decide

end IGC
